import Mathlib

/-!
# Sparse-set component stores, registry, world and views of the ECS runtime

Shallow embedding of `world.hpp`, `world-imp.hpp` and `component-view-imp.hpp`.

* `std::vector<T>` is a `List T`.
* `ID_T` is `uint32_t` (the `World` alias) and `size_t` is 64 bits wide; both are
  natural numbers, with the wrap-around written out where the source casts or
  subtracts.
* An access the C++ standard leaves undefined (indexing past the end of a vector,
  `back()`/`pop_back()` on an empty vector, dereferencing a null pointer) makes the
  operation return `none`.
* A pointer into the dense array `arr_` is the offset of the slot it points to;
  `nullptr` is `none`.
* A component constructor that throws is the argument `none` of `insert`.
-/

namespace ECS

/-- Value of `std::numeric_limits<ID_T>::max()` for `ID_T = uint32_t`, which is `2 ^ 32 - 1`;
it is also the id held by `Entity::invalid()`. -/
def ID_MAX : Nat := 4294967295

/-- Number of values of `ID_T = uint32_t`, `2 ^ 32`. -/
def ID_MOD : Nat := 4294967296

/-- Value of `std::numeric_limits<size_t>::max()`, `2 ^ 64 - 1`. -/
def SIZE_MAX : Nat := 18446744073709551615

/-- Number of values of `size_t`, `2 ^ 64`. -/
def SIZE_MOD : Nat := 18446744073709551616

/-- The call `vec.resize(n, v)` of `std::vector`. -/
def resize {β : Type} (l : List β) (n : Nat) (v : β) : List β :=
  l.take n ++ List.replicate (n - l.length) v

/-- The assignment `vec[i] = x`; undefined when `i` is past the end. -/
def write {β : Type} (l : List β) (i : Nat) (x : β) : Option (List β) :=
  if i < l.length then some (l.set i x) else none

/-- The call `vec.pop_back()`; undefined on an empty vector. -/
def pop_back {β : Type} (l : List β) : Option (List β) :=
  if l.length = 0 then none else some l.dropLast

/-- The class `TCompArray<COMP, ID_T>`: dense components, sparse forward map
(entity id to dense index) and reverse map (dense index to entity id). -/
structure TCompArray (α : Type) where
  /-- Dense array of components. -/
  arr_ : List α
  /-- Forward map, indexed by entity id; `ID_MAX` marks an absent entity. -/
  map_ : List Nat
  /-- Reverse map, indexed by dense index. -/
  revMap_ : List Nat
deriving DecidableEq, Repr

namespace TCompArray

variable {α : Type}

/-- The constructor `TCompArray()`: three empty vectors. -/
def empty : TCompArray α := ⟨[], [], []⟩

/-- The method `size()`. -/
def size (s : TCompArray α) : Nat := s.arr_.length

/-- The method `insert(id, args...)`. The argument `args` is `some v` when `COMP{args...}`
yields `v` and `none` when the constructor throws (the exception is caught and printed).
The sum `id + 1` is computed in `ID_T`, the difference `arr_.size() - 1` in `size_t` and
then cast to `ID_T`. -/
def insert (s : TCompArray α) (id : Nat) (args : Option α) : Option (Bool × TCompArray α) :=
  if s.map_.length > id ∧ s.map_.getD id ID_MAX ≠ ID_MAX then
    some (false, s)
  else
    let arr := match args with
      | some v => s.arr_ ++ [v]
      | none => s.arr_
    let map1 := if s.map_.length ≤ id then resize s.map_ ((id + 1) % ID_MOD) ID_MAX else s.map_
    (write map1 id (((arr.length + SIZE_MOD - 1) % SIZE_MOD) % ID_MOD)).bind fun map2 =>
    some (true, ⟨arr, map2, s.revMap_ ++ [id]⟩)

/-- The method `remove(id)`. -/
def remove (s : TCompArray α) (id : Nat) : Option (TCompArray α) :=
  if s.map_.length ≤ id ∨ s.map_.getD id ID_MAX = ID_MAX then
    some s
  else
    let index := s.map_.getD id ID_MAX
    s.arr_.getLast?.bind fun last =>
    (write s.arr_ index last).bind fun arr1 =>
    s.revMap_.getLast?.bind fun rlast =>
    (write s.revMap_ index rlast).bind fun rev1 =>
    (pop_back arr1).bind fun arr2 =>
    (pop_back rev1).bind fun rev2 =>
    (write s.map_ id ID_MAX).bind fun map1 =>
    if index ≥ rev2.length then
      some ⟨arr2, map1, rev2⟩
    else if rev2.length > 0 ∧ rev2.getD index ID_MAX ≠ ID_MAX then
      (write map1 (rev2.getD index ID_MAX) (index % ID_MOD)).bind fun map2 =>
      some ⟨arr2, map2, rev2⟩
    else
      some ⟨arr2, map1, rev2⟩

/-- The method `get(id)`: a pointer to the component of `id`, as its offset in `arr_`,
or `nullptr`. -/
def get (s : TCompArray α) (id : Nat) : Option Nat :=
  if s.map_.length ≤ id ∨ s.map_.getD id ID_MAX = ID_MAX ∨ s.arr_.length ≤ s.map_.getD id ID_MAX then
    none
  else
    some (s.map_.getD id ID_MAX)

/-- The method `get_by_index(i)`: a pointer to slot `i`, or `nullptr`. -/
def get_by_index (s : TCompArray α) (i : Nat) : Option Nat :=
  if i ≥ s.arr_.length then none else some i

/-- The component a pointer into `arr_` points to. -/
def deref (s : TCompArray α) (p : Option Nat) : Option α :=
  p.bind fun k => s.arr_[k]?

/-- The method `get_id(size_t index)`: `revMap_[index]`, undefined past the end. -/
def get_id (s : TCompArray α) (index : Nat) : Option Nat :=
  s.revMap_[index]?

/-- The method `contains(id)`: the pointer returned by `get(id)` converted to `bool`. -/
def contains (s : TCompArray α) (id : Nat) : Bool :=
  (s.get id).isSome

/-- The method `index_of(ent)`. -/
def index_of (s : TCompArray α) (ent : Nat) : Nat :=
  if s.map_.length ≤ ent ∨ s.map_.getD ent ID_MAX = ID_MAX then SIZE_MAX
  else s.map_.getD ent ID_MAX

end TCompArray

/-- The class `TCompRegistry<ID_T>`: slot `k` of `reg_` owns the store of the component type
whose type id in the component family is `k`, or is `nullptr`. The stores are type-erased
in the source; here they all hold components of one value type `α`. -/
structure TCompRegistry (α : Type) where
  /-- Table of store handles, indexed by type id. -/
  reg_ : List (Option (TCompArray α))
deriving DecidableEq, Repr

namespace TCompRegistry

variable {α : Type}

/-- The store a handle refers to: the object behind `reg_[key]`, an empty store where the
registry has no object yet. -/
def store (r : TCompRegistry α) (key : Nat) : TCompArray α :=
  (r.reg_.getD key none).getD TCompArray.empty

/-- The method `get_array<COMP>()`, `key` being `get_type_id<COMP, ComponentFamily>()`:
grows `reg_`, creates the store when the slot is null, and returns the registry together
with the store the returned reference designates. -/
def get_array (r : TCompRegistry α) (key : Nat) : TCompRegistry α × TCompArray α :=
  let reg1 := if r.reg_.length ≤ key then resize r.reg_ (key + 1) none else r.reg_
  let reg2 := if (reg1.getD key none).isNone then reg1.set key (some TCompArray.empty) else reg1
  (⟨reg2⟩, (reg2.getD key none).getD TCompArray.empty)

/-- Assignment through the reference returned by `get_array<COMP>()`. -/
def put (r : TCompRegistry α) (key : Nat) (s : TCompArray α) : TCompRegistry α :=
  ⟨r.reg_.set key (some s)⟩

/-- The loop of `remove_all_of(id)` over the handles of `reg_`. -/
def remove_all_loop (id : Nat) : List (Option (TCompArray α)) → Option (List (Option (TCompArray α)))
  | [] => some []
  | none :: rest => (remove_all_loop id rest).map fun rest1 => none :: rest1
  | some arr :: rest =>
    if arr.contains id then
      (arr.remove id).bind fun arr1 =>
      (remove_all_loop id rest).map fun rest1 => some arr1 :: rest1
    else
      (remove_all_loop id rest).map fun rest1 => some arr :: rest1

/-- The method `remove_all_of(id)`. -/
def remove_all_of (r : TCompRegistry α) (id : Nat) : Option (TCompRegistry α) :=
  (remove_all_loop id r.reg_).map TCompRegistry.mk

end TCompRegistry

/-- The struct `ComponentSet<ID_T, COMPS...>`: an entity and one entry per queried type. An
entry is a pointer into the dense array of its store (`none` is `nullptr`). -/
structure ComponentSet where
  /-- Entity of the row. -/
  entity : Nat
  /-- Entries `a`, `b`, ... -/
  slots : List (Option Nat)
deriving DecidableEq, Repr

/-- The class `TComponentView<ID_T, COMPS...>` without its back-reference to the world, which
the operations below take as an argument. A queried type is its type id paired with
`std::is_pointer_v` of the template argument (`true` for an observational `T*`). -/
structure TComponentView where
  /-- Template arguments `COMPS...`. -/
  comps : List (Nat × Bool)
  /-- Array `ind_` of `numberComps` index vectors. -/
  ind_ : List (List Nat)
deriving DecidableEq, Repr

/-- The class `TWorld<ID_T>`; `σ` is the type of the system packages. -/
structure TWorld (α σ : Type) where
  /-- Counter of `entity_new`. -/
  lastUsed_ : Nat
  /-- Component registry. -/
  compReg_ : TCompRegistry α
  /-- Systems bound to `tick`. -/
  sysTick_ : List σ
  /-- Systems bound to `tickBegin`. -/
  sysTickBegin_ : List σ
  /-- Systems bound to `tickEnd`. -/
  sysTickEnd_ : List σ
  /-- Entities queued by `entity_destroy_delayed`. -/
  removeList_ : List Nat
deriving DecidableEq, Repr

namespace TWorld

variable {α σ : Type}

/-- The default constructor `TWorld()`. -/
def empty : TWorld α σ := ⟨0, ⟨[]⟩, [], [], [], []⟩

/-- The method `entity_destroy(e)`. -/
def entity_destroy (w : TWorld α σ) (e : Nat) : Option (TWorld α σ) :=
  (w.compReg_.remove_all_of e).map fun r => { w with compReg_ := r }

/-- The method `comp_add<COMP>(e, args...)`, `key` being the type id of `COMP`. -/
def comp_add (w : TWorld α σ) (key : Nat) (e : Nat) (args : Option α) : Option (TWorld α σ) :=
  let ra := w.compReg_.get_array key
  (ra.2.insert e args).map fun res => { w with compReg_ := ra.1.put key res.2 }

/-- The method `comp_remove<COMP>(e)`. -/
def comp_remove (w : TWorld α σ) (key : Nat) (e : Nat) : Option (TWorld α σ) :=
  let ra := w.compReg_.get_array key
  (ra.2.remove e).map fun arr1 => { w with compReg_ := ra.1.put key arr1 }

/-- The method `comp_get<COMP>(e)`: the world after the store of `COMP` has been
materialized, and the pointer. -/
def comp_get (w : TWorld α σ) (key : Nat) (e : Nat) : TWorld α σ × Option Nat :=
  let ra := w.compReg_.get_array key
  ({ w with compReg_ := ra.1 }, ra.2.get e)

/-- The method `comp_get_entity<COMP>(index)`. -/
def comp_get_entity (w : TWorld α σ) (key : Nat) (index : Nat) : Option (TWorld α σ × Nat) :=
  let ra := w.compReg_.get_array key
  (ra.2.get_id index).map fun ent => ({ w with compReg_ := ra.1 }, ent)

/-- The initializer of `indices` in `view_get`: one lambda per queried type, run left to
right, sharing the flag `noNull`. -/
def view_indices (ent : Nat) :
    List (Nat × Bool) → TCompRegistry α → Bool → TCompRegistry α × Bool × List Nat
  | [], r, noNull => (r, noNull, [])
  | c :: cs, r, noNull =>
    if noNull then
      let ra := r.get_array c.1
      let i := ra.2.index_of ent
      let noNull1 := if i = SIZE_MAX ∧ c.2 = false then false else true
      let rest := view_indices ent cs ra.1 noNull1
      (rest.1, rest.2.1, i :: rest.2.2)
    else
      let rest := view_indices ent cs r noNull
      (rest.1, rest.2.1, 0 :: rest.2.2)

/-- The loop `for (j ...) ret.ind_[j].push_back(indices[j])` of `view_get`. -/
def push_row (ind : List (List Nat)) (indices : List Nat) : List (List Nat) :=
  List.zipWith (fun col x => col ++ [x]) ind indices

/-- The loop of `view_get` over the dense indices `i` of the anchor store, whose type id is
`anchor`. -/
def view_loop (comps : List (Nat × Bool)) (anchor : Nat) :
    List Nat → TCompRegistry α → List (List Nat) → Option (TCompRegistry α × List (List Nat))
  | [], r, ind => some (r, ind)
  | i :: is, r, ind =>
    ((r.store anchor).get_id i).bind fun ent =>
    let res := view_indices ent comps r true
    view_loop comps anchor is res.1 (if res.2.1 then push_row ind res.2.2 else ind)

/-- The method `view_get<COMP...>()`: the world after the stores it touches have been
materialized, and the view. -/
def view_get (w : TWorld α σ) (comps : List (Nat × Bool)) : Option (TWorld α σ × TComponentView) :=
  match comps with
  | [] => some (w, ⟨[], []⟩)
  | c :: _ =>
    let ra := w.compReg_.get_array c.1
    (view_loop comps c.1 (List.range ra.2.arr_.length) ra.1
      (List.replicate comps.length [])).map fun res =>
      ({ w with compReg_ := res.1 }, ⟨comps, res.2⟩)

end TWorld

namespace TComponentView

variable {α σ : Type}

/-- The method `size()`: `ind_[0].size()`, and `0` for the view of no type. -/
def size (v : TComponentView) : Nat := (v.ind_.getD 0 []).length

/-- The pack expansion of `operator[]` and `each`: for each queried type in turn, the pointer
`get_by_index(ind_[j][i])`, dereferenced by `MaybeDeref` unless the type is a pointer type. -/
def slots (i : Nat) :
    List (Nat × Bool) → List (List Nat) → TCompRegistry α →
      Option (TCompRegistry α × List (Option Nat))
  | [], _, r => some (r, [])
  | _ :: _, [], _ => none
  | c :: cs, col :: cols, r =>
    col[i]?.bind fun k =>
    let ra := r.get_array c.1
    let p := ra.2.get_by_index k
    if c.2 = false ∧ p.isNone then none
    else (slots i cs cols ra.1).map fun rest => (rest.1, p :: rest.2)

/-- The operator `operator[](i)` of a view whose `world_` is `w`. -/
def get (v : TComponentView) (w : TWorld α σ) (i : Nat) : Option (TWorld α σ × ComponentSet) :=
  match v.comps, v.ind_ with
  | c :: _, col :: _ =>
    col[i]?.bind fun k =>
    (w.comp_get_entity c.1 k).bind fun we =>
    (slots i v.comps v.ind_ we.1.compReg_).map fun rs =>
      ({ we.1 with compReg_ := rs.1 }, ⟨we.2, rs.2⟩)
  | _, _ => none

end TComponentView

namespace TCompArray
variable {α : Type}

/-- The sparse-set invariant of a store: the dense array and the reverse map have the same
length, every dense index is the forward image of its owner, and every forward entry other
than the sentinel points at a dense slot owned by that entity. The forward map moreover has
at most `ID_MAX` entries: `insert` only ever resizes it to `id + 1` computed in `ID_T`. -/
def WF (s : TCompArray α) : Prop :=
  s.arr_.length = s.revMap_.length ∧
  s.map_.length ≤ ID_MAX ∧
  (∀ i, i < s.revMap_.length → s.map_[s.revMap_.getD i 0]? = some i) ∧
  (∀ e, e < s.map_.length → s.map_.getD e ID_MAX ≠ ID_MAX →
    s.revMap_[s.map_.getD e ID_MAX]? = some e)

instance (s : TCompArray α) : Decidable (WF s) := by
  unfold WF; infer_instance

/-- The forward entry of an entity read as an optional dense index: `none` when the id is past
the end of `map_` or its entry is the sentinel. -/
def fwd (s : TCompArray α) (e : Nat) : Option Nat :=
  match s.map_[e]? with
  | some m => if m = ID_MAX then none else some m
  | none => none

/-- The forward map after the growth step and the write of `insert` for a fresh valid id. -/
def insertedMap (s : TCompArray α) (id : Nat) : List Nat :=
  (if s.map_.length ≤ id then s.map_ ++ List.replicate (id + 1 - s.map_.length) ID_MAX
    else s.map_).set id s.arr_.length

end TCompArray

/-- One call on a store: `insert(id, args...)` whose constructor yields the component `v`, or
`remove(id)`. -/
inductive StoreOp (α : Type) where
  | insert (id : Nat) (v : α)
  | remove (id : Nat)

namespace StoreOp
variable {α : Type}

/-- The entity id a call is made with. -/
def id : StoreOp α → Nat
  | insert id _ => id
  | remove id => id

/-- The store after one call. -/
def apply (s : TCompArray α) : StoreOp α → Option (TCompArray α)
  | insert id v => (s.insert id (some v)).map Prod.snd
  | remove id => s.remove id

end StoreOp

/-- The store after a sequence of calls, made in order. -/
def runOps {α : Type} (s : TCompArray α) : List (StoreOp α) → Option (TCompArray α)
  | [] => some s
  | op :: ops => (op.apply s).bind fun t => runOps t ops

namespace TCompRegistry
variable {α : Type}

/-- The invariant of a registry: every store it owns satisfies the sparse-set invariant. -/
def WF (r : TCompRegistry α) : Prop := ∀ key, (r.store key).WF

instance (r : TCompRegistry α) : Decidable r.WF :=
  decidable_of_iff (∀ slot ∈ r.reg_, ∀ s ∈ slot, TCompArray.WF s) (by
    unfold WF store
    constructor
    · intro h key
      rw [List.getD_eq_getElem?_getD]
      cases hk : r.reg_[key]? with
      | none => exact ⟨rfl, Nat.zero_le _, fun i hi => absurd hi (Nat.not_lt_zero i),
          fun e he => absurd he (Nat.not_lt_zero e)⟩
      | some slot =>
        cases slot with
        | none => exact ⟨rfl, Nat.zero_le _, fun i hi => absurd hi (Nat.not_lt_zero i),
            fun e he => absurd he (Nat.not_lt_zero e)⟩
        | some s => exact h (some s) (List.mem_iff_getElem?.mpr ⟨key, hk⟩) s rfl
    · intro h slot hslot s hs
      obtain ⟨key, hk⟩ := List.mem_iff_getElem?.mp hslot
      have := h key
      rw [List.getD_eq_getElem?_getD, hk] at this
      cases hs
      exact this)

/-- Whether entity `ent` owns a component of every required (non-pointer) type of `comps`. -/
def hasRequired (r : TCompRegistry α) (comps : List (Nat × Bool)) (ent : Nat) : Bool :=
  comps.all fun c => c.2 || (r.store c.1).contains ent

/-- The owners held by the store of type `anchor`, in dense order, that own every required
type of `comps`. -/
def keptEntities (r : TCompRegistry α) (comps : List (Nat × Bool)) (anchor : Nat) : List Nat :=
  (r.store anchor).revMap_.filter (r.hasRequired comps)

end TCompRegistry
namespace TComponentView
variable {α σ : Type}

/-- Forward iteration over the listed row numbers: the sets `v[i]` in turn, each computed in
the world the previous one left. -/
def rows_loop (v : TComponentView) : List Nat → TWorld α σ → Option (List ComponentSet)
  | [], _ => some []
  | i :: is, w =>
    (v.get w i).bind fun wr => (rows_loop v is wr.1).map fun rest => wr.2 :: rest

/-- Forward iteration from `begin()` to `end()`: the sets `v[0]`, ..., `v[size() - 1]`. -/
def rows (v : TComponentView) (w : TWorld α σ) : Option (List ComponentSet) :=
  rows_loop v (List.range v.size) w

end TComponentView

/-- The scenario of the specification, with `X` the type of id 0 and `Y` the type of id 1:
`X = 10` on entity 1, `X = 20` on entity 2 and a `Y` (here `7`) on entity 2 only, added in that
order to a new world. -/
def scenario : Option (TWorld Nat Unit) :=
  ((TWorld.empty : TWorld Nat Unit).comp_add 0 1 (some 10)).bind fun w1 =>
  (w1.comp_add 0 2 (some 20)).bind fun w2 =>
  w2.comp_add 1 2 (some 7)

namespace TWorld
variable {α σ : Type}

/-- The method `entity_new()`: `return lastUsed_++;`, the increment being made in `ID_T`. -/
def entity_new (w : TWorld α σ) : Nat × TWorld α σ :=
  (w.lastUsed_, { w with lastUsed_ := (w.lastUsed_ + 1) % ID_MOD })

/-- The identities returned by `n` successive calls of `entity_new()`, and the world they
leave. -/
def entity_new_calls : Nat → TWorld α σ → List Nat × TWorld α σ
  | 0, w => ([], w)
  | n + 1, w =>
    let r := entity_new_calls n w.entity_new.2
    (w.entity_new.1 :: r.1, r.2)

/-- The method `entity_destroy_delayed(e)`. -/
def entity_destroy_delayed (w : TWorld α σ) (e : Nat) : TWorld α σ :=
  { w with removeList_ := w.removeList_ ++ [e] }

/-- The loop `for (Entity e : removeList_) entity_destroy(e);` of `process_remove`. -/
def process_remove_loop : List Nat → TWorld α σ → Option (TWorld α σ)
  | [], w => some w
  | e :: es, w => (w.entity_destroy e).bind fun w1 => process_remove_loop es w1

/-- The method `process_remove()`. -/
def process_remove (w : TWorld α σ) : Option (TWorld α σ) :=
  (process_remove_loop w.removeList_ w).map fun w1 => { w1 with removeList_ := [] }

/-- Specification of the flush of deferred removals, in the words of the specification:
every pending entity is destroyed, in insertion order. -/
def destroy_in_order (w : TWorld α σ) (pending : List Nat) : Option (TWorld α σ) :=
  pending.foldlM (fun u e => u.entity_destroy e) w

end TWorld
namespace TComponentView
variable {α σ : Type}

/-- The pack expansion of `get_by_entity`: for each queried type in turn, the pointer
`world_.comp_get<T>(ent)`, dereferenced by `MaybeDeref` unless the type is a pointer type. -/
def entity_slots (ent : Nat) :
    List (Nat × Bool) → TWorld α σ → Option (TWorld α σ × List (Option Nat))
  | [], w => some (w, [])
  | c :: cs, w =>
    let wp := w.comp_get c.1 ent
    if c.2 = false ∧ wp.2.isNone then none
    else (entity_slots ent cs wp.1).map fun rest => (rest.1, wp.2 :: rest.2)

/-- The method `get_by_entity(ent)` of a view whose `world_` is `w`; the inner option is the
returned `std::optional`. Nothing in the `try` block throws (`comp_get` returns a null
pointer for a missing component, and dereferencing it is undefined behaviour, not an
exception), so the handler that returns `std::nullopt` is never entered. -/
def get_by_entity (v : TComponentView) (w : TWorld α σ) (ent : Nat) :
    Option (TWorld α σ × Option ComponentSet) :=
  (entity_slots ent v.comps w).map fun rs => (rs.1, some ⟨ent, rs.2⟩)

end TComponentView

/-- The enum `TWorld::EventTypes`. -/
inductive EventTypes where
  | none
  | tick
  | tickBegin
  | tickEnd
deriving DecidableEq, Repr

namespace TWorld
variable {α σ : Type}

/-- The method `sys_add<SYS>(evT, args...)`, `sp` being the package built around the new
system: it is pushed on the list of its phase, and dropped for `EventTypes::none`. -/
def sys_add (w : TWorld α σ) (evT : EventTypes) (sp : σ) : TWorld α σ :=
  match evT with
  | EventTypes.none => w
  | EventTypes.tick => { w with sysTick_ := w.sysTick_ ++ [sp] }
  | EventTypes.tickBegin => { w with sysTickBegin_ := w.sysTickBegin_ ++ [sp] }
  | EventTypes.tickEnd => { w with sysTickEnd_ := w.sysTickEnd_ ++ [sp] }

/-- A sequence of `sys_add` calls, made in order. -/
def sys_add_all (w : TWorld α σ) : List (EventTypes × σ) → TWorld α σ
  | [] => w
  | reg :: regs => sys_add_all (w.sys_add reg.1 reg.2) regs

/-- One loop `for (auto& s : list) s.bPtr_->run(this);` of `tick`, where `run s u` is the
world the call `s.bPtr_->run(this)` leaves when made in world `u` (`none` when it does not
return): the world after the loop and the packages that were run, in order. -/
def run_phase (run : σ → TWorld α σ → Option (TWorld α σ)) :
    List σ → TWorld α σ → Option (TWorld α σ × List σ)
  | [], w => some (w, [])
  | s :: ss, w =>
    (run s w).bind fun w1 => (run_phase run ss w1).map fun r => (r.1, s :: r.2)

/-- The method `tick()`: the three loops in turn, each over the list as it stands when the
loop starts. The second component is the sequence of packages run. -/
def tick (run : σ → TWorld α σ → Option (TWorld α σ)) (w : TWorld α σ) :
    Option (TWorld α σ × List σ) :=
  (run_phase run w.sysTickBegin_ w).bind fun r1 =>
  (run_phase run r1.1.sysTick_ r1.1).bind fun r2 =>
  (run_phase run r2.1.sysTickEnd_ r2.1).map fun r3 => (r3.1, r1.2 ++ r2.2 ++ r3.2)

end TWorld
namespace TCompRegistry
variable {α : Type}

/-- Assignment of the value `v` through a reference to the component at offset `p` of the
store of type `key`. -/
def poke (r : TCompRegistry α) (key p : Nat) (v : α) : TCompRegistry α :=
  r.put key { r.store key with arr_ := (r.store key).arr_.set p v }

end TCompRegistry

namespace TWorld
variable {α σ : Type}

/-- The components a tuple of pointers refers to, as (type id, offset, value); undefined when
a pointer is null or past the end of its dense array. -/
def deref_all (r : TCompRegistry α) : List Nat → List (Option Nat) → Option (List (Nat × Nat × α))
  | [], [] => some []
  | k :: ks, some p :: ps =>
    ((r.store k).arr_[p]?).bind fun v => (deref_all r ks ps).map fun rest => (k, p, v) :: rest
  | _, _ => none

/-- The writes a callback makes through the references it was given: component by component,
the new value. A callback changes component values only (no structural mutation). -/
def write_all (r : TCompRegistry α) : List (Nat × Nat × α) → List α → TCompRegistry α
  | t :: ts, v :: vs => write_all (r.poke t.1 t.2.1 v) ts vs
  | _, _ => r

/-- The call `func(*ptr...)` of `each_func_exec` and `each_single`: the callback `f` maps the
values of the components it is given to the values it leaves in them. Returns the registry
after the call and the offsets of the components `f` was invoked on. -/
def each_func_exec (f : List α → List α) (keys : List Nat) (ptrs : List (Option Nat))
    (r : TCompRegistry α) : Option (TCompRegistry α × List Nat) :=
  (deref_all r keys ptrs).map fun targets =>
    (write_all r targets (f (targets.map fun t => t.2.2)), targets.map fun t => t.2.1)

/-- The loop of `each_single<T>(func)` over the dense indices. -/
def each_single_loop (f : List α → List α) (key : Nat) :
    List Nat → TCompRegistry α → Option (TCompRegistry α × List (List Nat))
  | [], r => some (r, [])
  | i :: is, r =>
    (each_func_exec f [key] [some i] r).bind fun ex =>
    (each_single_loop f key is ex.1).map fun rest => (rest.1, ex.2 :: rest.2)

/-- The method `each_single<T>(func)`: the world it leaves and the sequence of component
tuples (here single offsets) on which `func` was invoked. -/
def each_single (f : List α → List α) (w : TWorld α σ) (key : Nat) :
    Option (TWorld α σ × List (List Nat)) :=
  let ra := w.compReg_.get_array key
  (each_single_loop f key (List.range ra.2.arr_.length) ra.1).map fun res =>
    ({ w with compReg_ := res.1 }, res.2)

/-- The method `each_get_ptr<COMP>(i, fromCompArr, noNull)`: the registry, the flag `noNull`
and the returned pointer. -/
def each_get_ptr (r : TCompRegistry α) (key i : Nat) (fromCompArr : TCompArray α)
    (noNull : Bool) : Option (TCompRegistry α × Bool × Option Nat) :=
  if noNull = false then some (r, false, none)
  else
    let ra := r.get_array key
    (fromCompArr.get_id i).map fun ent =>
      match ra.2.get ent with
      | none => (ra.1, false, none)
      | some p => (ra.1, true, some p)

/-- The arguments of `std::make_tuple(each_get_ptr<COMP>(i, compArr, noNull)...)`. The order
in which the arguments of a call are evaluated is unspecified: `order` lists the argument
positions in the order they are evaluated. Returns the registry, the flag and the pointer
obtained for each position evaluated. -/
def each_ptrs (keys : List Nat) (anchor i : Nat) :
    List Nat → TCompRegistry α → Bool →
      Option (TCompRegistry α × Bool × List (Nat × Option Nat))
  | [], r, noNull => some (r, noNull, [])
  | j :: js, r, noNull =>
    (each_get_ptr r (keys.getD j 0) i (r.store anchor) noNull).bind fun res =>
    (each_ptrs keys anchor i js res.1 res.2.1).map fun rest =>
      (rest.1, rest.2.1, (j, res.2.2) :: rest.2.2)

/-- The tuple `ptrs`, position by position, from the pointers obtained by `each_ptrs`. -/
def each_tuple (n : Nat) (evaluated : List (Nat × Option Nat)) : List (Option Nat) :=
  (List.range n).map fun j => (evaluated.lookup j).getD none

/-- The loop of `each<COMP...>(func)` for two or more types, over the dense indices of the
store of the first type. -/
def each_loop (f : List α → List α) (order : List Nat) (keys : List Nat) (anchor : Nat) :
    List Nat → TCompRegistry α → Option (TCompRegistry α × List (List Nat))
  | [], r => some (r, [])
  | i :: is, r =>
    (each_ptrs keys anchor i order r true).bind fun res =>
      if res.2.1 then
        (each_func_exec f keys (each_tuple keys.length res.2.2) res.1).bind fun ex =>
        (each_loop f order keys anchor is ex.1).map fun rest => (rest.1, ex.2 :: rest.2)
      else
        each_loop f order keys anchor is res.1

/-- The method `each<COMP...>(func)`, `keys` being the type ids of `COMP...`: the world it
leaves and the sequence of component tuples (offsets into the stores of `keys`) on which
`func` was invoked. An empty `COMP...` is rejected by the `static_assert`. -/
def each (f : List α → List α) (order : List Nat) (w : TWorld α σ) (keys : List Nat) :
    Option (TWorld α σ × List (List Nat)) :=
  match keys with
  | [] => none
  | [key] => each_single f w key
  | key :: _ :: _ =>
    let ra := w.compReg_.get_array key
    (each_loop f order keys key (List.range ra.2.arr_.length) ra.1).map fun res =>
      ({ w with compReg_ := res.1 }, res.2)

end TWorld

/-- Two stores with the same structure: dense arrays of the same length, the same forward
map and the same reverse map. Only component values may differ. -/
def TCompArray.SameShape {α : Type} (t s : TCompArray α) : Prop :=
  t.arr_.length = s.arr_.length ∧ t.map_ = s.map_ ∧ t.revMap_ = s.revMap_

/-- Two registries whose stores have the same structure, type by type. -/
def TCompRegistry.SameShape {α : Type} (t r : TCompRegistry α) : Prop :=
  ∀ k, (t.store k).SameShape (r.store k)

namespace TCompArray
variable {α : Type}

/-- The method `get_id(COMP& comp)`: `revMap_[&comp - arr_.data()]`. Addresses are counted in
units of one component: `data` is `arr_.data()` and `comp` the address of the component
referred to, so the reference to `arr_[i]` is the address `data + i`. An address below
`data` or past the end of `revMap_` makes the access undefined. -/
def get_id_ref (s : TCompArray α) (data comp : Nat) : Option Nat :=
  if comp < data then none else s.revMap_[comp - data]?

/-- The forward map after the growth step of `insert(id, ...)`:
`if (map_.size() <= id) map_.resize(static_cast<size_t>(id + 1), max)`, the sum `id + 1`
being computed in `ID_T`. -/
def grown_map (s : TCompArray α) (id : Nat) : List Nat :=
  if s.map_.length ≤ id then resize s.map_ ((id + 1) % ID_MOD) ID_MAX else s.map_

end TCompArray

/-- One call on a store: `insert(id, args...)`, the constructor yielding a component
(`some v`) or throwing (`none`), or `remove(id)`. -/
inductive StoreCall (α : Type) where
  | insert (id : Nat) (args : Option α)
  | remove (id : Nat)

/-- The store after a sequence of calls, made in order; `none` when a call is undefined. -/
def runCalls {α : Type} (s : TCompArray α) : List (StoreCall α) → Option (TCompArray α)
  | [] => some s
  | StoreCall.insert id args :: cs => (s.insert id args).bind fun res => runCalls res.2 cs
  | StoreCall.remove id :: cs => (s.remove id).bind fun t => runCalls t cs

namespace TWorld
variable {α σ : Type}

/-- The method `comp_get_entity<COMP>(COMP& comp)`, the reference being the address `comp`
and `data` the address of the first component of the store of `COMP`. -/
def comp_get_entity_ref (w : TWorld α σ) (key : Nat) (data comp : Nat) :
    Option (TWorld α σ × Nat) :=
  let ra := w.compReg_.get_array key
  (ra.2.get_id_ref data comp).map fun ent => ({ w with compReg_ := ra.1 }, ent)

end TWorld

/-- A world in which entities 0, 1 and 2 receive, in that order, a component of type `A`
(type id 0, values 10, 11, 12) and then a component of type `B` (type id 1, values 20, 21,
22). -/
def threeEntities : Option (TWorld Nat Unit) :=
  ((TWorld.empty : TWorld Nat Unit).comp_add 0 0 (some 10)).bind fun w1 =>
  (w1.comp_add 0 1 (some 11)).bind fun w2 =>
  (w2.comp_add 0 2 (some 12)).bind fun w3 =>
  (w3.comp_add 1 0 (some 20)).bind fun w4 =>
  (w4.comp_add 1 1 (some 21)).bind fun w5 =>
  w5.comp_add 1 2 (some 22)

namespace TComponentView
variable {α σ : Type}

/-- The arguments `func` receives from `each`: per queried type the value of the component
its reference or pointer designates, and nothing for a null pointer. -/
def each_args (r : TCompRegistry α) : List (Nat × Bool) → List (Option Nat) → List (Option α)
  | c :: cs, p :: ps => (r.store c.1).deref p :: each_args r cs ps
  | _, _ => []

/-- The writes `func` makes through the references and non-null pointers it was given:
argument by argument, the new value or nothing. A callback changes component values only. -/
def each_write (r : TCompRegistry α) :
    List (Nat × Bool) → List (Option Nat) → List (Option α) → TCompRegistry α
  | c :: cs, p :: ps, v :: vs =>
    each_write (match p, v with
      | some k, some x => r.poke c.1 k x
      | _, _ => r) cs ps vs
  | _, _, _ => r

/-- The loop of `each(func)` over the listed row numbers: the arguments are evaluated left to
right (`OrderedCall`), then `func` is called. Returns the registry and, call by call, the
pointers behind the arguments. -/
def each_rows (f : List (Option α) → List (Option α)) (v : TComponentView) :
    List Nat → TCompRegistry α → Option (TCompRegistry α × List (List (Option Nat)))
  | [], r => some (r, [])
  | i :: is, r =>
    (slots i v.comps v.ind_ r).bind fun rs =>
    (each_rows f v is (each_write rs.1 v.comps rs.2 (f (each_args rs.1 v.comps rs.2)))).map
      fun rest => (rest.1, rs.2 :: rest.2)

/-- The method `each(func)` of a view whose `world_` is `w`: rows `0` to `ind_[0].size() - 1`
in turn. -/
def each (f : List (Option α) → List (Option α)) (v : TComponentView) (w : TWorld α σ) :
    Option (TWorld α σ × List (List (Option Nat))) :=
  (each_rows f v (List.range v.size) w.compReg_).map fun res =>
    ({ w with compReg_ := res.1 }, res.2)

end TComponentView

/-- The class `TTypeId<FAM>` of one family: the counter `lastUnused_` and the specialisations
of the variable template `inner` that have been initialised, each with its value. `τ` is the
type of the C++ types the family is asked about. -/
structure TTypeId (τ : Type) where
  /-- Counter `std::atomic<uint32_t> lastUnused_`. -/
  lastUnused_ : Nat
  /-- Initialised specialisations `inner<D>` and their values, in initialisation order. -/
  inner : List (τ × Nat)
deriving DecidableEq, Repr

/-- The family before any dynamic initialisation: the counter is zero-initialised. -/
def TTypeId.start {τ : Type} : TTypeId τ := ⟨0, []⟩

/-- Dynamic initialisation of the specialisation `inner<D>`, which happens once: its value is
`lastUnused_++` on the 32-bit counter. -/
def TTypeId.init_inner {τ : Type} [DecidableEq τ] (st : TTypeId τ) (D : τ) : TTypeId τ :=
  if (st.inner.lookup D).isSome then st
  else ⟨(st.lastUnused_ + 1) % ID_MOD, st.inner ++ [(D, st.lastUnused_)]⟩

/-- Static initialisation of a family in a program that instantiates `id<T>` for the types
`used`: each `id<T>` names `inner<std::decay_t<T>>`. The initialisation of specialisations is
unordered, so `used` lists them in whatever order they run. -/
def TTypeId.static_init {τ : Type} [DecidableEq τ] (decay : τ → τ) (used : List τ) :
    TTypeId τ :=
  used.foldl (fun st T => st.init_inner (decay T)) TTypeId.start

/-- The constant `id<T>`: the value of `inner<std::decay_t<T>>`. -/
def TTypeId.id {τ : Type} [DecidableEq τ] (st : TTypeId τ) (decay : τ → τ) (T : τ) :
    Option Nat :=
  st.inner.lookup (decay T)

/-- The function `get_type_id<T, FAM>()`, `st` being the class `TTypeId<FAM>`. -/
def get_type_id {τ : Type} [DecidableEq τ] (st : TTypeId τ) (decay : τ → τ) (T : τ) :
    Option Nat :=
  st.id decay T

namespace TWorld
variable {α σ : Type}

/-- Specification side of `tick`: the systems of a list run one after the other, each in the
world its predecessor left; `none` when one of the runs does not return. -/
def run_in_order (run : σ → TWorld α σ → Option (TWorld α σ)) :
    List σ → TWorld α σ → Option (TWorld α σ)
  | [], w => some w
  | s :: ss, w => (run s w).bind fun w1 => run_in_order run ss w1

end TWorld
namespace TWorld
variable {α σ : Type}

end TWorld

theorem length_le_of_nodup_lt {l : List Nat} {n : Nat} (hn : l.Nodup) (hl : ∀ x ∈ l, x < n) :
    l.length ≤ n := by
  have h1 : l.toFinset ⊆ Finset.range n := by
    intro x hx
    simp only [List.mem_toFinset] at hx
    simpa using hl x hx
  have h2 := Finset.card_le_card h1
  rw [List.toFinset_card_of_nodup hn, Finset.card_range] at h2
  exact h2

theorem length_lt_of_nodup_lt_ne {l : List Nat} {n e : Nat} (hn : l.Nodup)
    (hl : ∀ x ∈ l, x < n) (he : e < n) (hne : e ∉ l) : l.length < n := by
  have h1 : l.toFinset ⊆ (Finset.range n).erase e := by
    intro x hx
    simp only [List.mem_toFinset] at hx
    simp only [Finset.mem_erase, Finset.mem_range]
    exact ⟨fun h => hne (h ▸ hx), hl x hx⟩
  have h2 := Finset.card_le_card h1
  rw [List.toFinset_card_of_nodup hn, Finset.card_erase_of_mem (by simpa using he),
    Finset.card_range] at h2
  omega

namespace TCompArray
variable {α : Type}

theorem fwd_eq_some {s : TCompArray α} {e m : Nat} :
    s.fwd e = some m ↔ s.map_[e]? = some m ∧ m ≠ ID_MAX := by
  unfold fwd
  cases h : s.map_[e]? with
  | none => simp
  | some x =>
    by_cases hx : x = ID_MAX
    · simp [hx]; intro h1; exact h1 ▸ rfl
    · simp [hx]; intro h1; exact h1 ▸ hx

theorem fwd_eq_none {s : TCompArray α} {e : Nat} :
    s.fwd e = none ↔ s.map_.length ≤ e ∨ s.map_.getD e ID_MAX = ID_MAX := by
  unfold fwd
  rw [List.getD_eq_getElem?_getD]
  cases h : s.map_[e]? with
  | none => simp [List.getElem?_eq_none_iff.mp h]
  | some x =>
    have := (List.getElem?_eq_some.mp h).1
    by_cases hx : x = ID_MAX
    · simp [hx]
    · simp [hx]; omega

theorem WF.rev_get {s : TCompArray α} (h : s.WF) {i e : Nat} (hi : s.revMap_[i]? = some e) :
    s.map_[e]? = some i := by
  have hlt := (List.getElem?_eq_some.mp hi).1
  have := h.2.2.1 i hlt
  rwa [List.getD_eq_getElem?_getD, hi] at this

theorem WF.nodup {s : TCompArray α} (h : s.WF) : s.revMap_.Nodup := by
  rw [List.nodup_iff_getElem?_ne_getElem?]
  intro i j hij hj heq
  have hi : i < s.revMap_.length := by omega
  obtain ⟨e, he⟩ : ∃ e, s.revMap_[i]? = some e := ⟨s.revMap_[i], List.getElem?_eq_getElem hi⟩
  have h1 := h.rev_get he
  have h2 := h.rev_get (heq ▸ he)
  rw [h1] at h2
  simp at h2
  omega

theorem WF.rev_lt {s : TCompArray α} (h : s.WF) : ∀ x ∈ s.revMap_, x < s.map_.length := by
  intro x hx
  obtain ⟨i, hi⟩ := List.mem_iff_getElem?.mp hx
  exact (List.getElem?_eq_some.mp (h.rev_get hi)).1

theorem WF.size_le {s : TCompArray α} (h : s.WF) : s.revMap_.length ≤ s.map_.length :=
  length_le_of_nodup_lt h.nodup h.rev_lt

theorem WF.fwd_rev {s : TCompArray α} (h : s.WF) {i e : Nat} (hi : s.revMap_[i]? = some e) :
    s.fwd e = some i := by
  rw [fwd_eq_some]
  refine ⟨h.rev_get hi, ?_⟩
  have := (List.getElem?_eq_some.mp hi).1
  have := h.size_le
  have := h.2.1
  omega

theorem WF.rev_fwd {s : TCompArray α} (h : s.WF) {e m : Nat} (hm : s.fwd e = some m) :
    s.revMap_[m]? = some e := by
  rw [fwd_eq_some] at hm
  have hlt := (List.getElem?_eq_some.mp hm.1).1
  have := h.2.2.2 e hlt
  rw [List.getD_eq_getElem?_getD, hm.1] at this
  exact this hm.2

theorem WF.fwd_lt {s : TCompArray α} (h : s.WF) {e m : Nat} (hm : s.fwd e = some m) :
    m < s.arr_.length := by
  rw [h.1]
  exact (List.getElem?_eq_some.mp (h.rev_fwd hm)).1

theorem WF.fwd_iff {s : TCompArray α} (h : s.WF) {e m : Nat} :
    s.fwd e = some m ↔ s.revMap_[m]? = some e :=
  ⟨h.rev_fwd, h.fwd_rev⟩

end TCompArray
namespace TCompArray
variable {α : Type}

theorem get_eq_fwd (s : TCompArray α) (e : Nat) :
    s.get e = (s.fwd e).bind fun m => if s.arr_.length ≤ m then none else some m := by
  unfold get
  cases hf : s.fwd e with
  | none =>
    have := fwd_eq_none.mp hf
    have h : s.map_.length ≤ e ∨ s.map_.getD e ID_MAX = ID_MAX ∨
        s.arr_.length ≤ s.map_.getD e ID_MAX := by tauto
    rw [if_pos h]; rfl
  | some m =>
    have hm := fwd_eq_some.mp hf
    have hlt := (List.getElem?_eq_some.mp hm.1).1
    have hg : s.map_.getD e ID_MAX = m := by rw [List.getD_eq_getElem?_getD, hm.1]; rfl
    simp only [hg, Option.some_bind]
    by_cases hle : s.arr_.length ≤ m
    · rw [if_pos (Or.inr (Or.inr hle)), if_pos hle]
    · have : ¬ (s.map_.length ≤ e ∨ m = ID_MAX ∨ s.arr_.length ≤ m) := by
        have := hm.2; omega
      rw [if_neg this, if_neg hle]

theorem index_of_eq_fwd (s : TCompArray α) (e : Nat) :
    s.index_of e = (s.fwd e).getD SIZE_MAX := by
  unfold index_of
  cases hf : s.fwd e with
  | none => rw [if_pos (fwd_eq_none.mp hf)]; rfl
  | some m =>
    have hm := fwd_eq_some.mp hf
    have hlt := (List.getElem?_eq_some.mp hm.1).1
    have hg : s.map_.getD e ID_MAX = m := by rw [List.getD_eq_getElem?_getD, hm.1]; rfl
    have : ¬ (s.map_.length ≤ e ∨ m = ID_MAX) := by have := hm.2; omega
    rw [hg, if_neg this]; rfl

theorem WF.get_eq {s : TCompArray α} (h : s.WF) (e : Nat) : s.get e = s.fwd e := by
  rw [get_eq_fwd]
  cases hf : s.fwd e with
  | none => rfl
  | some m =>
    have := h.fwd_lt hf
    simp; omega

theorem WF.contains_iff {s : TCompArray α} (h : s.WF) (e : Nat) :
    s.contains e = true ↔ e ∈ s.revMap_ := by
  unfold contains
  rw [h.get_eq, Option.isSome_iff_exists, List.mem_iff_getElem?]
  exact exists_congr fun m => h.fwd_iff

theorem WF.size_lt_of_not_contains {s : TCompArray α} (h : s.WF) {e : Nat}
    (he : e < ID_MAX) (hc : s.contains e = false) : s.arr_.length < ID_MAX := by
  have hnot : e ∉ s.revMap_ := by
    rw [← h.contains_iff]; simp [hc]
  rw [h.1]
  by_cases hlt : e < s.map_.length
  · have := length_lt_of_nodup_lt_ne h.nodup h.rev_lt hlt hnot
    have := h.2.1
    omega
  · have := h.size_le
    omega

end TCompArray
namespace TCompArray
variable {α : Type}

theorem WF.of_fwd {s : TCompArray α} (h1 : s.arr_.length = s.revMap_.length)
    (h2 : s.map_.length ≤ ID_MAX)
    (h3 : ∀ i e, s.revMap_[i]? = some e → s.fwd e = some i)
    (h4 : ∀ e m, s.fwd e = some m → s.revMap_[m]? = some e) : s.WF := by
  refine ⟨h1, h2, ?_, ?_⟩
  · intro i hi
    have hget : s.revMap_[i]? = some (s.revMap_.getD i 0) := by
      rw [List.getD_eq_getElem?_getD, List.getElem?_eq_getElem hi]; rfl
    exact (fwd_eq_some.mp (h3 i _ hget)).1
  · intro e he hne
    apply h4
    rw [fwd_eq_some]
    refine ⟨?_, hne⟩
    rw [List.getD_eq_getElem?_getD, List.getElem?_eq_getElem he]; rfl

theorem WF_empty : (empty : TCompArray α).WF := by
  refine ⟨rfl, by simp [empty], ?_, ?_⟩ <;> simp [empty]

theorem fwd_congr {s t : TCompArray α} (h : s.map_ = t.map_) (e : Nat) : s.fwd e = t.fwd e := by
  unfold fwd; rw [h]

theorem fwd_set (a : List α) (m r : List Nat) (i x e : Nat) (hi : i < m.length) :
    (TCompArray.mk a (m.set i x) r).fwd e =
      if e = i then (if x = ID_MAX then none else some x) else (TCompArray.mk a m r).fwd e := by
  unfold fwd
  simp only [List.getElem?_set]
  by_cases h : i = e
  · subst h; simp [hi]
  · have h' : ¬ e = i := fun h' => h h'.symm
    simp [h, h']

theorem fwd_grow (a : List α) (m r : List Nat) (k e : Nat) :
    (TCompArray.mk a (m ++ List.replicate k ID_MAX) r).fwd e = (TCompArray.mk a m r).fwd e := by
  unfold fwd
  simp only [List.getElem?_append]
  by_cases h : e < m.length
  · simp [h]
  · simp only [h, if_false, List.getElem?_replicate]
    rw [List.getElem?_eq_none (by omega : m.length ≤ e)]
    by_cases h2 : e - m.length < k <;> simp [h2]

theorem insert_present (s : TCompArray α) (id : Nat) (args : Option α) {m : Nat}
    (h : s.fwd id = some m) : s.insert id args = some (false, s) := by
  have hm := fwd_eq_some.mp h
  have hlt := (List.getElem?_eq_some.mp hm.1).1
  have hg : s.map_.getD id ID_MAX = m := by rw [List.getD_eq_getElem?_getD, hm.1]; rfl
  unfold insert
  rw [if_pos ⟨hlt, by rw [hg]; exact hm.2⟩]

theorem insert_fresh {s : TCompArray α} (h : s.WF) {id : Nat} (hid : id < ID_MAX)
    (hf : s.fwd id = none) (v : α) :
    s.insert id (some v) = some (true, ⟨s.arr_ ++ [v], s.insertedMap id, s.revMap_ ++ [id]⟩) := by
  have hguard := fwd_eq_none.mp hf
  have hc : s.contains id = false := by
    unfold contains; rw [h.get_eq, hf]; rfl
  have hsz := h.size_lt_of_not_contains hid hc
  unfold insert
  rw [if_neg (by omega)]
  have hmod : (id + 1) % ID_MOD = id + 1 := by
    apply Nat.mod_eq_of_lt; unfold ID_MOD; unfold ID_MAX at hid; omega
  have hcast : ((s.arr_ ++ [v]).length + SIZE_MOD - 1) % SIZE_MOD % ID_MOD = s.arr_.length := by
    simp only [List.length_append, List.length_singleton]
    unfold ID_MAX at hsz; unfold SIZE_MOD ID_MOD; omega
  simp only [hmod, hcast]
  have hres : (if s.map_.length ≤ id then resize s.map_ (id + 1) ID_MAX else s.map_) =
      (if s.map_.length ≤ id then s.map_ ++ List.replicate (id + 1 - s.map_.length) ID_MAX
        else s.map_) := by
    by_cases hle : s.map_.length ≤ id
    · simp only [hle, if_true, resize]
      rw [List.take_of_length_le (by omega)]
    · simp only [hle, if_false]
  rw [hres]
  have hlen : id < (if s.map_.length ≤ id then
      s.map_ ++ List.replicate (id + 1 - s.map_.length) ID_MAX else s.map_).length := by
    by_cases hle : s.map_.length ≤ id
    · simp only [hle, if_true, List.length_append, List.length_replicate]; omega
    · simp only [hle, if_false]; omega
  unfold write
  rw [if_pos hlen]
  rfl

theorem fwd_insertedMap {s : TCompArray α} (h : s.WF) {id : Nat} (hid : id < ID_MAX)
    (hf : s.fwd id = none) (a : List α) (r : List Nat) (e : Nat) :
    (TCompArray.mk a (s.insertedMap id) r).fwd e =
      if e = id then some s.arr_.length else s.fwd e := by
  have hc : s.contains id = false := by
    unfold contains; rw [h.get_eq, hf]; rfl
  have hsz := h.size_lt_of_not_contains hid hc
  unfold insertedMap
  by_cases hle : s.map_.length ≤ id
  · simp only [hle, if_true]
    rw [fwd_set _ _ _ _ _ _ (by simp; omega), fwd_grow]
    rw [if_neg (by omega : ¬ s.arr_.length = ID_MAX)]
    rfl
  · simp only [hle, if_false]
    rw [fwd_set _ _ _ _ _ _ (by omega)]
    rw [if_neg (by omega : ¬ s.arr_.length = ID_MAX)]
    rfl

theorem insertedMap_length (s : TCompArray α) (id : Nat) :
    (s.insertedMap id).length = max s.map_.length (id + 1) := by
  unfold insertedMap
  by_cases hle : s.map_.length ≤ id
  · simp only [hle, if_true, List.length_set, List.length_append, List.length_replicate]; omega
  · simp only [hle, if_false, List.length_set]; omega

theorem WF_insert_fresh {s : TCompArray α} (h : s.WF) {id : Nat} (hid : id < ID_MAX)
    (hf : s.fwd id = none) (v : α) :
    (TCompArray.mk (s.arr_ ++ [v]) (s.insertedMap id) (s.revMap_ ++ [id])).WF := by
  apply WF.of_fwd
  · simp [h.1]
  · show (s.insertedMap id).length ≤ ID_MAX
    rw [insertedMap_length]; have := h.2.1; omega
  · intro i e hi
    rw [fwd_insertedMap h hid hf]
    simp only [List.getElem?_append] at hi
    by_cases hlt : i < s.revMap_.length
    · simp only [hlt, if_true] at hi
      have hfe := h.fwd_rev hi
      have : e ≠ id := by intro he; rw [he, hf] at hfe; exact absurd hfe (by simp)
      rw [if_neg this]; exact hfe
    · simp only [hlt, if_false] at hi
      have h0 : i - s.revMap_.length = 0 := by
        by_contra hne
        rw [List.getElem?_eq_none (by simp; omega)] at hi
        exact absurd hi (by simp)
      rw [h0] at hi
      simp at hi
      rw [if_pos hi.symm, h.1]
      congr 1; omega
  · intro e m hm
    rw [fwd_insertedMap h hid hf] at hm
    by_cases he : e = id
    · rw [if_pos he] at hm
      simp at hm
      subst hm
      rw [h.1, he]
      simp
    · rw [if_neg he] at hm
      have := h.rev_fwd hm
      show (s.revMap_ ++ [id])[m]? = some e
      rw [List.getElem?_append_left (List.getElem?_eq_some.mp this).1]
      exact this

end TCompArray
namespace TCompArray
variable {α : Type}

theorem remove_absent (s : TCompArray α) (id : Nat) (h : s.fwd id = none) :
    s.remove id = some s := by
  unfold remove
  rw [if_pos (fwd_eq_none.mp h)]

theorem remove_spec {s : TCompArray α} (h : s.WF) {id index : Nat}
    (hf : s.fwd id = some index) :
    ∃ t, s.remove id = some t ∧ t.map_.length = s.map_.length ∧
      t.arr_.length = s.arr_.length - 1 ∧ t.revMap_.length = s.arr_.length - 1 ∧
      (∀ k, t.arr_[k]? = if k < s.arr_.length - 1 then
        (if k = index then s.arr_[s.arr_.length - 1]? else s.arr_[k]?) else none) ∧
      (∀ k, t.revMap_[k]? = if k < s.arr_.length - 1 then
        (if k = index then s.revMap_[s.arr_.length - 1]? else s.revMap_[k]?) else none) ∧
      (∀ e, t.fwd e = if e = id then none
        else if s.fwd e = some (s.arr_.length - 1) then some index else s.fwd e) := by
  have hm := fwd_eq_some.mp hf
  have hlt := (List.getElem?_eq_some.mp hm.1).1
  have hg : s.map_.getD id ID_MAX = index := by rw [List.getD_eq_getElem?_getD, hm.1]; rfl
  have hidx := h.fwd_lt hf
  have hlen := h.1
  have hn1 : s.arr_.length - 1 < s.arr_.length := by omega
  have hr1 : s.arr_.length - 1 < s.revMap_.length := by omega
  have hlast : s.arr_.getLast? = some (s.arr_[s.arr_.length - 1]) := by
    rw [List.getLast?_eq_getElem?, List.getElem?_eq_getElem hn1]
  have hrl : s.revMap_[s.arr_.length - 1]? = some (s.revMap_[s.arr_.length - 1]) :=
    List.getElem?_eq_getElem hr1
  have hrlast : s.revMap_.getLast? = some (s.revMap_[s.arr_.length - 1]) := by
    rw [List.getLast?_eq_getElem?, ← hlen, hrl]
  have hfl := h.fwd_rev hrl
  have hll := (List.getElem?_eq_some.mp (fwd_eq_some.mp hfl).1).1
  have hsz := h.size_le
  have hmx := h.2.1
  have hguard : ¬ (s.map_.length ≤ id ∨ s.map_.getD id ID_MAX = ID_MAX) := by
    rw [hg]; have := hm.2; omega
  unfold remove
  rw [if_neg hguard]
  simp only [hg, hlast, hrlast, Option.some_bind, write, pop_back]
  rw [if_pos hidx, if_pos (by omega : index < s.revMap_.length)]
  simp only [Option.some_bind, List.length_set]
  rw [if_neg (by omega : ¬ s.arr_.length = 0), if_neg (by omega : ¬ s.revMap_.length = 0),
    if_pos hlt]
  simp only [Option.some_bind, List.length_dropLast, List.length_set]
  have harr : ∀ k, ((s.arr_.set index s.arr_[s.arr_.length - 1]).dropLast)[k]? =
      if k < s.arr_.length - 1 then
        (if k = index then s.arr_[s.arr_.length - 1]? else s.arr_[k]?) else none := by
    intro k
    rw [List.getElem?_dropLast, List.length_set, List.getElem?_set]
    by_cases hk : k < s.arr_.length - 1
    · by_cases hki : k = index
      · subst hki; simp [hk, hidx, List.getElem?_eq_getElem hn1]
      · have : ¬ index = k := fun h' => hki h'.symm
        simp [hk, hki, this]
    · simp [hk]
  have hrev : ∀ k, ((s.revMap_.set index s.revMap_[s.arr_.length - 1]).dropLast)[k]? =
      if k < s.arr_.length - 1 then
        (if k = index then s.revMap_[s.arr_.length - 1]? else s.revMap_[k]?) else none := by
    intro k
    rw [List.getElem?_dropLast, List.length_set, List.getElem?_set, ← hlen]
    by_cases hk : k < s.arr_.length - 1
    · by_cases hki : k = index
      · subst hki; simp [hk, hrl]; omega
      · have : ¬ index = k := fun h' => hki h'.symm
        simp [hk, hki, this]
    · simp [hk]
  by_cases hbr : index ≥ s.revMap_.length - 1
  · rw [if_pos hbr]
    refine ⟨_, rfl, by simp, by simp, by simp [hlen], harr, hrev, ?_⟩
    intro e
    show (TCompArray.mk _ (s.map_.set id ID_MAX) _).fwd e = _
    rw [fwd_set _ _ _ _ _ _ hlt]
    by_cases he : e = id
    · simp [he]
    · simp only [he, if_false]
      by_cases hfe : s.fwd e = some (s.arr_.length - 1)
      · rw [if_pos hfe]
        show s.fwd e = _
        rw [hfe]; congr 1; omega
      · rw [if_neg hfe]; rfl
  · rw [if_neg hbr]
    have hil : index < s.arr_.length - 1 := by omega
    have hgd : ((s.revMap_.set index s.revMap_[s.arr_.length - 1]).dropLast).getD index ID_MAX =
        s.revMap_[s.arr_.length - 1] := by
      rw [List.getD_eq_getElem?_getD, hrev, if_pos hil, if_pos rfl, hrl]; rfl
    rw [hgd]
    have hne : s.revMap_[s.arr_.length - 1] ≠ ID_MAX := by omega
    rw [if_pos ⟨by omega, hne⟩, if_pos (by omega)]
    have hmod : index % ID_MOD = index := by
      apply Nat.mod_eq_of_lt; unfold ID_MOD; unfold ID_MAX at hmx; omega
    rw [hmod]
    refine ⟨_, rfl, by simp, by simp, by simp [hlen], harr, hrev, ?_⟩
    intro e
    show (TCompArray.mk _ ((s.map_.set id ID_MAX).set _ index) _).fwd e = _
    rw [fwd_set _ _ _ _ _ _ (by simpa using hll), fwd_set _ _ _ _ _ _ hlt]
    have hidne : id ≠ s.revMap_[s.arr_.length - 1] := by
      intro heq
      rw [← heq, hf] at hfl
      simp at hfl; omega
    by_cases he : e = id
    · subst he; simp [hidne]
    · simp only [he, if_false]
      by_cases hfe : s.fwd e = some (s.arr_.length - 1)
      · have := h.rev_fwd hfe
        rw [hrl] at this
        simp at this
        rw [if_pos hfe, if_pos this.symm, if_neg hm.2]
      · have : e ≠ s.revMap_[s.arr_.length - 1] := by
          intro heq; rw [heq] at hfe; exact hfe hfl
        rw [if_neg hfe, if_neg this]; rfl

end TCompArray
namespace TCompArray
variable {α : Type}

theorem remove_props {s : TCompArray α} (h : s.WF) {id index : Nat}
    (hf : s.fwd id = some index) :
    ∃ t, s.remove id = some t ∧ t.WF ∧ t.arr_.length = s.arr_.length - 1 ∧
      (∀ e, t.fwd e = if e = id then none
        else if s.fwd e = some (s.arr_.length - 1) then some index else s.fwd e) ∧
      (∀ e, e ≠ id → t.deref (t.get e) = s.deref (s.get e)) := by
  obtain ⟨t, ht, hml, hal, hrl, harr, hrev, hfwd⟩ := remove_spec h hf
  have hidx := h.fwd_lt hf
  have hwf : t.WF := by
    apply WF.of_fwd
    · rw [hal, hrl]
    · rw [hml]; exact h.2.1
    · intro i e hi
      rw [hrev] at hi
      by_cases hk : i < s.arr_.length - 1
      · rw [if_pos hk] at hi
        rw [hfwd]
        by_cases hii : i = index
        · rw [if_pos hii] at hi
          have hfe := h.fwd_rev hi
          have hne : e ≠ id := by
            intro he; rw [he, hf] at hfe; simp at hfe; omega
          rw [if_neg hne, if_pos hfe, hii]
        · rw [if_neg hii] at hi
          have hfe := h.fwd_rev hi
          have hne : e ≠ id := by
            intro he; rw [he, hf] at hfe; simp at hfe; omega
          have hnl : ¬ s.fwd e = some (s.arr_.length - 1) := by
            rw [hfe]; simp; omega
          rw [if_neg hne, if_neg hnl, hfe]
      · rw [if_neg hk] at hi; exact absurd hi (by simp)
    · intro e m hm
      rw [hfwd] at hm
      by_cases he : e = id
      · rw [if_pos he] at hm; exact absurd hm (by simp)
      · rw [if_neg he] at hm
        rw [hrev]
        by_cases hfe : s.fwd e = some (s.arr_.length - 1)
        · rw [if_pos hfe] at hm
          simp at hm
          subst hm
          have hne : index ≠ s.arr_.length - 1 := by
            intro heq
            have h1 := h.rev_fwd hfe
            have h2 := h.rev_fwd hf
            rw [heq, h1] at h2
            simp at h2; exact he h2
          rw [if_pos (by omega), if_pos rfl]
          exact h.rev_fwd hfe
        · rw [if_neg hfe] at hm
          have hlt := h.fwd_lt hm
          have hne1 : m ≠ s.arr_.length - 1 := by
            intro heq; rw [heq] at hm; exact hfe hm
          have hne2 : m ≠ index := by
            intro heq
            have h1 := h.rev_fwd hm
            have h2 := h.rev_fwd hf
            rw [heq, h2] at h1
            simp at h1; exact he h1.symm
          rw [if_pos (by omega), if_neg hne2]
          exact h.rev_fwd hm
  refine ⟨t, ht, hwf, hal, hfwd, ?_⟩
  intro e he
  rw [hwf.get_eq, h.get_eq, hfwd, if_neg he]
  unfold deref
  by_cases hfe : s.fwd e = some (s.arr_.length - 1)
  · rw [if_pos hfe, hfe]
    simp only [Option.some_bind]
    rw [harr]
    have hne : index ≠ s.arr_.length - 1 := by
      intro heq
      have h1 := h.rev_fwd hfe
      have h2 := h.rev_fwd hf
      rw [heq, h1] at h2
      simp at h2; exact he h2
    rw [if_pos (by omega), if_pos rfl]
  · rw [if_neg hfe]
    cases hm : s.fwd e with
    | none => rfl
    | some m =>
      simp only [Option.some_bind]
      have hlt := h.fwd_lt hm
      have hne1 : m ≠ s.arr_.length - 1 := by
        intro heq; rw [heq] at hm; exact hfe hm
      have hne2 : m ≠ index := by
        intro heq
        have h1 := h.rev_fwd hm
        have h2 := h.rev_fwd hf
        rw [heq, h2] at h1
        simp at h1; exact he h1.symm
      rw [harr, if_pos (by omega), if_neg hne2]

theorem WF.remove {s : TCompArray α} (h : s.WF) (id : Nat) :
    ∃ t, s.remove id = some t ∧ t.WF := by
  cases hf : s.fwd id with
  | none => exact ⟨s, remove_absent s id hf, h⟩
  | some index =>
    obtain ⟨t, ht, hwf, _⟩ := remove_props h hf
    exact ⟨t, ht, hwf⟩

theorem WF.contains_eq {s : TCompArray α} (h : s.WF) (e : Nat) :
    s.contains e = (s.fwd e).isSome := by
  unfold contains; rw [h.get_eq]

theorem WF.insert {s : TCompArray α} (h : s.WF) {id : Nat} (hid : id < ID_MAX) (v : α) :
    ∃ b t, s.insert id (some v) = some (b, t) ∧ t.WF := by
  cases hf : s.fwd id with
  | none => exact ⟨true, _, insert_fresh h hid hf v, WF_insert_fresh h hid hf v⟩
  | some m => exact ⟨false, s, insert_present s id _ hf, h⟩

end TCompArray
namespace TCompArray
variable {α : Type}

theorem WF.count_contains {s : TCompArray α} (h : s.WF) {N : Nat} (hN : s.map_.length ≤ N) :
    (List.range N).countP (fun e => s.contains e) = s.size := by
  rw [List.countP_eq_length_filter]
  have hperm : List.Perm ((List.range N).filter fun e => s.contains e) s.revMap_ := by
    rw [List.perm_ext_iff_of_nodup ((List.nodup_range N).filter _) h.nodup]
    intro x
    rw [List.mem_filter, h.contains_iff, List.mem_range]
    constructor
    · exact fun hx => hx.2
    · intro hx
      exact ⟨lt_of_lt_of_le (h.rev_lt x hx) hN, hx⟩
  rw [hperm.length_eq, size, h.1]

theorem WF.runOps {s : TCompArray α} (h : s.WF) (ops : List (StoreOp α))
    (hops : ∀ op ∈ ops, op.id < ID_MAX) : ∃ t, ECS.runOps s ops = some t ∧ t.WF := by
  induction ops generalizing s with
  | nil => exact ⟨s, rfl, h⟩
  | cons op ops ih =>
    have hop := hops op (List.mem_cons_self _ _)
    have hrest : ∀ o ∈ ops, o.id < ID_MAX := fun o ho => hops o (List.mem_cons_of_mem _ ho)
    cases op with
    | insert id v =>
      have hid : id < ID_MAX := hop
      obtain ⟨b, t, ht, hwf⟩ := h.insert hid v
      obtain ⟨u, hu, hwu⟩ := ih hwf hrest
      exact ⟨u, by simp [ECS.runOps, StoreOp.apply, ht, hu], hwu⟩
    | remove id =>
      obtain ⟨t, ht, hwf⟩ := h.remove id
      obtain ⟨u, hu, hwu⟩ := ih hwf hrest
      exact ⟨u, by simp [ECS.runOps, StoreOp.apply, ht, hu], hwu⟩

end TCompArray

/-- Claim C1. After every call of every sequence of `insert` and `remove` calls made on an
initially empty store with entity ids below the sentinel and constructors that succeed, no
call having hit undefined behaviour: `arr_` and `revMap_` both have length `size()`, every
dense index `i < size()` satisfies `map_[revMap_[i]] = i`, every entity whose `map_` entry is
not the sentinel has `map_[e] < size()` and `revMap_[map_[e]] = e`, and `size()` is the number
of entity ids `e` with `contains(e)`, counted over any range of ids that covers `map_` (so
over all values of `ID_T`). The store also satisfies `WF`, the form of the invariant the
other theorems assume. -/
theorem store_invariant_after_every_call {α : Type} (ops : List (StoreOp α))
    (hops : ∀ op ∈ ops, op.id < ID_MAX) (k : Nat) :
    ∃ s, runOps TCompArray.empty (ops.take k) = some s ∧
      s.arr_.length = s.size ∧ s.revMap_.length = s.size ∧
      (∀ i, i < s.size → ∃ e, s.revMap_[i]? = some e ∧ s.map_[e]? = some i) ∧
      (∀ e m, s.map_[e]? = some m → m ≠ ID_MAX → m < s.size ∧ s.revMap_[m]? = some e) ∧
      (∀ N, s.map_.length ≤ N → (List.range N).countP (fun e => s.contains e) = s.size) ∧
      (List.range ID_MOD).countP (fun e => s.contains e) = s.size ∧ s.WF := by
  obtain ⟨s, hs, hwf⟩ := TCompArray.WF_empty.runOps (ops.take k)
    (fun op hop => hops op (List.mem_of_mem_take hop))
  refine ⟨s, hs, rfl, ?_, ?_, ?_, ?_, ?_, hwf⟩
  · rw [TCompArray.size, hwf.1]
  · intro i hi
    rw [TCompArray.size, hwf.1] at hi
    exact ⟨s.revMap_[i], List.getElem?_eq_getElem hi,
      hwf.rev_get (List.getElem?_eq_getElem hi)⟩
  · intro e m hm hne
    have hf : s.fwd e = some m := TCompArray.fwd_eq_some.mpr ⟨hm, hne⟩
    exact ⟨hwf.fwd_lt hf, hwf.rev_fwd hf⟩
  · intro N hN
    exact hwf.count_contains hN
  · apply hwf.count_contains
    have := hwf.2.1
    unfold ID_MAX at this; unfold ID_MOD; omega

/-- Instance of claim C1: three inserts and a remove on the empty store. -/
theorem store_invariant_after_every_call_witness :
    ∃ s, runOps (TCompArray.empty : TCompArray Nat)
        ([StoreOp.insert 0 10, StoreOp.insert 1 20, StoreOp.remove 0, StoreOp.insert 5 30].take 4)
          = some s ∧
      s.arr_.length = s.size ∧ s.revMap_.length = s.size ∧
      (∀ i, i < s.size → ∃ e, s.revMap_[i]? = some e ∧ s.map_[e]? = some i) ∧
      (∀ e m, s.map_[e]? = some m → m ≠ ID_MAX → m < s.size ∧ s.revMap_[m]? = some e) ∧
      (∀ N, s.map_.length ≤ N → (List.range N).countP (fun e => s.contains e) = s.size) ∧
      (List.range ID_MOD).countP (fun e => s.contains e) = s.size ∧ s.WF :=
  store_invariant_after_every_call
    [StoreOp.insert 0 10, StoreOp.insert 1 20, StoreOp.remove 0, StoreOp.insert 5 30]
    (by decide) 4


/-- Claim C5. On a store satisfying the invariant, inserting a value for an entity id below
the sentinel that the store does not contain returns `true`; afterwards `get(e)` points at
the value, `contains(e)` holds, `index_of(e)` is the old `size()`, `size()` has grown by one,
and for every other id the results of `get` (the slot pointed at and the component in it),
`contains` and `index_of` are unchanged. -/
theorem insert_new_entity {α : Type} (s : TCompArray α) (e : Nat) (v : α)
    (hwf : s.WF) (he : e < ID_MAX) (hc : s.contains e = false) :
    ∃ t, s.insert e (some v) = some (true, t) ∧
      t.deref (t.get e) = some v ∧ t.contains e = true ∧ t.index_of e = s.size ∧
      t.size = s.size + 1 ∧
      ∀ e', e' ≠ e → t.get e' = s.get e' ∧ t.deref (t.get e') = s.deref (s.get e') ∧
        t.contains e' = s.contains e' ∧ t.index_of e' = s.index_of e' := by
  have hf : s.fwd e = none := by
    rw [hwf.contains_eq] at hc
    cases h : s.fwd e with
    | none => rfl
    | some m => rw [h] at hc; exact absurd hc (by simp)
  have hwt := TCompArray.WF_insert_fresh hwf he hf v
  have hfw := TCompArray.fwd_insertedMap hwf he hf (s.arr_ ++ [v]) (s.revMap_ ++ [e])
  refine ⟨_, TCompArray.insert_fresh hwf he hf v, ?_, ?_, ?_, ?_, ?_⟩
  · rw [hwt.get_eq, hfw, if_pos rfl]
    simp [TCompArray.deref]
  · rw [hwt.contains_eq, hfw, if_pos rfl]; rfl
  · rw [TCompArray.index_of_eq_fwd, hfw, if_pos rfl]; rfl
  · simp [TCompArray.size]
  · intro e' hne
    have hg : (TCompArray.mk (s.arr_ ++ [v]) (s.insertedMap e) (s.revMap_ ++ [e])).get e' =
        s.get e' := by
      rw [hwt.get_eq, hfw, if_neg hne, hwf.get_eq]
    refine ⟨hg, ?_, ?_, ?_⟩
    · rw [hg, hwf.get_eq]
      cases hm : s.fwd e' with
      | none => rfl
      | some m =>
        have := hwf.fwd_lt hm
        simp only [TCompArray.deref, Option.some_bind]
        rw [List.getElem?_append_left this]
    · unfold TCompArray.contains; rw [hg]
    · rw [TCompArray.index_of_eq_fwd, TCompArray.index_of_eq_fwd, hfw, if_neg hne]

/-- Instance of claim C5: entity 5 inserted into a store holding entity 1. -/
theorem insert_new_entity_witness :
    ∃ t, (TCompArray.mk [20] [ID_MAX, 0] [1]).insert 5 (some 30) = some (true, t) ∧
      t.deref (t.get 5) = some 30 ∧ t.contains 5 = true ∧
      t.index_of 5 = (TCompArray.mk [20] [ID_MAX, 0] [1]).size ∧
      t.size = (TCompArray.mk [20] [ID_MAX, 0] [1]).size + 1 ∧
      ∀ e', e' ≠ 5 → t.get e' = (TCompArray.mk [20] [ID_MAX, 0] [1]).get e' ∧
        t.deref (t.get e') =
          (TCompArray.mk [20] [ID_MAX, 0] [1]).deref ((TCompArray.mk [20] [ID_MAX, 0] [1]).get e') ∧
        t.contains e' = (TCompArray.mk [20] [ID_MAX, 0] [1]).contains e' ∧
        t.index_of e' = (TCompArray.mk [20] [ID_MAX, 0] [1]).index_of e' :=
  insert_new_entity (TCompArray.mk [20] [ID_MAX, 0] [1]) 5 30 (by decide) (by decide) (by decide)

/-- Claim C6. On every store, `insert` for an entity the store already contains returns
`false` and returns the store with `arr_`, `map_` and `revMap_` unchanged, whatever the
constructor arguments (the constructor is not run). -/
theorem insert_existing_entity {α : Type} (s : TCompArray α) (e : Nat) (args : Option α)
    (hc : s.contains e = true) : s.insert e args = some (false, s) := by
  unfold TCompArray.contains at hc
  rw [TCompArray.get_eq_fwd] at hc
  cases hf : s.fwd e with
  | none => rw [hf] at hc; exact absurd hc (by simp)
  | some m => exact TCompArray.insert_present s e args hf

/-- Instance of claim C6: entity 1 inserted twice. -/
theorem insert_existing_entity_witness :
    (TCompArray.mk [20] [ID_MAX, 0] [1]).contains 1 = true ∧
      (TCompArray.mk [20] [ID_MAX, 0] [1]).insert 1 (some 99) =
        some (false, TCompArray.mk [20] [ID_MAX, 0] [1]) :=
  ⟨by decide, insert_existing_entity (TCompArray.mk [20] [ID_MAX, 0] [1]) 1 (some 99) (by decide)⟩

/-- Claim C8 as amended. `remove` for an entity the store does not hold returns the store with `arr_`,
`map_` and `revMap_` unchanged. On every store this is so for an id at or past the end of the
sparse map and for an id whose forward entry is the sentinel; on every store satisfying the
invariant it is so for every id with `contains(e)` false. -/
theorem remove_absent_entity {α : Type} (s : TCompArray α) (e : Nat) :
    (s.map_.length ≤ e ∨ s.map_[e]? = some ID_MAX → s.remove e = some s) ∧
    (s.WF → s.contains e = false → s.remove e = some s) := by
  constructor
  · intro h
    apply TCompArray.remove_absent
    rw [TCompArray.fwd_eq_none]
    cases h with
    | inl h => exact Or.inl h
    | inr h => exact Or.inr (by rw [List.getD_eq_getElem?_getD, h]; rfl)
  · intro hwf hc
    apply TCompArray.remove_absent
    rw [hwf.contains_eq] at hc
    cases h : s.fwd e with
    | none => rfl
    | some m => rw [h] at hc; exact absurd hc (by simp)

/-- Instance of the amended claim C8: an id past the end of the sparse map, and an id whose entry is the
sentinel. -/
theorem remove_absent_entity_witness :
    ((TCompArray.mk [20] [ID_MAX, 0] [1]).contains 7 = false ∧
      (TCompArray.mk [20] [ID_MAX, 0] [1]).remove 7 = some (TCompArray.mk [20] [ID_MAX, 0] [1])) ∧
    ((TCompArray.mk [20] [ID_MAX, 0] [1]).contains 0 = false ∧
      (TCompArray.mk [20] [ID_MAX, 0] [1]).remove 0 = some (TCompArray.mk [20] [ID_MAX, 0] [1])) :=
  ⟨⟨by decide,
      (remove_absent_entity (TCompArray.mk [20] [ID_MAX, 0] [1]) 7).2 (by decide) (by decide)⟩,
    ⟨by decide,
      (remove_absent_entity (TCompArray.mk [20] [ID_MAX, 0] [1]) 0).1 (Or.inr (by decide))⟩⟩


theorem getD_resize_none {β : Type} (l : List (Option β)) (n k : Nat) (h : l.length ≤ n) :
    (resize l n none).getD k none = l.getD k none := by
  unfold resize
  rw [List.take_of_length_le h, List.getD_eq_getElem?_getD, List.getD_eq_getElem?_getD,
    List.getElem?_append]
  by_cases hk : k < l.length
  · rw [if_pos hk]
  · rw [if_neg hk, List.getElem?_replicate, List.getElem?_eq_none (by omega : l.length ≤ k)]
    by_cases h2 : k - l.length < n - l.length <;> simp [h2]

namespace TCompRegistry
variable {α : Type}

theorem get_array_snd (r : TCompRegistry α) (key : Nat) : (r.get_array key).2 = r.store key := by
  unfold get_array store
  simp only
  have h1 : (if r.reg_.length ≤ key then resize r.reg_ (key + 1) none else r.reg_).getD key none
      = r.reg_.getD key none := by
    by_cases h : r.reg_.length ≤ key
    · rw [if_pos h, getD_resize_none _ _ _ (by omega)]
    · rw [if_neg h]
  cases hk : r.reg_.getD key none with
  | none =>
    rw [hk] at h1
    rw [h1]
    simp only [Option.isNone_none, if_true]
    rw [List.getD_eq_getElem?_getD, List.getElem?_set]
    simp only [if_true]
    by_cases hl : key < (if r.reg_.length ≤ key then resize r.reg_ (key + 1) none
        else r.reg_).length
    · rw [if_pos hl]; rfl
    · rw [if_neg hl]; rfl
  | some s =>
    rw [hk] at h1
    rw [h1]
    simp only [Option.isNone_some, Bool.false_eq_true, if_false]
    rw [h1]

theorem store_get_array (r : TCompRegistry α) (key : Nat) :
    (r.get_array key).1.store = r.store := by
  funext k
  unfold get_array store
  simp only
  have h1 : ∀ j, (if r.reg_.length ≤ key then resize r.reg_ (key + 1) none else r.reg_).getD j none
      = r.reg_.getD j none := by
    intro j
    by_cases h : r.reg_.length ≤ key
    · rw [if_pos h, getD_resize_none _ _ _ (by omega)]
    · rw [if_neg h]
  cases hk : r.reg_.getD key none with
  | none =>
    rw [h1 key, hk]
    simp only [Option.isNone_none, if_true]
    rw [List.getD_eq_getElem?_getD, List.getElem?_set]
    by_cases hkk : key = k
    · subst hkk
      rw [if_pos rfl, hk]
      by_cases hl : key < (if r.reg_.length ≤ key then resize r.reg_ (key + 1) none
          else r.reg_).length
      · rw [if_pos hl]; rfl
      · rw [if_neg hl]; rfl
    · rw [if_neg hkk, ← List.getD_eq_getElem?_getD, h1]
  | some s =>
    rw [h1 key, hk]
    simp only [Option.isNone_some, Bool.false_eq_true, if_false]
    rw [h1]

theorem get_array_length (r : TCompRegistry α) (key : Nat) :
    key < (r.get_array key).1.reg_.length := by
  unfold get_array
  simp only
  have h1 : key < (if r.reg_.length ≤ key then resize r.reg_ (key + 1) none
      else r.reg_).length := by
    by_cases h : r.reg_.length ≤ key
    · rw [if_pos h]; unfold resize; simp; omega
    · rw [if_neg h]; omega
  generalize (if r.reg_.length ≤ key then resize r.reg_ (key + 1) none else r.reg_) = l at h1
  by_cases h2 : (l.getD key none).isNone = true
  · rw [if_pos h2, List.length_set]; exact h1
  · rw [if_neg h2]; exact h1

theorem store_put (r : TCompRegistry α) (key : Nat) (s : TCompArray α)
    (h : key < r.reg_.length) (k : Nat) :
    (r.put key s).store k = if k = key then s else r.store k := by
  unfold put store
  simp only
  rw [List.getD_eq_getElem?_getD, List.getElem?_set]
  by_cases hk : key = k
  · subst hk; rw [if_pos rfl, if_pos h, if_pos rfl]; rfl
  · rw [if_neg hk, if_neg (fun h' => hk h'.symm), List.getD_eq_getElem?_getD]

theorem store_put_get_array (r : TCompRegistry α) (key : Nat) (s : TCompArray α) (k : Nat) :
    ((r.get_array key).1.put key s).store k = if k = key then s else r.store k := by
  rw [store_put _ _ _ (get_array_length r key), store_get_array]

theorem WF.get_array {r : TCompRegistry α} (h : r.WF) (key : Nat) : (r.get_array key).1.WF := by
  intro k; rw [store_get_array]; exact h k

theorem WF_of_store_eq {r t : TCompRegistry α} (h : r.WF) (he : t.store = r.store) : t.WF := by
  intro k; rw [he]; exact h k

end TCompRegistry

theorem SIZE_MAX_gt_ID_MAX : ID_MAX < SIZE_MAX := by decide

namespace TCompArray
variable {α : Type}

theorem WF.index_of_eq_max_iff {s : TCompArray α} (h : s.WF) (e : Nat) :
    s.index_of e = SIZE_MAX ↔ s.contains e = false := by
  rw [index_of_eq_fwd, h.contains_eq]
  cases hf : s.fwd e with
  | none => simp
  | some m =>
    have h1 := h.fwd_lt hf
    have h2 := h.size_le
    have h3 := h.2.1
    have h4 := h.1
    have := SIZE_MAX_gt_ID_MAX
    simp; omega

theorem WF.index_of_of_contains {s : TCompArray α} (h : s.WF) {e : Nat}
    (hc : s.contains e = true) : s.get e = some (s.index_of e) := by
  rw [h.get_eq, index_of_eq_fwd]
  rw [h.contains_eq] at hc
  cases hf : s.fwd e with
  | none => rw [hf] at hc; exact absurd hc (by simp)
  | some m => rfl

theorem WF.arr_length_lt {s : TCompArray α} (h : s.WF) : s.arr_.length < SIZE_MAX := by
  have h2 := h.size_le
  have h3 := h.2.1
  have h4 := h.1
  have := SIZE_MAX_gt_ID_MAX
  omega

end TCompArray

namespace TCompRegistry
variable {α : Type}

theorem hasRequired_congr {r t : TCompRegistry α} (h : t.store = r.store)
    (comps : List (Nat × Bool)) : t.hasRequired comps = r.hasRequired comps := by
  funext ent; unfold hasRequired; rw [h]

end TCompRegistry

namespace TWorld
variable {α σ : Type}

theorem view_indices_spec {r : TCompRegistry α} (h : r.WF) (ent : Nat)
    (comps : List (Nat × Bool)) (nn : Bool) :
    (view_indices ent comps r nn).1.store = r.store ∧
    (view_indices ent comps r nn).2.1 = (nn && r.hasRequired comps ent) ∧
    ((view_indices ent comps r nn).2.1 = true →
      (view_indices ent comps r nn).2.2 = comps.map fun c => (r.store c.1).index_of ent) := by
  induction comps generalizing r nn with
  | nil => simp [view_indices, TCompRegistry.hasRequired]
  | cons c cs ih =>
    cases nn with
    | false =>
      have := ih h false
      simp only [view_indices, Bool.false_eq_true, if_false]
      refine ⟨this.1, ?_, ?_⟩
      · rw [this.2.1]; simp
      · intro hc; rw [this.2.1] at hc; simp at hc
    | true =>
      have hst := TCompRegistry.store_get_array r c.1
      have hsnd := TCompRegistry.get_array_snd r c.1
      have hwf := h.get_array c.1
      simp only [view_indices, if_true]
      rw [hsnd]
      have hnn : (if (r.store c.1).index_of ent = SIZE_MAX ∧ c.2 = false then false else true) =
          (c.2 || (r.store c.1).contains ent) := by
        by_cases hi : (r.store c.1).index_of ent = SIZE_MAX
        · have hc := ((h c.1).index_of_eq_max_iff ent).mp hi
          rw [hc]; cases c.2 <;> simp [hi]
        · have hc : (r.store c.1).contains ent = true := by
            cases hcc : (r.store c.1).contains ent with
            | false => exact absurd (((h c.1).index_of_eq_max_iff ent).mpr hcc) hi
            | true => rfl
          rw [hc]; simp [hi]
      rw [hnn]
      have := ih hwf (c.2 || (r.store c.1).contains ent)
      rw [hst, TCompRegistry.hasRequired_congr hst] at this
      refine ⟨this.1, ?_, ?_⟩
      · rw [this.2.1]; simp [TCompRegistry.hasRequired]
      · intro hc
        rw [this.2.2 hc]; rfl

theorem zipWith_same {β γ : Type} (g : β → β → γ) (l : List β) :
    List.zipWith g l l = l.map fun x => g x x := by
  induction l with
  | nil => rfl
  | cons x l ih => simp [ih]

theorem foldl_push_row {β : Type} (comps : List β) (f : β → Nat → Nat) (pre rest : List Nat) :
    List.foldl push_row (comps.map fun c => pre.map (f c))
      (rest.map fun e => comps.map fun c => f c e) = comps.map fun c => (pre ++ rest).map (f c) := by
  induction rest generalizing pre with
  | nil => simp
  | cons e rest ih =>
    simp only [List.map_cons, List.foldl_cons]
    have : push_row (comps.map fun c => pre.map (f c)) (comps.map fun c => f c e) =
        comps.map fun c => (pre ++ [e]).map (f c) := by
      unfold push_row
      rw [List.zipWith_map, zipWith_same]
      simp
    rw [this, ih]
    simp

theorem view_loop_spec {r : TCompRegistry α} (h : r.WF) (comps : List (Nat × Bool))
    (anchor : Nat) (is : List Nat) (ind : List (List Nat))
    (his : ∀ i ∈ is, i < (r.store anchor).revMap_.length) :
    ∃ t, view_loop comps anchor is r ind = some (t,
        List.foldl push_row ind
          (((is.map fun i => (r.store anchor).revMap_.getD i 0).filter (r.hasRequired comps)).map
            fun ent => comps.map fun c => (r.store c.1).index_of ent)) ∧
      t.store = r.store := by
  induction is generalizing r ind with
  | nil => exact ⟨r, rfl, rfl⟩
  | cons i is ih =>
    have hi := his i (List.mem_cons_self _ _)
    have hget : (r.store anchor).get_id i = some ((r.store anchor).revMap_.getD i 0) := by
      unfold TCompArray.get_id
      rw [List.getD_eq_getElem?_getD, List.getElem?_eq_getElem hi]; rfl
    have hspec := view_indices_spec h ((r.store anchor).revMap_.getD i 0) comps true
    have hwf := TCompRegistry.WF_of_store_eq h hspec.1
    have his' : ∀ j ∈ is, j < ((view_indices ((r.store anchor).revMap_.getD i 0) comps r
        true).1.store anchor).revMap_.length := by
      intro j hj; rw [hspec.1]; exact his j (List.mem_cons_of_mem _ hj)
    simp only [view_loop, hget, Option.some_bind]
    obtain ⟨t, ht, hts⟩ := ih hwf
      (if (view_indices ((r.store anchor).revMap_.getD i 0) comps r true).2.1 then
        push_row ind (view_indices ((r.store anchor).revMap_.getD i 0) comps r true).2.2
        else ind) his'
    refine ⟨t, ?_, hts.trans hspec.1⟩
    rw [ht, hspec.1, TCompRegistry.hasRequired_congr hspec.1]
    simp only [List.map_cons, List.filter_cons]
    rw [hspec.2.1, Bool.true_and]
    cases hreq : r.hasRequired comps ((r.store anchor).revMap_.getD i 0) with
    | false => simp
    | true =>
      have := hspec.2.2 (by rw [hspec.2.1, hreq]; rfl)
      rw [this]
      simp

theorem map_getD_range {l : List Nat} {n : Nat} (h : n = l.length) :
    (List.range n).map (fun i => l.getD i 0) = l := by
  subst h
  apply List.ext_getElem?
  intro k
  rw [List.getElem?_map]
  by_cases hk : k < l.length
  · rw [List.getElem?_range hk, List.getElem?_eq_getElem hk]
    simp [List.getD_eq_getElem?_getD, List.getElem?_eq_getElem hk]
  · rw [List.getElem?_eq_none (by simp; omega), List.getElem?_eq_none (by omega)]
    rfl

theorem view_get_spec (w : TWorld α σ) (h : w.compReg_.WF) (c : Nat × Bool)
    (cs : List (Nat × Bool)) :
    ∃ t, w.view_get (c :: cs) = some ({ w with compReg_ := t },
        ⟨c :: cs, (c :: cs).map fun cj =>
          (w.compReg_.keptEntities (c :: cs) c.1).map fun ent =>
            (w.compReg_.store cj.1).index_of ent⟩) ∧
      t.store = w.compReg_.store := by
  have hst := TCompRegistry.store_get_array w.compReg_ c.1
  have hsnd := TCompRegistry.get_array_snd w.compReg_ c.1
  have hwf := h.get_array c.1
  have hlen := (h c.1).1
  have his : ∀ i ∈ List.range (w.compReg_.store c.1).arr_.length,
      i < (((w.compReg_.get_array c.1).1).store c.1).revMap_.length := by
    intro i hi; rw [hst, ← hlen]; exact List.mem_range.mp hi
  obtain ⟨t, ht, hts⟩ := view_loop_spec hwf (c :: cs) c.1
    (List.range (w.compReg_.store c.1).arr_.length)
    (List.replicate (c :: cs).length []) his
  refine ⟨t, ?_, hts.trans hst⟩
  unfold view_get
  simp only [hsnd, ht, Option.map_some']
  rw [hst, TCompRegistry.hasRequired_congr hst, map_getD_range hlen]
  have hrep : List.replicate (c :: cs).length ([] : List Nat) =
      (c :: cs).map fun cj => ([] : List Nat).map
        (fun ent => (w.compReg_.store cj.1).index_of ent) := by
    simp only [List.map_nil]
    exact (List.map_const' (c :: cs) ([] : List Nat)).symm
  rw [hrep, foldl_push_row (c :: cs) (fun cj ent => (w.compReg_.store cj.1).index_of ent)]
  rfl

end TWorld
namespace TComponentView
variable {α σ : Type}

theorem slots_spec {r : TCompRegistry α} (h : r.WF) (kept : List Nat) (i ent : Nat)
    (hi : kept[i]? = some ent) (cl : List (Nat × Bool))
    (hreq : ∀ cj ∈ cl, (cj.2 || (r.store cj.1).contains ent) = true)
    (r2 : TCompRegistry α) (h2 : r2.store = r.store) :
    ∃ t, slots i cl (cl.map fun cj => kept.map fun e => (r.store cj.1).index_of e) r2 =
        some (t, cl.map fun cj => (r.store cj.1).get ent) ∧ t.store = r.store := by
  induction cl generalizing r2 with
  | nil => exact ⟨r2, rfl, h2⟩
  | cons c cl ih =>
    have hst := TCompRegistry.store_get_array r2 c.1
    have hsnd := TCompRegistry.get_array_snd r2 c.1
    obtain ⟨t, ht, hts⟩ := ih (fun cj hcj => hreq cj (List.mem_cons_of_mem _ hcj))
      (r2.get_array c.1).1 (hst.trans h2)
    have hcol : (kept.map fun e => (r.store c.1).index_of e)[i]? =
        some ((r.store c.1).index_of ent) := by
      rw [List.getElem?_map, hi]; rfl
    have hgbi : (r.store c.1).get_by_index ((r.store c.1).index_of ent) =
        (r.store c.1).get ent := by
      unfold TCompArray.get_by_index
      cases hc : (r.store c.1).contains ent with
      | false =>
        have h1 := ((h c.1).index_of_eq_max_iff ent).mpr hc
        have h2 := (h c.1).arr_length_lt
        rw [h1, if_pos (by omega)]
        unfold TCompArray.contains at hc
        cases hg : (r.store c.1).get ent with
        | none => rfl
        | some m => rw [hg] at hc; exact absurd hc (by simp)
      | true =>
        have h1 := (h c.1).index_of_of_contains hc
        rw [h1]
        have h3 : (r.store c.1).fwd ent = some ((r.store c.1).index_of ent) := by
          rw [← (h c.1).get_eq]; exact h1
        have h4 := (h c.1).fwd_lt h3
        rw [if_neg (by omega)]
    refine ⟨t, ?_, hts⟩
    simp only [List.map_cons, slots, hcol, Option.some_bind, hsnd, h2, hgbi, ht,
      Option.map_some']
    have hc := hreq c (List.mem_cons_self _ _)
    have hnot : ¬ (c.2 = false ∧ ((r.store c.1).get ent).isNone = true) := by
      intro hcon
      rw [hcon.1] at hc
      simp only [Bool.false_or] at hc
      unfold TCompArray.contains at hc
      have := hcon.2
      rw [Option.isNone_iff_eq_none] at this
      rw [this] at hc
      exact absurd hc (by simp)
    rw [if_neg hnot]

end TComponentView
namespace TCompRegistry
variable {α : Type}

theorem mem_keptEntities {r : TCompRegistry α} {comps : List (Nat × Bool)} {anchor ent : Nat} :
    ent ∈ r.keptEntities comps anchor ↔
      ent ∈ (r.store anchor).revMap_ ∧ r.hasRequired comps ent = true := by
  unfold keptEntities; rw [List.mem_filter]

theorem hasRequired_iff {r : TCompRegistry α} {comps : List (Nat × Bool)} {ent : Nat} :
    r.hasRequired comps ent = true ↔
      ∀ cj ∈ comps, (cj.2 || (r.store cj.1).contains ent) = true := by
  unfold hasRequired; rw [List.all_eq_true]

theorem WF.nodup_keptEntities {r : TCompRegistry α} (h : r.WF) (comps : List (Nat × Bool))
    (anchor : Nat) : (r.keptEntities comps anchor).Nodup :=
  (h anchor).nodup.filter _

end TCompRegistry

namespace TComponentView
variable {α σ : Type}

theorem get_fresh {r : TCompRegistry α} (h : r.WF) (c : Nat × Bool) (cs : List (Nat × Bool))
    (i ent : Nat) (hi : (r.keptEntities (c :: cs) c.1)[i]? = some ent)
    (w2 : TWorld α σ) (h2 : w2.compReg_.store = r.store) :
    ∃ t, (TComponentView.mk (c :: cs) ((c :: cs).map fun cj =>
          (r.keptEntities (c :: cs) c.1).map fun e => (r.store cj.1).index_of e)).get w2 i =
        some ({ w2 with compReg_ := t },
          ⟨ent, (c :: cs).map fun cj => (r.store cj.1).get ent⟩) ∧
      t.store = r.store := by
  have hmem : ent ∈ r.keptEntities (c :: cs) c.1 := List.mem_iff_getElem?.mpr ⟨i, hi⟩
  have hk := TCompRegistry.mem_keptEntities.mp hmem
  have hreq := TCompRegistry.hasRequired_iff.mp hk.2
  have hcont := ((h c.1).contains_iff ent).mpr hk.1
  have hget := (h c.1).index_of_of_contains hcont
  have hfwd : (r.store c.1).fwd ent = some ((r.store c.1).index_of ent) := by
    rw [← (h c.1).get_eq]; exact hget
  have hrev := (h c.1).rev_fwd hfwd
  have hst := TCompRegistry.store_get_array w2.compReg_ c.1
  have hsnd := TCompRegistry.get_array_snd w2.compReg_ c.1
  obtain ⟨t, ht, hts⟩ := slots_spec h (r.keptEntities (c :: cs) c.1) i ent hi (c :: cs) hreq
    (w2.compReg_.get_array c.1).1 (hst.trans h2)
  have hcol : ((r.keptEntities (c :: cs) c.1).map fun e => (r.store c.1).index_of e)[i]? =
      some ((r.store c.1).index_of ent) := by
    rw [List.getElem?_map, hi]; rfl
  refine ⟨t, ?_, hts⟩
  simp only [get, List.map_cons, hcol, Option.some_bind, TWorld.comp_get_entity, hsnd, h2,
    TCompArray.get_id, hrev, Option.map_some']
  simp only [List.map_cons] at ht
  rw [ht]
  rfl

theorem rows_loop_fresh {r : TCompRegistry α} (h : r.WF) (c : Nat × Bool)
    (cs : List (Nat × Bool)) (is : List Nat)
    (his : ∀ i ∈ is, i < (r.keptEntities (c :: cs) c.1).length)
    (w2 : TWorld α σ) (h2 : w2.compReg_.store = r.store) :
    (TComponentView.mk (c :: cs) ((c :: cs).map fun cj =>
        (r.keptEntities (c :: cs) c.1).map fun e => (r.store cj.1).index_of e)).rows_loop is w2 =
      some (is.map fun i => ⟨(r.keptEntities (c :: cs) c.1).getD i 0,
        (c :: cs).map fun cj => (r.store cj.1).get ((r.keptEntities (c :: cs) c.1).getD i 0)⟩) := by
  induction is generalizing w2 with
  | nil => rfl
  | cons i is ih =>
    have hi := his i (List.mem_cons_self _ _)
    have hgi : (r.keptEntities (c :: cs) c.1)[i]? =
        some ((r.keptEntities (c :: cs) c.1).getD i 0) := by
      rw [List.getD_eq_getElem?_getD, List.getElem?_eq_getElem hi]; rfl
    obtain ⟨t, ht, hts⟩ := get_fresh h c cs i _ hgi w2 h2
    have := ih (fun j hj => his j (List.mem_cons_of_mem _ hj)) { w2 with compReg_ := t } hts
    rw [rows_loop, ht]
    simp only [Option.some_bind]
    rw [this]
    rfl

theorem map_comp_getD_range {β : Type} (l : List Nat) (g : Nat → β) :
    (List.range l.length).map (fun i => g (l.getD i 0)) = l.map g := by
  have := TWorld.map_getD_range (l := l) rfl
  conv_rhs => rw [← this]
  rw [List.map_map]
  rfl

end TComponentView

namespace TWorld
variable {α σ : Type}

/-- Characterisation of a freshly built view: `view_get` returns, the world it leaves has the
same stores and the same other members, and iterating the view in that world yields one set
per kept owner of the anchor store, in dense order, whose entries are the direct lookups. -/
theorem view_get_rows (w : TWorld α σ) (h : w.compReg_.WF) (c : Nat × Bool)
    (cs : List (Nat × Bool)) :
    ∃ t v, w.view_get (c :: cs) = some ({ w with compReg_ := t }, v) ∧
      t.store = w.compReg_.store ∧ v.comps = c :: cs ∧
      v.ind_ = ((c :: cs).map fun cj => (w.compReg_.keptEntities (c :: cs) c.1).map fun ent =>
        (w.compReg_.store cj.1).index_of ent) ∧
      v.size = (w.compReg_.keptEntities (c :: cs) c.1).length ∧
      v.rows ({ w with compReg_ := t } : TWorld α σ) =
        some ((w.compReg_.keptEntities (c :: cs) c.1).map fun ent =>
          ⟨ent, (c :: cs).map fun cj => (w.compReg_.store cj.1).get ent⟩) := by
  obtain ⟨t, ht, hts⟩ := view_get_spec w h c cs
  refine ⟨t, _, ht, hts, rfl, rfl, ?_, ?_⟩
  · simp [TComponentView.size]
  · have hsz : (TComponentView.mk (c :: cs) ((c :: cs).map fun cj =>
        (w.compReg_.keptEntities (c :: cs) c.1).map fun ent =>
          (w.compReg_.store cj.1).index_of ent)).size =
        (w.compReg_.keptEntities (c :: cs) c.1).length := by
      simp [TComponentView.size]
    unfold TComponentView.rows
    rw [hsz, TComponentView.rows_loop_fresh h c cs _ (fun i hi => List.mem_range.mp hi)
      { w with compReg_ := t } hts]
    rw [TComponentView.map_comp_getD_range (w.compReg_.keptEntities (c :: cs) c.1)
      (fun ent => (⟨ent, (c :: cs).map fun cj => (w.compReg_.store cj.1).get ent⟩ :
        ComponentSet))]

end TWorld

theorem countP_range_eq_length {l : List Nat} {N : Nat} {p : Nat → Bool} (hn : l.Nodup)
    (hl : ∀ x, x ∈ l ↔ x < N ∧ p x = true) : (List.range N).countP p = l.length := by
  rw [List.countP_eq_length_filter]
  have hperm : List.Perm ((List.range N).filter p) l := by
    rw [List.perm_ext_iff_of_nodup ((List.nodup_range N).filter _) hn]
    intro x
    rw [List.mem_filter, List.mem_range, hl]
  exact hperm.length_eq

theorem TCompArray.WF.contains_lt {α : Type} {s : TCompArray α} (h : s.WF) {e : Nat}
    (hc : s.contains e = true) : e < ID_MOD := by
  have h1 := h.rev_lt e ((h.contains_iff e).mp hc)
  have h2 := h.2.1
  unfold ID_MAX at h2; unfold ID_MOD; omega

/-- Claim C2. On a world whose stores satisfy the sparse-set invariant, the view built by
`view_get<A, B>()` for two required types iterates to exactly one row per entity that owns
both an `A` and a `B`: the row entities are duplicate-free, an entity is a row entity exactly
when both stores contain it, and `size()` is the number of rows and the number of entity ids
contained in both stores. -/
theorem view_pair_is_intersection {α σ : Type} (w : TWorld α σ) (A B : Nat)
    (hwf : w.compReg_.WF) :
    ∃ w1 v rows, w.view_get [(A, false), (B, false)] = some (w1, v) ∧
      v.rows w1 = some rows ∧ rows.length = v.size ∧
      (rows.map ComponentSet.entity).Nodup ∧
      (∀ e, e ∈ rows.map ComponentSet.entity ↔
        ((w.compReg_.store A).contains e = true ∧ (w.compReg_.store B).contains e = true)) ∧
      v.size = (List.range ID_MOD).countP
        (fun e => (w.compReg_.store A).contains e && (w.compReg_.store B).contains e) := by
  obtain ⟨t, v, hv, hts, hcomps, hind, hsize, hrows⟩ :=
    w.view_get_rows hwf (A, false) [(B, false)]
  have hmem : ∀ e, e ∈ w.compReg_.keptEntities [(A, false), (B, false)] A ↔
      ((w.compReg_.store A).contains e = true ∧ (w.compReg_.store B).contains e = true) := by
    intro e
    rw [TCompRegistry.mem_keptEntities, ← (hwf A).contains_iff]
    simp [TCompRegistry.hasRequired]
  have hnd := hwf.nodup_keptEntities [(A, false), (B, false)] A
  have hmap : (List.map ComponentSet.entity
      ((w.compReg_.keptEntities [(A, false), (B, false)] A).map fun ent =>
        (⟨ent, [(A, false), (B, false)].map fun cj => (w.compReg_.store cj.1).get ent⟩ :
          ComponentSet))) = w.compReg_.keptEntities [(A, false), (B, false)] A := by
    rw [List.map_map]
    exact List.map_id _
  refine ⟨_, v, _, hv, hrows, ?_, ?_, ?_, ?_⟩
  · rw [List.length_map, hsize]
  · rw [hmap]; exact hnd
  · intro e; rw [hmap]; exact hmem e
  · rw [hsize]
    symm
    apply countP_range_eq_length hnd
    intro x
    rw [hmem]
    simp only [Bool.and_eq_true]
    constructor
    · intro hx; exact ⟨(hwf A).contains_lt hx.1, hx⟩
    · intro hx; exact hx.2

/-- Instance of claim C2: types 0 and 1 on a world where entities 1 and 2 own type 0 and
entity 2 owns type 1. -/
theorem view_pair_is_intersection_witness :
    ∃ w1 v rows,
      (TWorld.mk 3 ⟨[some ⟨[10, 20], [ID_MAX, 0, 1], [1, 2]⟩,
          some ⟨[7], [ID_MAX, ID_MAX, 0], [2]⟩]⟩ [] [] [] [] : TWorld Nat Unit).view_get
        [(0, false), (1, false)] = some (w1, v) ∧
      v.rows w1 = some rows ∧ rows.length = v.size ∧
      (rows.map ComponentSet.entity).Nodup ∧
      (∀ e, e ∈ rows.map ComponentSet.entity ↔
        (((TCompRegistry.mk [some ⟨[10, 20], [ID_MAX, 0, 1], [1, 2]⟩,
            some ⟨[7], [ID_MAX, ID_MAX, 0], [2]⟩] : TCompRegistry Nat).store 0).contains e = true ∧
          ((TCompRegistry.mk [some ⟨[10, 20], [ID_MAX, 0, 1], [1, 2]⟩,
            some ⟨[7], [ID_MAX, ID_MAX, 0], [2]⟩] : TCompRegistry Nat).store 1).contains e = true)) ∧
      v.size = (List.range ID_MOD).countP
        (fun e => ((TCompRegistry.mk [some ⟨[10, 20], [ID_MAX, 0, 1], [1, 2]⟩,
            some ⟨[7], [ID_MAX, ID_MAX, 0], [2]⟩] : TCompRegistry Nat).store 0).contains e &&
          ((TCompRegistry.mk [some ⟨[10, 20], [ID_MAX, 0, 1], [1, 2]⟩,
            some ⟨[7], [ID_MAX, ID_MAX, 0], [2]⟩] : TCompRegistry Nat).store 1).contains e) :=
  view_pair_is_intersection
    (TWorld.mk 3 ⟨[some ⟨[10, 20], [ID_MAX, 0, 1], [1, 2]⟩,
      some ⟨[7], [ID_MAX, ID_MAX, 0], [2]⟩]⟩ [] [] [] []) 0 1
    (by decide)


/-- Claim C3. In the view just built by `view_get<T1..Tn>()` on a world whose stores satisfy
the sparse-set invariant, every row `i < size()` resolves (`operator[](i)` returns a set), the
owner `get_id` of anchor slot `ind_[0][i]` in the store of `T1` is the entity the set
reports, and for every queried type `Tj` the stored index `ind_[j][i]` exists and, unless it
is the absent marker, its owner in the store of `Tj` is that same entity. -/
theorem view_row_single_entity {α σ : Type} (w : TWorld α σ) (c : Nat × Bool)
    (cs : List (Nat × Bool)) (hwf : w.compReg_.WF) :
    ∃ w1 v, w.view_get (c :: cs) = some (w1, v) ∧
      ∀ i, i < v.size → ∃ w2 row, v.get w1 i = some (w2, row) ∧
        (∃ k0, (v.ind_.getD 0 [])[i]? = some k0 ∧
          (w1.compReg_.store c.1).get_id k0 = some row.entity) ∧
        ∀ (j : Nat) (cj : Nat × Bool), (c :: cs)[j]? = some cj → ∃ col k, v.ind_[j]? = some col ∧ col[i]? = some k ∧
          (k ≠ SIZE_MAX → (w1.compReg_.store cj.1).get_id k = some row.entity) := by
  obtain ⟨t, v, hv, hts, hcomps, hind, hsize, hrows⟩ := w.view_get_rows hwf c cs
  refine ⟨_, v, hv, ?_⟩
  intro i hi
  rw [hsize] at hi
  have hgi : (w.compReg_.keptEntities (c :: cs) c.1)[i]? =
      some ((w.compReg_.keptEntities (c :: cs) c.1)[i]) := List.getElem?_eq_getElem hi
  obtain ⟨t2, hget, ht2⟩ := TComponentView.get_fresh hwf c cs i _ hgi
    ({ w with compReg_ := t } : TWorld α σ) hts
  have hveq : v = TComponentView.mk (c :: cs) ((c :: cs).map fun cj =>
      (w.compReg_.keptEntities (c :: cs) c.1).map fun e => (w.compReg_.store cj.1).index_of e) := by
    cases v; simp only at hcomps hind; rw [hcomps, hind]
  have howner : ∀ cj : Nat × Bool,
      (w.compReg_.store cj.1).index_of ((w.compReg_.keptEntities (c :: cs) c.1)[i]) ≠ SIZE_MAX →
      (w.compReg_.store cj.1).get_id
        ((w.compReg_.store cj.1).index_of ((w.compReg_.keptEntities (c :: cs) c.1)[i])) =
        some ((w.compReg_.keptEntities (c :: cs) c.1)[i]) := by
    intro cj hne
    have hc : (w.compReg_.store cj.1).contains
        ((w.compReg_.keptEntities (c :: cs) c.1)[i]) = true := by
      cases hcc : (w.compReg_.store cj.1).contains ((w.compReg_.keptEntities (c :: cs) c.1)[i]) with
      | false => exact absurd (((hwf cj.1).index_of_eq_max_iff _).mpr hcc) hne
      | true => rfl
    have hg := (hwf cj.1).index_of_of_contains hc
    rw [(hwf cj.1).get_eq] at hg
    exact (hwf cj.1).rev_fwd hg
  refine ⟨_, _, by rw [hveq]; exact hget, ?_, ?_⟩
  · refine ⟨(w.compReg_.store c.1).index_of ((w.compReg_.keptEntities (c :: cs) c.1)[i]), ?_, ?_⟩
    · rw [hind]
      simp only [List.map_cons, List.getD_cons_zero]
      rw [List.getElem?_map, hgi]; rfl
    · show (t.store c.1).get_id _ = _
      rw [hts]
      apply howner
      have hmem : (w.compReg_.keptEntities (c :: cs) c.1)[i] ∈
          w.compReg_.keptEntities (c :: cs) c.1 := List.getElem_mem hi
      have hk := TCompRegistry.mem_keptEntities.mp hmem
      have hcont := ((hwf c.1).contains_iff _).mpr hk.1
      intro hmax
      rw [(hwf c.1).index_of_eq_max_iff] at hmax
      rw [hmax] at hcont
      exact absurd hcont (by simp)
  · intro j cj hj
    refine ⟨(w.compReg_.keptEntities (c :: cs) c.1).map fun e => (w.compReg_.store cj.1).index_of e,
      (w.compReg_.store cj.1).index_of ((w.compReg_.keptEntities (c :: cs) c.1)[i]), ?_, ?_, ?_⟩
    · rw [hind, List.getElem?_map, hj]; rfl
    · rw [List.getElem?_map, hgi]; rfl
    · intro hne
      show (t.store cj.1).get_id _ = _
      rw [hts]
      exact howner cj hne

/-- Instance of claim C3: a required and an observational type. -/
theorem view_row_single_entity_witness :
    ∃ w1 v,
      (TWorld.mk 3 ⟨[some ⟨[10, 20], [ID_MAX, 0, 1], [1, 2]⟩,
          some ⟨[7], [ID_MAX, ID_MAX, 0], [2]⟩]⟩ [] [] [] [] : TWorld Nat Unit).view_get
        ((0, false) :: [(1, true)]) = some (w1, v) ∧
      ∀ i, i < v.size → ∃ w2 row, v.get w1 i = some (w2, row) ∧
        (∃ k0, (v.ind_.getD 0 [])[i]? = some k0 ∧
          (w1.compReg_.store (0, false).1).get_id k0 = some row.entity) ∧
        ∀ (j : Nat) (cj : Nat × Bool), ((0, false) :: [(1, true)])[j]? = some cj →
          ∃ col k, v.ind_[j]? = some col ∧ col[i]? = some k ∧
            (k ≠ SIZE_MAX → (w1.compReg_.store cj.1).get_id k = some row.entity) :=
  view_row_single_entity
    (TWorld.mk 3 ⟨[some ⟨[10, 20], [ID_MAX, 0, 1], [1, 2]⟩,
      some ⟨[7], [ID_MAX, ID_MAX, 0], [2]⟩]⟩ [] [] [] []) (0, false) [(1, true)] (by decide)


theorem TCompArray.WF.get_by_index_index_of {α : Type} {s : TCompArray α} (h : s.WF) (e : Nat) :
    s.get_by_index (s.index_of e) = s.get e := by
  unfold TCompArray.get_by_index
  cases hc : s.contains e with
  | false =>
    have h1 := (h.index_of_eq_max_iff e).mpr hc
    have h2 := h.arr_length_lt
    rw [h1, if_pos (by omega)]
    unfold TCompArray.contains at hc
    cases hg : s.get e with
    | none => rfl
    | some m => rw [hg] at hc; exact absurd hc (by simp)
  | true =>
    have h1 := h.index_of_of_contains hc
    rw [h1]
    have h3 : s.fwd e = some (s.index_of e) := by
      rw [← h.get_eq]; exact h1
    have h4 := h.fwd_lt h3
    rw [if_neg (by omega)]

/-- Claim C4 as amended. On a world whose stores satisfy the sparse-set invariant, the view built by
`view_get<A, B*>()` (required anchor `A`, observational `B`) iterates to one row per entity
owning an `A`, in the dense order of the store of `A`, whether or not the entity owns a `B`.
In each row the `A` entry is the entity's `A` component and the `B` entry is
`get_by_index` of the stored index: when the entity owns a `B` it is the non-null pointer to
that entity's `B` component, and when it does not the stored index is the marker
`SIZE_MAX` and the entry is null. -/
theorem view_observational_rows {α σ : Type} (w : TWorld α σ) (A B : Nat)
    (hwf : w.compReg_.WF) :
    ∃ w1 v rows, w.view_get [(A, false), (B, true)] = some (w1, v) ∧
      v.rows w1 = some rows ∧
      rows.map ComponentSet.entity = (w.compReg_.store A).revMap_ ∧
      (∀ e, (w.compReg_.store A).contains e = true ↔ e ∈ rows.map ComponentSet.entity) ∧
      ∀ (i : Nat) (row : ComponentSet), rows[i]? = some row →
        ∃ kb pb, (v.ind_.getD 1 [])[i]? = some kb ∧
          (w1.compReg_.store B).get_by_index kb = pb ∧
          row.slots = [(w.compReg_.store A).get row.entity, pb] ∧
          ((w.compReg_.store B).contains row.entity = true →
            pb = (w.compReg_.store B).get row.entity ∧ pb.isSome = true ∧
              (w.compReg_.store B).get_id kb = some row.entity) ∧
          ((w.compReg_.store B).contains row.entity = false → kb = SIZE_MAX ∧ pb = none) := by
  obtain ⟨t, v, hv, hts, hcomps, hind, hsize, hrows⟩ :=
    w.view_get_rows hwf (A, false) [(B, true)]
  have hkept : w.compReg_.keptEntities [(A, false), (B, true)] A = (w.compReg_.store A).revMap_ := by
    unfold TCompRegistry.keptEntities
    rw [List.filter_eq_self]
    intro e he
    have := ((hwf A).contains_iff e).mpr he
    simp [TCompRegistry.hasRequired, this]
  have hmap : (List.map ComponentSet.entity
      ((w.compReg_.keptEntities [(A, false), (B, true)] A).map fun ent =>
        (⟨ent, [(A, false), (B, true)].map fun cj => (w.compReg_.store cj.1).get ent⟩ :
          ComponentSet))) = w.compReg_.keptEntities [(A, false), (B, true)] A := by
    rw [List.map_map]
    exact List.map_id _
  refine ⟨_, v, _, hv, hrows, ?_, ?_, ?_⟩
  · rw [hmap, hkept]
  · intro e; rw [hmap, hkept]; exact (hwf A).contains_iff e
  · intro i row hrow
    rw [List.getElem?_map] at hrow
    cases hent : (w.compReg_.keptEntities [(A, false), (B, true)] A)[i]? with
    | none => rw [hent] at hrow; exact absurd hrow (by simp)
    | some ent =>
      rw [hent] at hrow
      simp only [Option.map_some', Option.some.injEq] at hrow
      subst hrow
      refine ⟨(w.compReg_.store B).index_of ent, (w.compReg_.store B).get ent, ?_, ?_, ?_, ?_, ?_⟩
      · rw [hind]
        simp only [List.map_cons, List.getD_cons_succ, List.getD_cons_zero]
        rw [List.getElem?_map, hent]; rfl
      · show (t.store B).get_by_index _ = _
        rw [hts]
        exact (hwf B).get_by_index_index_of ent
      · rfl
      · intro hc
        have hg := (hwf B).index_of_of_contains hc
        refine ⟨rfl, by rw [hg]; rfl, ?_⟩
        rw [(hwf B).get_eq] at hg
        exact (hwf B).rev_fwd hg
      · intro hc
        refine ⟨((hwf B).index_of_eq_max_iff ent).mpr hc, ?_⟩
        unfold TCompArray.contains at hc
        cases hg : (w.compReg_.store B).get ent with
        | none => rfl
        | some m => rw [hg] at hc; exact absurd hc (by simp)

/-- Instance of the amended claim C4: entities 1 and 2 own type 0, only entity 2 owns type 1. -/
theorem view_observational_rows_witness :
    ∃ w1 v rows,
      (TWorld.mk 3 ⟨[some ⟨[10, 20], [ID_MAX, 0, 1], [1, 2]⟩,
          some ⟨[7], [ID_MAX, ID_MAX, 0], [2]⟩]⟩ [] [] [] [] : TWorld Nat Unit).view_get
        [(0, false), (1, true)] = some (w1, v) ∧
      v.rows w1 = some rows ∧
      rows.map ComponentSet.entity =
        ((TCompRegistry.mk [some ⟨[10, 20], [ID_MAX, 0, 1], [1, 2]⟩,
          some ⟨[7], [ID_MAX, ID_MAX, 0], [2]⟩] : TCompRegistry Nat).store 0).revMap_ ∧
      (∀ e, ((TCompRegistry.mk [some ⟨[10, 20], [ID_MAX, 0, 1], [1, 2]⟩,
          some ⟨[7], [ID_MAX, ID_MAX, 0], [2]⟩] : TCompRegistry Nat).store 0).contains e = true ↔
        e ∈ rows.map ComponentSet.entity) ∧
      ∀ (i : Nat) (row : ComponentSet), rows[i]? = some row →
        ∃ kb pb, (v.ind_.getD 1 [])[i]? = some kb ∧
          (w1.compReg_.store 1).get_by_index kb = pb ∧
          row.slots = [((TCompRegistry.mk [some ⟨[10, 20], [ID_MAX, 0, 1], [1, 2]⟩,
            some ⟨[7], [ID_MAX, ID_MAX, 0], [2]⟩] : TCompRegistry Nat).store 0).get row.entity, pb] ∧
          (((TCompRegistry.mk [some ⟨[10, 20], [ID_MAX, 0, 1], [1, 2]⟩,
            some ⟨[7], [ID_MAX, ID_MAX, 0], [2]⟩] : TCompRegistry Nat).store 1).contains
              row.entity = true →
            pb = ((TCompRegistry.mk [some ⟨[10, 20], [ID_MAX, 0, 1], [1, 2]⟩,
              some ⟨[7], [ID_MAX, ID_MAX, 0], [2]⟩] : TCompRegistry Nat).store 1).get row.entity ∧
            pb.isSome = true ∧
            ((TCompRegistry.mk [some ⟨[10, 20], [ID_MAX, 0, 1], [1, 2]⟩,
              some ⟨[7], [ID_MAX, ID_MAX, 0], [2]⟩] : TCompRegistry Nat).store 1).get_id kb =
                some row.entity) ∧
          (((TCompRegistry.mk [some ⟨[10, 20], [ID_MAX, 0, 1], [1, 2]⟩,
            some ⟨[7], [ID_MAX, ID_MAX, 0], [2]⟩] : TCompRegistry Nat).store 1).contains
              row.entity = false → kb = SIZE_MAX ∧ pb = none) :=
  view_observational_rows
    (TWorld.mk 3 ⟨[some ⟨[10, 20], [ID_MAX, 0, 1], [1, 2]⟩,
      some ⟨[7], [ID_MAX, ID_MAX, 0], [2]⟩]⟩ [] [] [] []) 0 1 (by decide)


theorem TCompRegistry.keptEntities_single {α : Type} {r : TCompRegistry α} (h : r.WF) (X : Nat) :
    r.keptEntities [(X, false)] X = (r.store X).revMap_ := by
  unfold TCompRegistry.keptEntities
  rw [List.filter_eq_self]
  intro e he
  have := ((h X).contains_iff e).mpr he
  simp [TCompRegistry.hasRequired, this]

theorem TWorld.view_single_entities {α σ : Type} (w : TWorld α σ) (h : w.compReg_.WF) (X : Nat) :
    ∃ w1 v rows, w.view_get [(X, false)] = some (w1, v) ∧ v.rows w1 = some rows ∧
      rows.map ComponentSet.entity = (w.compReg_.store X).revMap_ ∧
      v.size = (w.compReg_.store X).revMap_.length := by
  obtain ⟨t, v, hv, hts, hcomps, hind, hsize, hrows⟩ := w.view_get_rows h (X, false) []
  refine ⟨_, v, _, hv, hrows, ?_, ?_⟩
  · rw [List.map_map, TCompRegistry.keptEntities_single h]
    exact List.map_id _
  · rw [hsize, TCompRegistry.keptEntities_single h]

theorem TWorld.comp_remove_spec {α σ : Type} (w : TWorld α σ) (X e : Nat)
    {t : TCompArray α} (ht : (w.compReg_.store X).remove e = some t) :
    ∃ w1, w.comp_remove X e = some w1 ∧
      (∀ k, w1.compReg_.store k = if k = X then t else w.compReg_.store k) ∧
      w1.lastUsed_ = w.lastUsed_ ∧ w1.removeList_ = w.removeList_ ∧
      w1.sysTick_ = w.sysTick_ ∧ w1.sysTickBegin_ = w.sysTickBegin_ ∧
      w1.sysTickEnd_ = w.sysTickEnd_ := by
  refine ⟨{ w with compReg_ := (w.compReg_.get_array X).1.put X t }, ?_, ?_, rfl, rfl, rfl, rfl,
    rfl⟩
  · unfold TWorld.comp_remove
    simp only [TCompRegistry.get_array_snd, ht, Option.map_some']
  · intro k
    exact TCompRegistry.store_put_get_array _ _ _ _

/-- Claim C7. On a store satisfying the invariant, removing an entity it contains leaves a store
in which `contains(e)` is false and `get(e)` is null, whose `size()` is one less, and in which
every other contained entity is still contained with `get` pointing at the same component
value. Consequently, in any world holding that store for type `X`, the view over `{X}` built
after `comp_remove<X>(e)` has one row fewer and its row entities are those of the view built
before, minus `e`. -/
theorem remove_contained_entity {α σ : Type} (s : TCompArray α) (e : Nat)
    (hwf : s.WF) (hc : s.contains e = true) :
    ∃ t, s.remove e = some t ∧ t.contains e = false ∧ t.get e = none ∧ t.size + 1 = s.size ∧
      (∀ e', e' ≠ e → s.contains e' = true →
        t.contains e' = true ∧ t.deref (t.get e') = s.deref (s.get e')) ∧
      ∀ (w : TWorld α σ) (X : Nat), w.compReg_.WF → w.compReg_.store X = s →
        ∃ w0 v0 rows0 w1 w2 v rows,
          w.view_get [(X, false)] = some (w0, v0) ∧ v0.rows w0 = some rows0 ∧
          w.comp_remove X e = some w1 ∧
          w1.view_get [(X, false)] = some (w2, v) ∧ v.rows w2 = some rows ∧
          v.size + 1 = v0.size ∧
          ∀ x, x ∈ rows.map ComponentSet.entity ↔ (x ∈ rows0.map ComponentSet.entity ∧ x ≠ e) := by
  have hcf := hwf.contains_eq e
  rw [hc] at hcf
  obtain ⟨index, hf⟩ := Option.isSome_iff_exists.mp hcf.symm
  obtain ⟨t, ht, htwf, hlen, hfwd, hval⟩ := TCompArray.remove_props hwf hf
  have hidx := hwf.fwd_lt hf
  have hsome : ∀ x, (t.fwd x).isSome = true ↔ (x ≠ e ∧ (s.fwd x).isSome = true) := by
    intro x
    rw [hfwd]
    by_cases hx : x = e
    · simp [hx]
    · rw [if_neg hx]
      by_cases hl : s.fwd x = some (s.arr_.length - 1)
      · simp [hl, hx]
      · simp [hl, hx]
  refine ⟨t, ht, ?_, ?_, ?_, ?_, ?_⟩
  · rw [htwf.contains_eq, hfwd, if_pos rfl]; rfl
  · rw [htwf.get_eq, hfwd, if_pos rfl]
  · unfold TCompArray.size; omega
  · intro e' hne hce
    refine ⟨?_, hval e' hne⟩
    rw [htwf.contains_eq, hsome]
    rw [hwf.contains_eq] at hce
    exact ⟨hne, hce⟩
  · intro w X hw hX
    obtain ⟨w0, v0, rows0, hv0, hr0, he0, hs0⟩ := w.view_single_entities hw X
    have ht' : (w.compReg_.store X).remove e = some t := by rw [hX]; exact ht
    obtain ⟨w1, hw1, hst, _⟩ := w.comp_remove_spec X e ht'
    have hw1wf : w1.compReg_.WF := by
      intro k
      rw [hst]
      by_cases hk : k = X
      · rw [if_pos hk]; exact htwf
      · rw [if_neg hk]; exact hw k
    obtain ⟨w2, v, rows, hv, hr, he1, hs1⟩ := w1.view_single_entities hw1wf X
    have hX1 : w1.compReg_.store X = t := by rw [hst, if_pos rfl]
    refine ⟨w0, v0, rows0, w1, w2, v, rows, hv0, hr0, hw1, hv, hr, ?_, ?_⟩
    · rw [hs1, hs0, hX1, hX, ← htwf.1, ← hwf.1, hlen]; omega
    · intro x
      rw [he1, he0, hX1, hX, ← htwf.contains_iff, ← hwf.contains_iff, htwf.contains_eq,
        hwf.contains_eq, hsome]
      tauto

/-- Instance of claim C7: entity 1 removed from the store of type 0, which holds entities 1
and 2, in a world that also has a store of type 1. -/
theorem remove_contained_entity_witness :
    ∃ t, (TCompArray.mk [10, 20] [ID_MAX, 0, 1] [1, 2]).remove 1 = some t ∧
      t.contains 1 = false ∧ t.get 1 = none ∧
      t.size + 1 = (TCompArray.mk [10, 20] [ID_MAX, 0, 1] [1, 2]).size ∧
      (∀ e', e' ≠ 1 → (TCompArray.mk [10, 20] [ID_MAX, 0, 1] [1, 2]).contains e' = true →
        t.contains e' = true ∧ t.deref (t.get e') =
          (TCompArray.mk [10, 20] [ID_MAX, 0, 1] [1, 2]).deref
            ((TCompArray.mk [10, 20] [ID_MAX, 0, 1] [1, 2]).get e')) ∧
      ∃ w0 v0 rows0 w1 w2 v rows,
        (TWorld.mk 3 ⟨[some ⟨[10, 20], [ID_MAX, 0, 1], [1, 2]⟩,
          some ⟨[7], [ID_MAX, ID_MAX, 0], [2]⟩]⟩ [] [] [] [] : TWorld Nat Unit).view_get
            [(0, false)] = some (w0, v0) ∧
        v0.rows w0 = some rows0 ∧
        (TWorld.mk 3 ⟨[some ⟨[10, 20], [ID_MAX, 0, 1], [1, 2]⟩,
          some ⟨[7], [ID_MAX, ID_MAX, 0], [2]⟩]⟩ [] [] [] [] : TWorld Nat Unit).comp_remove 0 1 =
            some w1 ∧
        w1.view_get [(0, false)] = some (w2, v) ∧ v.rows w2 = some rows ∧
        v.size + 1 = v0.size ∧
        ∀ x, x ∈ rows.map ComponentSet.entity ↔ (x ∈ rows0.map ComponentSet.entity ∧ x ≠ 1) :=
  (remove_contained_entity (TCompArray.mk [10, 20] [ID_MAX, 0, 1] [1, 2]) 1
    (by decide) (by decide)).imp fun _ h =>
      ⟨h.1, h.2.1, h.2.2.1, h.2.2.2.1, h.2.2.2.2.1,
        h.2.2.2.2.2 (TWorld.mk 3 ⟨[some ⟨[10, 20], [ID_MAX, 0, 1], [1, 2]⟩,
          some ⟨[7], [ID_MAX, ID_MAX, 0], [2]⟩]⟩ [] [] [] []) 0 (by decide) (by decide)⟩

namespace TCompRegistry
variable {α : Type}

theorem WF.of_mem {r : TCompRegistry α} (h : r.WF) {s : TCompArray α}
    (hs : some s ∈ r.reg_) : s.WF := by
  obtain ⟨k, hk⟩ := List.mem_iff_getElem?.mp hs
  have := h k
  unfold store at this
  rw [List.getD_eq_getElem?_getD, hk] at this
  exact this

theorem remove_all_loop_spec (id : Nat) (reg : List (Option (TCompArray α)))
    (h : ∀ s, some s ∈ reg → s.WF) :
    remove_all_loop id reg =
      some (reg.map fun slot => slot.map fun s => (s.remove id).getD s) := by
  induction reg with
  | nil => rfl
  | cons slot rest ih =>
    have ih' := ih (fun s hs => h s (List.mem_cons_of_mem _ hs))
    cases slot with
    | none => simp [remove_all_loop, ih']
    | some arr =>
      have hwf := h arr (List.mem_cons_self _ _)
      by_cases hc : arr.contains id = true
      · obtain ⟨t, ht, _⟩ := hwf.remove id
        simp [remove_all_loop, ih', hc, ht]
      · have hcf : arr.contains id = false := by
          cases hcc : arr.contains id with
          | false => rfl
          | true => exact absurd hcc hc
        have hr : arr.remove id = some arr := by
          apply TCompArray.remove_absent
          rw [hwf.contains_eq] at hcf
          cases hf : arr.fwd id with
          | none => rfl
          | some m => rw [hf] at hcf; exact absurd hcf (by simp)
        simp [remove_all_loop, ih', hcf, hr]

theorem remove_all_of_spec {r : TCompRegistry α} (h : r.WF) (id : Nat) :
    ∃ t, r.remove_all_of id = some t ∧
      t.reg_ = (r.reg_.map fun slot => slot.map fun s => (s.remove id).getD s) ∧
      ∀ k, (r.store k).remove id = some (t.store k) := by
  refine ⟨⟨r.reg_.map fun slot => slot.map fun s => (s.remove id).getD s⟩, ?_, rfl, ?_⟩
  · unfold remove_all_of
    rw [remove_all_loop_spec id r.reg_ (fun s hs => h.of_mem hs)]
    rfl
  · intro k
    obtain ⟨u, hu, _⟩ := (h k).remove id
    rw [hu]
    congr 1
    have hk := h k
    unfold store at hu hk ⊢
    simp only
    rw [List.getD_eq_getElem?_getD, List.getElem?_map]
    rw [List.getD_eq_getElem?_getD] at hu hk
    cases hslot : r.reg_[k]? with
    | none =>
      rw [hslot] at hu
      simp only [Option.map_none', Option.getD_none] at hu ⊢
      have : (TCompArray.empty : TCompArray α).remove id = some TCompArray.empty := by
        simp [TCompArray.remove, TCompArray.empty]
      rw [this] at hu
      exact (Option.some.inj hu).symm
    | some slot =>
      rw [hslot] at hu
      cases slot with
      | none =>
        simp only [Option.map_some', Option.getD_some, Option.map_none', Option.getD_none] at hu ⊢
        have : (TCompArray.empty : TCompArray α).remove id = some TCompArray.empty := by
          simp [TCompArray.remove, TCompArray.empty]
        rw [this] at hu
        exact (Option.some.inj hu).symm
      | some s =>
        simp only [Option.map_some', Option.getD_some] at hu ⊢
        rw [hu]; rfl

end TCompRegistry

theorem TCompArray.remove_total_props {α : Type} {s t : TCompArray α} (h : s.WF) {e : Nat}
    (ht : s.remove e = some t) :
    t.WF ∧ t.contains e = false ∧ (∀ e', e' ≠ e → t.deref (t.get e') = s.deref (s.get e')) ∧
      (s.contains e = false → t = s) := by
  cases hf : s.fwd e with
  | none =>
    have := TCompArray.remove_absent s e hf
    rw [this] at ht
    have hts : t = s := (Option.some.inj ht).symm
    subst hts
    refine ⟨h, ?_, fun _ _ => rfl, fun _ => rfl⟩
    rw [h.contains_eq, hf]; rfl
  | some index =>
    obtain ⟨u, hu, huwf, _, hfwd, hval⟩ := TCompArray.remove_props h hf
    rw [hu] at ht
    have hts : u = t := Option.some.inj ht
    subst hts
    refine ⟨huwf, ?_, hval, ?_⟩
    · rw [huwf.contains_eq, hfwd, if_pos rfl]; rfl
    · intro hc
      rw [h.contains_eq, hf] at hc
      exact absurd hc (by simp)

theorem TWorld.entity_destroy_spec {α σ : Type} (w : TWorld α σ) (h : w.compReg_.WF) (e : Nat) :
    ∃ t, w.entity_destroy e = some { w with compReg_ := t } ∧
      t.reg_ = (w.compReg_.reg_.map fun slot => slot.map fun s => (s.remove e).getD s) ∧
      (∀ k, (w.compReg_.store k).remove e = some (t.store k)) ∧ t.WF := by
  obtain ⟨t, ht, hreg, hst⟩ := TCompRegistry.remove_all_of_spec h e
  refine ⟨t, ?_, hreg, hst, ?_⟩
  · unfold TWorld.entity_destroy
    rw [ht]; rfl
  · intro k
    exact (TCompArray.remove_total_props (h k) (hst k)).1

/-- Claim C9 as amended. On a world whose stores satisfy the sparse-set invariant, `entity_destroy(e)`
returns, and afterwards no store of the registry contains `e`, `comp_get<T>(e)` is null for
every component type `T`, and every view built on the resulting world, whatever the queried
types, iterates without a row whose entity is `e`. -/
theorem entity_destroy_removes_everywhere {α σ : Type} (w : TWorld α σ) (e : Nat)
    (hwf : w.compReg_.WF) :
    ∃ w1, w.entity_destroy e = some w1 ∧
      (∀ s, some s ∈ w1.compReg_.reg_ → s.contains e = false) ∧
      (∀ key, (w1.compReg_.store key).contains e = false) ∧
      (∀ key, (w1.comp_get key e).2 = none) ∧
      ∀ comps, ∃ w2 v rows, w1.view_get comps = some (w2, v) ∧ v.rows w2 = some rows ∧
        ∀ row ∈ rows, row.entity ≠ e := by
  obtain ⟨t, ht, hreg, hst, htwf⟩ := w.entity_destroy_spec hwf e
  have hnc : ∀ key, (t.store key).contains e = false := fun key =>
    (TCompArray.remove_total_props (hwf key) (hst key)).2.1
  refine ⟨_, ht, ?_, hnc, ?_, ?_⟩
  · intro s hs
    obtain ⟨k, hk⟩ := List.mem_iff_getElem?.mp hs
    have := hnc k
    unfold TCompRegistry.store at this
    rw [List.getD_eq_getElem?_getD] at this
    simp only at hk
    rw [hk] at this
    exact this
  · intro key
    unfold TWorld.comp_get
    simp only [TCompRegistry.get_array_snd]
    have := hnc key
    unfold TCompArray.contains at this
    cases hg : (t.store key).get e with
    | none => rfl
    | some m => rw [hg] at this; exact absurd this (by simp)
  · intro comps
    cases comps with
    | nil =>
      refine ⟨_, ⟨[], []⟩, [], rfl, rfl, ?_⟩
      intro row hrow
      exact absurd hrow (List.not_mem_nil _)
    | cons c cs =>
      obtain ⟨t2, v, hv, hts, _, _, _, hrows⟩ :=
        TWorld.view_get_rows ({ w with compReg_ := t } : TWorld α σ) htwf c cs
      refine ⟨_, v, _, hv, hrows, ?_⟩
      intro row hrow
      obtain ⟨ent, hent, hrow⟩ := List.mem_map.mp hrow
      subst hrow
      have hk := (TCompRegistry.mem_keptEntities.mp hent).1
      have hc := ((htwf c.1).contains_iff ent).mpr hk
      intro heq
      simp only at heq
      rw [heq, hnc c.1] at hc
      exact absurd hc (by simp)

/-- Instance of the amended claim C9: entity 2 destroyed in a world with two stores that hold it. -/
theorem entity_destroy_removes_everywhere_witness :
    ∃ w1, (TWorld.mk 3 ⟨[some ⟨[10, 20], [ID_MAX, 0, 1], [1, 2]⟩,
          some ⟨[7], [ID_MAX, ID_MAX, 0], [2]⟩]⟩ [] [] [] [] : TWorld Nat Unit).entity_destroy 2 =
        some w1 ∧
      (∀ s, some s ∈ w1.compReg_.reg_ → s.contains 2 = false) ∧
      (∀ key, (w1.compReg_.store key).contains 2 = false) ∧
      (∀ key, (w1.comp_get key 2).2 = none) ∧
      ∀ comps, ∃ w2 v rows, w1.view_get comps = some (w2, v) ∧ v.rows w2 = some rows ∧
        ∀ row ∈ rows, row.entity ≠ 2 :=
  entity_destroy_removes_everywhere
    (TWorld.mk 3 ⟨[some ⟨[10, 20], [ID_MAX, 0, 1], [1, 2]⟩,
      some ⟨[7], [ID_MAX, ID_MAX, 0], [2]⟩]⟩ [] [] [] []) 2 (by decide)

/-- Claim C10 as amended. On a world whose stores satisfy the sparse-set invariant, `entity_destroy(e)`
returns and removes nothing else: for every other entity and every component type
`comp_get` points at the same component value as before, the registry keeps its length and
its null handles, every store that did not contain `e` is exactly the store it was, and the
entity counter, the pending-removal list and the three system lists are unchanged. -/
theorem entity_destroy_frame {α σ : Type} (w : TWorld α σ) (e : Nat) (hwf : w.compReg_.WF) :
    ∃ w1, w.entity_destroy e = some w1 ∧
      (∀ key e', e' ≠ e →
        (w1.compReg_.store key).deref (w1.comp_get key e').2 =
          (w.compReg_.store key).deref (w.comp_get key e').2) ∧
      w1.compReg_.reg_.length = w.compReg_.reg_.length ∧
      (∀ k : Nat, w.compReg_.reg_[k]? = some none → w1.compReg_.reg_[k]? = some none) ∧
      (∀ (k : Nat) (s : TCompArray α), w.compReg_.reg_[k]? = some (some s) →
        s.contains e = false →
        w1.compReg_.reg_[k]? = some (some s)) ∧
      (∀ key, (w.compReg_.store key).contains e = false →
        w1.compReg_.store key = w.compReg_.store key) ∧
      w1.lastUsed_ = w.lastUsed_ ∧ w1.removeList_ = w.removeList_ ∧
      w1.sysTick_ = w.sysTick_ ∧ w1.sysTickBegin_ = w.sysTickBegin_ ∧
      w1.sysTickEnd_ = w.sysTickEnd_ := by
  obtain ⟨t, ht, hreg, hst, htwf⟩ := w.entity_destroy_spec hwf e
  refine ⟨_, ht, ?_, ?_, ?_, ?_, ?_, rfl, rfl, rfl, rfl, rfl⟩
  · intro key e' hne
    unfold TWorld.comp_get
    simp only [TCompRegistry.get_array_snd]
    exact (TCompArray.remove_total_props (hwf key) (hst key)).2.2.1 e' hne
  · show t.reg_.length = _
    rw [hreg, List.length_map]
  · intro k hk
    show t.reg_[k]? = _
    rw [hreg, List.getElem?_map, hk]; rfl
  · intro k s hk hc
    show t.reg_[k]? = _
    rw [hreg, List.getElem?_map, hk]
    have hs : s.WF := hwf.of_mem (List.mem_iff_getElem?.mpr ⟨k, hk⟩)
    have hr : s.remove e = some s := by
      apply TCompArray.remove_absent
      rw [hs.contains_eq] at hc
      cases hf : s.fwd e with
      | none => rfl
      | some m => rw [hf] at hc; exact absurd hc (by simp)
    simp [hr]
  · intro key hc
    exact (TCompArray.remove_total_props (hwf key) (hst key)).2.2.2 hc

/-- Instance of the amended claim C10: entity 1 destroyed; the store of type 1 does not hold it. -/
theorem entity_destroy_frame_witness :
    ∃ w1, (TWorld.mk 3 ⟨[some ⟨[10, 20], [ID_MAX, 0, 1], [1, 2]⟩,
          some ⟨[7], [ID_MAX, ID_MAX, 0], [2]⟩]⟩ [5] [] [6] [2] : TWorld Nat Nat).entity_destroy 1 =
        some w1 ∧
      (∀ key e', e' ≠ 1 →
        (w1.compReg_.store key).deref (w1.comp_get key e').2 =
          ((TCompRegistry.mk [some ⟨[10, 20], [ID_MAX, 0, 1], [1, 2]⟩,
            some ⟨[7], [ID_MAX, ID_MAX, 0], [2]⟩] : TCompRegistry Nat).store key).deref
            ((TWorld.mk 3 ⟨[some ⟨[10, 20], [ID_MAX, 0, 1], [1, 2]⟩,
              some ⟨[7], [ID_MAX, ID_MAX, 0], [2]⟩]⟩ [5] [] [6] [2] :
                TWorld Nat Nat).comp_get key e').2) ∧
      w1.compReg_.reg_.length = 2 ∧
      w1.compReg_.reg_[1]? = some (some ⟨[7], [ID_MAX, ID_MAX, 0], [2]⟩) ∧
      w1.lastUsed_ = 3 ∧ w1.removeList_ = [2] ∧
      w1.sysTick_ = [5] ∧ w1.sysTickBegin_ = [] ∧ w1.sysTickEnd_ = [6] :=
  (entity_destroy_frame
    (TWorld.mk 3 ⟨[some ⟨[10, 20], [ID_MAX, 0, 1], [1, 2]⟩,
      some ⟨[7], [ID_MAX, ID_MAX, 0], [2]⟩]⟩ [5] [] [6] [2]) 1 (by decide)).imp fun _ h =>
    ⟨h.1, h.2.1, h.2.2.1, h.2.2.2.2.1 1 _ (by decide) (by decide), h.2.2.2.2.2.2.1,
      h.2.2.2.2.2.2.2.1, h.2.2.2.2.2.2.2.2.1, h.2.2.2.2.2.2.2.2.2.1, h.2.2.2.2.2.2.2.2.2.2⟩

namespace TWorld
variable {α σ : Type}

theorem empty_wf : (TWorld.empty : TWorld α σ).compReg_.WF := by
  intro key
  have : (TWorld.empty : TWorld α σ).compReg_.store key = TCompArray.empty := by
    simp [TWorld.empty, TCompRegistry.store]
  rw [this]
  exact TCompArray.WF_empty

theorem comp_add_wf (w : TWorld α σ) (h : w.compReg_.WF) (key e : Nat) (he : e < ID_MAX)
    (v : α) : ∃ w1, w.comp_add key e (some v) = some w1 ∧ w1.compReg_.WF := by
  obtain ⟨b, t, ht, htwf⟩ := (h key).insert he v
  refine ⟨{ w with compReg_ := (w.compReg_.get_array key).1.put key t }, ?_, ?_⟩
  · unfold comp_add
    simp only [TCompRegistry.get_array_snd, ht, Option.map_some']
  · intro k
    show ((w.compReg_.get_array key).1.put key t).store k |>.WF
    rw [TCompRegistry.store_put_get_array]
    by_cases hk : k = key
    · rw [if_pos hk]; exact htwf
    · rw [if_neg hk]; exact h k

theorem comp_remove_wf (w : TWorld α σ) (h : w.compReg_.WF) (key e : Nat) :
    ∃ w1, w.comp_remove key e = some w1 ∧ w1.compReg_.WF := by
  obtain ⟨t, ht, htwf⟩ := (h key).remove e
  obtain ⟨w1, hw1, hst, _⟩ := w.comp_remove_spec key e ht
  refine ⟨w1, hw1, ?_⟩
  intro k
  rw [hst]
  by_cases hk : k = key
  · rw [if_pos hk]; exact htwf
  · rw [if_neg hk]; exact h k

theorem entity_destroy_wf (w : TWorld α σ) (h : w.compReg_.WF) (e : Nat) :
    ∃ w1, w.entity_destroy e = some w1 ∧ w1.compReg_.WF := by
  obtain ⟨t, ht, _, _, htwf⟩ := w.entity_destroy_spec h e
  exact ⟨_, ht, htwf⟩

theorem comp_get_wf (w : TWorld α σ) (h : w.compReg_.WF) (key e : Nat) :
    (w.comp_get key e).1.compReg_.WF :=
  h.get_array key

theorem view_get_wf (w : TWorld α σ) (h : w.compReg_.WF) (comps : List (Nat × Bool)) :
    ∃ w1 v, w.view_get comps = some (w1, v) ∧ w1.compReg_.WF := by
  cases comps with
  | nil => exact ⟨w, _, rfl, h⟩
  | cons c cs =>
    obtain ⟨t, v, hv, hts, _⟩ := w.view_get_rows h c cs
    exact ⟨_, v, hv, TCompRegistry.WF_of_store_eq h hts⟩

end TWorld

/-- The scenario world evaluates to two stores: `X` holding entities 1 and 2, `Y` holding
entity 2. -/
theorem scenario_eq :
    scenario = some (TWorld.mk 0 ⟨[some ⟨[10, 20], [ID_MAX, 0, 1], [1, 2]⟩,
      some ⟨[7], [ID_MAX, ID_MAX, 0], [2]⟩]⟩ [] [] [] []) := by
  decide

/-- In the scenario the view over `{X}` has size 2, with rows for entities 1 and 2. -/
theorem scenario_view_X :
    (scenario.bind fun w => (w.view_get [(0, false)]).bind fun wv =>
      (wv.2.rows wv.1).map fun rows => (wv.2.size, rows)) =
      some (2, [⟨1, [some 0]⟩, ⟨2, [some 1]⟩]) := by
  decide

/-- In the scenario the view over `{X, Y}` has size 1 and its row is entity 2. -/
theorem scenario_view_XY :
    (scenario.bind fun w => (w.view_get [(0, false), (1, false)]).bind fun wv =>
      (wv.2.rows wv.1).map fun rows => (wv.2.size, rows)) =
      some (1, [⟨2, [some 1, some 0]⟩]) := by
  decide

/-- In the scenario `comp_get<X>` of entity 3 is null. -/
theorem scenario_get_absent :
    (scenario.map fun w => (w.comp_get 0 3).2) = some none := by
  decide

/-- In the scenario, after `X` is removed from entity 1 the view over `{X}` has size 1 and
its row is entity 2. -/
theorem scenario_view_after_remove :
    (scenario.bind fun w => (w.comp_remove 0 1).bind fun w1 =>
      (w1.view_get [(0, false)]).bind fun wv =>
      (wv.2.rows wv.1).map fun rows => (wv.2.size, rows)) = some (1, [⟨2, [some 0]⟩]) := by
  decide


theorem TComponentView.get_congr {α σ : Type} (v : TComponentView) (w u : TWorld α σ)
    (h : w.compReg_ = u.compReg_) (i : Nat) :
    (v.get w i).map (fun x => (x.1.compReg_, x.2)) =
      (v.get u i).map (fun x => (x.1.compReg_, x.2)) := by
  unfold TComponentView.get
  split
  · simp only [TWorld.comp_get_entity, h]
    cases hcol : (_ : List Nat)[i]? with
    | none => rfl
    | some k =>
      simp only [Option.some_bind]
      cases hid : ((u.compReg_.get_array _).2.get_id k) with
      | none => rfl
      | some ent =>
        simp only [Option.map_some', Option.some_bind, Option.map_map]
        rfl
  · rfl

theorem TComponentView.rows_loop_congr {α σ : Type} (v : TComponentView) (is : List Nat)
    (w u : TWorld α σ) (h : w.compReg_ = u.compReg_) : v.rows_loop is w = v.rows_loop is u := by
  induction is generalizing w u with
  | nil => rfl
  | cons i is ih =>
    have hg := TComponentView.get_congr v w u h i
    unfold TComponentView.rows_loop
    cases hw : v.get w i with
    | none =>
      rw [hw] at hg
      cases hu : v.get u i with
      | none => rfl
      | some y => rw [hu] at hg; exact absurd hg (by simp)
    | some x =>
      rw [hw] at hg
      cases hu : v.get u i with
      | none => rw [hu] at hg; exact absurd hg (by simp)
      | some y =>
        rw [hu] at hg
        simp only [Option.map_some', Option.some.injEq, Prod.mk.injEq] at hg
        simp only [Option.some_bind]
        rw [ih x.1 y.1 hg.1, hg.2]

theorem TWorld.view_get_congr {α σ : Type} (w u : TWorld α σ) (h : w.compReg_ = u.compReg_)
    (comps : List (Nat × Bool)) :
    (w.view_get comps).map (fun x => (x.1.compReg_, x.2)) =
      (u.view_get comps).map (fun x => (x.1.compReg_, x.2)) := by
  unfold TWorld.view_get
  cases comps with
  | nil => simp [h]
  | cons c cs =>
    simp only [h, Option.map_map]
    rfl

/-- Claim C11. On every world `entity_destroy_delayed(e)` changes nothing but the
pending-removal list, which grows by `e` at its end: the registry is the same object, so
`comp_get`, `contains` and `size()` of every store give the same results, `view_get` builds
the same view for every list of queried types and the view iterates to the same rows, and the
entity counter and the system lists are unchanged. -/
theorem entity_destroy_delayed_frame {α σ : Type} (w : TWorld α σ) (e : Nat) :
    (w.entity_destroy_delayed e).removeList_ = w.removeList_ ++ [e] ∧
    (w.entity_destroy_delayed e).compReg_ = w.compReg_ ∧
    (∀ key e', ((w.entity_destroy_delayed e).comp_get key e').2 = (w.comp_get key e').2) ∧
    (∀ key e', ((w.entity_destroy_delayed e).compReg_.store key).contains e' =
      (w.compReg_.store key).contains e') ∧
    (∀ key, ((w.entity_destroy_delayed e).compReg_.store key).size =
      (w.compReg_.store key).size) ∧
    (∀ comps, ((w.entity_destroy_delayed e).view_get comps).map Prod.snd =
      (w.view_get comps).map Prod.snd) ∧
    (∀ comps, ((w.entity_destroy_delayed e).view_get comps).bind (fun x => x.2.rows x.1) =
      (w.view_get comps).bind (fun x => x.2.rows x.1)) ∧
    (w.entity_destroy_delayed e).lastUsed_ = w.lastUsed_ ∧
    (w.entity_destroy_delayed e).sysTick_ = w.sysTick_ ∧
    (w.entity_destroy_delayed e).sysTickBegin_ = w.sysTickBegin_ ∧
    (w.entity_destroy_delayed e).sysTickEnd_ = w.sysTickEnd_ := by
  have hreg : (w.entity_destroy_delayed e).compReg_ = w.compReg_ := rfl
  have hview := fun comps => TWorld.view_get_congr (w.entity_destroy_delayed e) w hreg comps
  refine ⟨rfl, rfl, fun _ _ => rfl, fun _ _ => rfl, fun _ => rfl, ?_, ?_, rfl, rfl, rfl, rfl⟩
  · intro comps
    have := congrArg (Option.map Prod.snd) (hview comps)
    simpa [Option.map_map, Function.comp] using this
  · intro comps
    have := hview comps
    cases h1 : (w.entity_destroy_delayed e).view_get comps with
    | none =>
      rw [h1] at this
      cases h2 : w.view_get comps with
      | none => rfl
      | some y => rw [h2] at this; exact absurd this (by simp)
    | some x =>
      rw [h1] at this
      cases h2 : w.view_get comps with
      | none => rw [h2] at this; exact absurd this (by simp)
      | some y =>
        rw [h2] at this
        simp only [Option.map_some', Option.some.injEq, Prod.mk.injEq] at this
        simp only [Option.some_bind]
        rw [this.2]
        exact TComponentView.rows_loop_congr _ _ _ _ this.1

namespace TWorld
variable {α σ : Type}

theorem process_remove_loop_eq (es : List Nat) (w : TWorld α σ) :
    process_remove_loop es w = destroy_in_order w es := by
  induction es generalizing w with
  | nil => rfl
  | cons e es ih =>
    unfold process_remove_loop destroy_in_order
    rw [List.foldlM_cons]
    cases h : w.entity_destroy e with
    | none => rfl
    | some w1 =>
      simp only [Option.some_bind, Option.bind_eq_bind]
      exact ih w1

theorem destroy_in_order_spec (es : List Nat) (w : TWorld α σ) (h : w.compReg_.WF) :
    ∃ t, destroy_in_order w es = some { w with compReg_ := t } ∧ t.WF := by
  induction es generalizing w with
  | nil => exact ⟨w.compReg_, rfl, h⟩
  | cons e es ih =>
    obtain ⟨t, ht, _, _, htwf⟩ := w.entity_destroy_spec h e
    obtain ⟨t2, ht2, ht2wf⟩ := ih ({ w with compReg_ := t } : TWorld α σ) htwf
    refine ⟨t2, ?_, ht2wf⟩
    unfold destroy_in_order
    rw [List.foldlM_cons, ht]
    exact ht2

end TWorld

/-- Claim C12. On every world `process_remove()` and the in-order destruction of the pending
entities agree on the registry (both are undefined together), and a returning
`process_remove()` leaves the pending list empty. On a world whose stores satisfy the
sparse-set invariant both return: the registry after `process_remove()` is exactly the one
produced by `entity_destroy(e1)`, ..., `entity_destroy(ek)` in that order, the pending list
is empty and the other members are unchanged. In particular, when the pending list is empty,
`entity_destroy_delayed(e)` followed by `process_remove()` yields the registry of
`entity_destroy(e)`. -/
theorem process_remove_refines_destroy {α σ : Type} (w : TWorld α σ) (e : Nat)
    (hwf : w.compReg_.WF) :
    (w.process_remove.map fun u => u.compReg_) =
      ((w.destroy_in_order w.removeList_).map fun u => u.compReg_) ∧
    (∃ w1 w2, w.process_remove = some w1 ∧ w.destroy_in_order w.removeList_ = some w2 ∧
      w1.compReg_ = w2.compReg_ ∧ w1.removeList_ = [] ∧ w1.lastUsed_ = w.lastUsed_ ∧
      w1.sysTick_ = w.sysTick_ ∧ w1.sysTickBegin_ = w.sysTickBegin_ ∧
      w1.sysTickEnd_ = w.sysTickEnd_) ∧
    (w.removeList_ = [] →
      ∃ w3 w4, (w.entity_destroy_delayed e).process_remove = some w3 ∧
        w.entity_destroy e = some w4 ∧ w3.compReg_ = w4.compReg_ ∧ w3.removeList_ = []) := by
  refine ⟨?_, ?_, ?_⟩
  · unfold TWorld.process_remove
    rw [TWorld.process_remove_loop_eq, Option.map_map]
    rfl
  · obtain ⟨t, ht, _⟩ := TWorld.destroy_in_order_spec w.removeList_ w hwf
    refine ⟨{ w with compReg_ := t, removeList_ := [] }, _, ?_, ht, rfl, rfl, rfl, rfl, rfl, rfl⟩
    unfold TWorld.process_remove
    rw [TWorld.process_remove_loop_eq, ht]
    rfl
  · intro hempty
    obtain ⟨t, ht, _⟩ := w.entity_destroy_spec hwf e
    refine ⟨{ w with compReg_ := t, removeList_ := [] }, _, ?_, ht, rfl, rfl⟩
    unfold TWorld.process_remove TWorld.entity_destroy_delayed
    simp only [hempty, List.nil_append, TWorld.process_remove_loop]
    unfold TWorld.entity_destroy at ht ⊢
    simp only
    cases hr : w.compReg_.remove_all_of e with
    | none => rw [hr] at ht; exact absurd ht (by simp)
    | some r =>
      rw [hr] at ht
      simp only [Option.map_some', Option.some.injEq] at ht
      simp only [Option.map_some', Option.some_bind, TWorld.process_remove_loop]
      have : r = t := by
        have := congrArg TWorld.compReg_ ht
        exact this
      rw [this]

/-- Instance of claim C12: entities 1 then 2 pending in the scenario world, and entity 2
deferred then flushed in the scenario world with nothing pending. -/
theorem process_remove_refines_destroy_witness :
    (∃ w1 w2,
      (TWorld.mk 3 ⟨[some ⟨[10, 20], [ID_MAX, 0, 1], [1, 2]⟩,
        some ⟨[7], [ID_MAX, ID_MAX, 0], [2]⟩]⟩ [] [] [] [1, 2] : TWorld Nat Unit).process_remove =
          some w1 ∧
      (TWorld.mk 3 ⟨[some ⟨[10, 20], [ID_MAX, 0, 1], [1, 2]⟩,
        some ⟨[7], [ID_MAX, ID_MAX, 0], [2]⟩]⟩ [] [] [] [1, 2] : TWorld Nat Unit).destroy_in_order
          [1, 2] = some w2 ∧
      w1.compReg_ = w2.compReg_ ∧ w1.removeList_ = [] ∧ w1.lastUsed_ = 3 ∧
      w1.sysTick_ = [] ∧ w1.sysTickBegin_ = [] ∧ w1.sysTickEnd_ = []) ∧
    (∃ w3 w4,
      ((TWorld.mk 3 ⟨[some ⟨[10, 20], [ID_MAX, 0, 1], [1, 2]⟩,
        some ⟨[7], [ID_MAX, ID_MAX, 0], [2]⟩]⟩ [] [] [] [] :
          TWorld Nat Unit).entity_destroy_delayed 2).process_remove = some w3 ∧
      (TWorld.mk 3 ⟨[some ⟨[10, 20], [ID_MAX, 0, 1], [1, 2]⟩,
        some ⟨[7], [ID_MAX, ID_MAX, 0], [2]⟩]⟩ [] [] [] [] : TWorld Nat Unit).entity_destroy 2 =
          some w4 ∧
      w3.compReg_ = w4.compReg_ ∧ w3.removeList_ = []) :=
  ⟨(process_remove_refines_destroy
      (TWorld.mk 3 ⟨[some ⟨[10, 20], [ID_MAX, 0, 1], [1, 2]⟩,
        some ⟨[7], [ID_MAX, ID_MAX, 0], [2]⟩]⟩ [] [] [] [1, 2]) 0 (by decide)).2.1,
    (process_remove_refines_destroy
      (TWorld.mk 3 ⟨[some ⟨[10, 20], [ID_MAX, 0, 1], [1, 2]⟩,
        some ⟨[7], [ID_MAX, ID_MAX, 0], [2]⟩]⟩ [] [] [] []) 2 (by decide)).2.2 rfl⟩

/-- Evaluation of `process_remove()` with entities 1 then 2 pending in the scenario world:
both stores end empty and the pending list is cleared. -/
theorem process_remove_scenario :
    (TWorld.mk 3 ⟨[some ⟨[10, 20], [ID_MAX, 0, 1], [1, 2]⟩,
      some ⟨[7], [ID_MAX, ID_MAX, 0], [2]⟩]⟩ [] [] [] [1, 2] : TWorld Nat Unit).process_remove =
      some (TWorld.mk 3 ⟨[some ⟨[], [ID_MAX, ID_MAX, ID_MAX], []⟩,
        some ⟨[], [ID_MAX, ID_MAX, ID_MAX], []⟩]⟩ [] [] [] []) := by
  decide


/-- Claim C13, evaluated on the code. On the store holding `10` for entity 0, `insert(1, ...)`
with a constructor that throws returns `true` and leaves `map_ = [0, 0]` and
`revMap_ = [0, 1]`: the exception is caught but the forward map is still written and the
reverse map still grows, so `contains(1)` becomes true and `get(1)` points at the component
of entity 0. On the empty store `insert(0, ...)` with a throwing constructor returns `true`
and leaves `map_ = [ID_MAX]` and `revMap_ = [0]`. -/
theorem insert_failed_constructor_mutates :
    (TCompArray.mk [10] [0] [0]).contains 1 = false ∧
    (TCompArray.mk [10] [0] [0]).insert 1 (none : Option Nat) =
      some (true, TCompArray.mk [10] [0, 0] [0, 1]) ∧
    (TCompArray.mk [10] [0, 0] [0, 1]).contains 1 = true ∧
    (TCompArray.mk [10] [0, 0] [0, 1]).deref ((TCompArray.mk [10] [0, 0] [0, 1]).get 1) =
      some 10 ∧
    (TCompArray.empty : TCompArray Nat).insert 0 none =
      some (true, TCompArray.mk [] [ID_MAX] [0]) := by
  decide

/-- Whenever `insert` goes past its duplicate check with a constructor that throws and
returns, it returns `true`, `arr_` is unchanged and `revMap_` has grown by the id: the store
is never left as it was. -/
theorem insert_failed_constructor_grows {α : Type} (s t : TCompArray α) (e : Nat) (b : Bool)
    (hguard : s.map_.length ≤ e ∨ s.map_[e]? = some ID_MAX)
    (h : s.insert e none = some (b, t)) :
    b = true ∧ t.arr_ = s.arr_ ∧ t.revMap_ = s.revMap_ ++ [e] ∧ t ≠ s := by
  have hg : ¬ (s.map_.length > e ∧ s.map_.getD e ID_MAX ≠ ID_MAX) := by
    intro hcon
    cases hguard with
    | inl h1 => omega
    | inr h1 => rw [List.getD_eq_getElem?_getD, h1] at hcon; exact hcon.2 rfl
  unfold TCompArray.insert at h
  rw [if_neg hg] at h
  simp only at h
  cases hw : write (if s.map_.length ≤ e then resize s.map_ ((e + 1) % ID_MOD) ID_MAX
      else s.map_) e ((s.arr_.length + SIZE_MOD - 1) % SIZE_MOD % ID_MOD) with
  | none => rw [hw] at h; exact absurd h (by simp)
  | some m =>
    rw [hw] at h
    simp only [Option.some_bind, Option.some.injEq, Prod.mk.injEq] at h
    obtain ⟨hb, ht⟩ := h
    subst ht
    refine ⟨hb.symm, rfl, rfl, ?_⟩
    intro hcon
    have := congrArg (fun x => x.revMap_.length) hcon
    simp at this

/-- Instance of `insert_failed_constructor_grows`. -/
theorem insert_failed_constructor_grows_witness :
    true = true ∧ (TCompArray.mk [10] [0, 0] [0, 1]).arr_ = (TCompArray.mk [10] [0] [0]).arr_ ∧
      (TCompArray.mk [10] [0, 0] [0, 1]).revMap_ = (TCompArray.mk [10] [0] [0]).revMap_ ++ [1] ∧
      TCompArray.mk [10] [0, 0] [0, 1] ≠ TCompArray.mk [10] [0] [0] :=
  insert_failed_constructor_grows (TCompArray.mk [10] [0] [0]) (TCompArray.mk [10] [0, 0] [0, 1])
    1 true (by decide) (by decide)

/-- Claim C19. On a store satisfying the invariant and for every entity id, `get`, `contains`
and `index_of` are defined and agree on absence: `get(e)` is null exactly when `contains(e)`
is false, which is exactly when `index_of(e)` is `SIZE_MAX`; and when `e` is present
`index_of(e)` is a dense index below `size()` and `get(e)` points at that slot, the one
`get_by_index(index_of(e))` returns, whose owner is `e`. -/
theorem absence_tests_agree {α : Type} (s : TCompArray α) (e : Nat) (hwf : s.WF) :
    (s.get e = none ↔ s.contains e = false) ∧
    (s.contains e = false ↔ s.index_of e = SIZE_MAX) ∧
    (s.contains e = true →
      s.index_of e < s.size ∧ s.get e = some (s.index_of e) ∧
      s.get e = s.get_by_index (s.index_of e) ∧ s.get_id (s.index_of e) = some e ∧
      ∃ v, s.deref (s.get e) = some v ∧ s.arr_[s.index_of e]? = some v) := by
  refine ⟨?_, (hwf.index_of_eq_max_iff e).symm, ?_⟩
  · unfold TCompArray.contains
    cases s.get e <;> simp
  · intro hc
    have hg := hwf.index_of_of_contains hc
    have hf : s.fwd e = some (s.index_of e) := by rw [← hwf.get_eq]; exact hg
    have hlt := hwf.fwd_lt hf
    refine ⟨hlt, hg, ?_, hwf.rev_fwd hf, ?_⟩
    · rw [hwf.get_by_index_index_of]
    · refine ⟨s.arr_[s.index_of e], ?_, List.getElem?_eq_getElem hlt⟩
      rw [hg]
      simp only [TCompArray.deref, Option.some_bind]
      exact List.getElem?_eq_getElem hlt

/-- Instance of claim C19: a present entity, an entity whose entry is the sentinel and an id
past the end of the sparse map. -/
theorem absence_tests_agree_witness :
    ((TCompArray.mk [10, 20] [ID_MAX, 0, 1] [1, 2]).get 2 = none ↔
      (TCompArray.mk [10, 20] [ID_MAX, 0, 1] [1, 2]).contains 2 = false) ∧
    ((TCompArray.mk [10, 20] [ID_MAX, 0, 1] [1, 2]).contains 0 = false ↔
      (TCompArray.mk [10, 20] [ID_MAX, 0, 1] [1, 2]).index_of 0 = SIZE_MAX) ∧
    ((TCompArray.mk [10, 20] [ID_MAX, 0, 1] [1, 2]).contains 9 = false ↔
      (TCompArray.mk [10, 20] [ID_MAX, 0, 1] [1, 2]).index_of 9 = SIZE_MAX) :=
  ⟨(absence_tests_agree (TCompArray.mk [10, 20] [ID_MAX, 0, 1] [1, 2]) 2 (by decide)).1,
    (absence_tests_agree (TCompArray.mk [10, 20] [ID_MAX, 0, 1] [1, 2]) 0 (by decide)).2.1,
    (absence_tests_agree (TCompArray.mk [10, 20] [ID_MAX, 0, 1] [1, 2]) 9 (by decide)).2.1⟩


theorem TCompRegistry.get_array_keeps {α : Type} (r : TCompRegistry α) (key k : Nat)
    (s : TCompArray α) (h : r.reg_[k]? = some (some s)) :
    (r.get_array key).1.reg_[k]? = some (some s) := by
  have hk := (List.getElem?_eq_some.mp h).1
  have h1 : (if r.reg_.length ≤ key then resize r.reg_ (key + 1) none else r.reg_)[k]? =
      some (some s) := by
    by_cases hle : r.reg_.length ≤ key
    · rw [if_pos hle]
      unfold resize
      rw [List.take_of_length_le (by omega), List.getElem?_append_left hk]
      exact h
    · rw [if_neg hle]; exact h
  unfold TCompRegistry.get_array
  simp only
  generalize (if r.reg_.length ≤ key then resize r.reg_ (key + 1) none else r.reg_) = l at h1
  by_cases h2 : (l.getD key none).isNone = true
  · rw [if_pos h2, List.getElem?_set]
    by_cases hkk : key = k
    · subst hkk
      rw [List.getD_eq_getElem?_getD, h1] at h2
      exact absurd h2 (by simp)
    · rw [if_neg hkk]; exact h1
  · rw [if_neg h2]; exact h1

theorem TWorld.comp_add_frame {α σ : Type} (w w1 : TWorld α σ) (A B e : Nat) (args : Option α)
    (hAB : A ≠ B) (h : w.comp_add A e args = some w1) :
    w1.compReg_.store B = w.compReg_.store B := by
  unfold TWorld.comp_add at h
  simp only at h
  cases hi : (w.compReg_.get_array A).2.insert e args with
  | none => rw [hi] at h; exact absurd h (by simp)
  | some res =>
    rw [hi] at h
    simp only [Option.map_some', Option.some.injEq] at h
    subst h
    show ((w.compReg_.get_array A).1.put A res.2).store B = _
    rw [TCompRegistry.store_put_get_array, if_neg (fun h' => hAB h'.symm)]

theorem TWorld.comp_remove_frame {α σ : Type} (w w1 : TWorld α σ) (A B e : Nat)
    (hAB : A ≠ B) (h : w.comp_remove A e = some w1) :
    w1.compReg_.store B = w.compReg_.store B := by
  unfold TWorld.comp_remove at h
  simp only at h
  cases hi : (w.compReg_.get_array A).2.remove e with
  | none => rw [hi] at h; exact absurd h (by simp)
  | some res =>
    rw [hi] at h
    simp only [Option.map_some', Option.some.injEq] at h
    subst h
    show ((w.compReg_.get_array A).1.put A res).store B = _
    rw [TCompRegistry.store_put_get_array, if_neg (fun h' => hAB h'.symm)]

/-- Claim C20. For two distinct component types `A` and `B`, on a world whose stores satisfy
the sparse-set invariant and for an entity id below the sentinel, `comp_add<A>(e, ...)` and
`comp_remove<A>(e)` return and leave the store of `B` exactly as it was (`arr_`, `map_` and
`revMap_`), so `comp_get<B>` gives the same result for every entity; on every world a
returning `comp_add<A>` or `comp_remove<A>`, whatever its arguments, leaves the store of `B`
as it was. `get_array<A>()` changes the content of no store, keeps every existing store
object in its slot, and returns an empty store when the slot of `A` held none. -/
theorem component_types_independent {α σ : Type} (w : TWorld α σ) (A B e : Nat) (v : α)
    (hAB : A ≠ B) (hwf : w.compReg_.WF) (he : e < ID_MAX) :
    (∃ w1, w.comp_add A e (some v) = some w1 ∧
      w1.compReg_.store B = w.compReg_.store B ∧
      ∀ e', (w1.comp_get B e').2 = (w.comp_get B e').2) ∧
    (∃ w2, w.comp_remove A e = some w2 ∧
      w2.compReg_.store B = w.compReg_.store B ∧
      ∀ e', (w2.comp_get B e').2 = (w.comp_get B e').2) ∧
    (∀ (id : Nat) (args : Option α) (u : TWorld α σ), w.comp_add A id args = some u →
      u.compReg_.store B = w.compReg_.store B) ∧
    (∀ (id : Nat) (u : TWorld α σ), w.comp_remove A id = some u →
      u.compReg_.store B = w.compReg_.store B) ∧
    (∀ k, (w.compReg_.get_array A).1.store k = w.compReg_.store k) ∧
    (∀ (k : Nat) (s : TCompArray α), w.compReg_.reg_[k]? = some (some s) →
      (w.compReg_.get_array A).1.reg_[k]? = some (some s)) ∧
    ((w.compReg_.reg_.getD A none).isNone = true →
      (w.compReg_.get_array A).2 = TCompArray.empty ∧
      (w.compReg_.get_array A).1.reg_[A]? = some (some TCompArray.empty)) := by
  obtain ⟨w1, hw1, _⟩ := w.comp_add_wf hwf A e he v
  obtain ⟨w2, hw2, _⟩ := w.comp_remove_wf hwf A e
  have h1 := w.comp_add_frame w1 A B e (some v) hAB hw1
  have h2 := w.comp_remove_frame w2 A B e hAB hw2
  refine ⟨⟨w1, hw1, h1, ?_⟩, ⟨w2, hw2, h2, ?_⟩, ?_, ?_, ?_, ?_, ?_⟩
  · intro e'
    simp only [TWorld.comp_get, TCompRegistry.get_array_snd, h1]
  · intro e'
    simp only [TWorld.comp_get, TCompRegistry.get_array_snd, h2]
  · intro id args u hu
    exact w.comp_add_frame u A B id args hAB hu
  · intro id u hu
    exact w.comp_remove_frame u A B id hAB hu
  · intro k
    rw [TCompRegistry.store_get_array]
  · intro k s hk
    exact TCompRegistry.get_array_keeps _ _ _ _ hk
  · intro hnone
    have hst : w.compReg_.store A = TCompArray.empty := by
      unfold TCompRegistry.store
      rw [Option.isNone_iff_eq_none.mp hnone]; rfl
    refine ⟨by rw [TCompRegistry.get_array_snd, hst], ?_⟩
    have hlen := TCompRegistry.get_array_length w.compReg_ A
    have hs := congrFun (TCompRegistry.store_get_array w.compReg_ A) A
    rw [hst] at hs
    unfold TCompRegistry.get_array at hlen ⊢
    simp only at hlen ⊢
    have h1 : (if w.compReg_.reg_.length ≤ A then resize w.compReg_.reg_ (A + 1) none
        else w.compReg_.reg_).getD A none = none := by
      by_cases hle : w.compReg_.reg_.length ≤ A
      · rw [if_pos hle, getD_resize_none _ _ _ (by omega)]
        exact Option.isNone_iff_eq_none.mp hnone
      · rw [if_neg hle]; exact Option.isNone_iff_eq_none.mp hnone
    rw [h1] at hlen ⊢
    simp only [Option.isNone_none, if_true] at hlen ⊢
    rw [List.length_set] at hlen
    rw [List.getElem?_set, if_pos rfl, if_pos hlen]

/-- Instance of claim C20: types 0 and 1 of the scenario world, entity 3, and the first
materialization of type 4. -/
theorem component_types_independent_witness :
    (∃ w1, (TWorld.mk 3 ⟨[some ⟨[10, 20], [ID_MAX, 0, 1], [1, 2]⟩,
        some ⟨[7], [ID_MAX, ID_MAX, 0], [2]⟩]⟩ [] [] [] [] : TWorld Nat Unit).comp_add 0 3
          (some 30) = some w1 ∧
      w1.compReg_.store 1 = ⟨[7], [ID_MAX, ID_MAX, 0], [2]⟩) ∧
    (∃ w2, (TWorld.mk 3 ⟨[some ⟨[10, 20], [ID_MAX, 0, 1], [1, 2]⟩,
        some ⟨[7], [ID_MAX, ID_MAX, 0], [2]⟩]⟩ [] [] [] [] : TWorld Nat Unit).comp_remove 0 3 =
          some w2 ∧
      w2.compReg_.store 1 = ⟨[7], [ID_MAX, ID_MAX, 0], [2]⟩) ∧
    ((TCompRegistry.mk [some ⟨[10, 20], [ID_MAX, 0, 1], [1, 2]⟩,
        some ⟨[7], [ID_MAX, ID_MAX, 0], [2]⟩] : TCompRegistry Nat).get_array 4).2 =
      TCompArray.empty :=
  ⟨(component_types_independent (TWorld.mk 3 ⟨[some ⟨[10, 20], [ID_MAX, 0, 1], [1, 2]⟩,
        some ⟨[7], [ID_MAX, ID_MAX, 0], [2]⟩]⟩ [] [] [] [] : TWorld Nat Unit) 0 1 3 30
        (by decide) (by decide) (by decide)).1.imp fun _ h => ⟨h.1, h.2.1⟩,
    (component_types_independent (TWorld.mk 3 ⟨[some ⟨[10, 20], [ID_MAX, 0, 1], [1, 2]⟩,
        some ⟨[7], [ID_MAX, ID_MAX, 0], [2]⟩]⟩ [] [] [] [] : TWorld Nat Unit) 0 1 3 30
        (by decide) (by decide) (by decide)).2.1.imp fun _ h => ⟨h.1, h.2.1⟩,
    ((component_types_independent (TWorld.mk 3 ⟨[some ⟨[10, 20], [ID_MAX, 0, 1], [1, 2]⟩,
        some ⟨[7], [ID_MAX, ID_MAX, 0], [2]⟩]⟩ [] [] [] [] : TWorld Nat Unit) 4 1 3 30
        (by decide) (by decide) (by decide)).2.2.2.2.2.2 (by decide)).1⟩

namespace TWorld
variable {α σ : Type}

theorem entity_new_calls_eq (n : Nat) (w : TWorld α σ) (h : w.lastUsed_ < ID_MOD) :
    (entity_new_calls n w).1 = (List.range n).map fun i => (w.lastUsed_ + i) % ID_MOD := by
  induction n generalizing w with
  | zero => rfl
  | succ n ih =>
    have hlt : (w.entity_new.2).lastUsed_ < ID_MOD := Nat.mod_lt _ (by decide)
    have := ih w.entity_new.2 hlt
    simp only [entity_new_calls, this, List.range_succ_eq_map, List.map_cons, List.map_map]
    congr 1
    · simp only [entity_new, Nat.add_zero]
      exact (Nat.mod_eq_of_lt h).symm
    · apply List.map_congr_left
      intro i _
      simp only [entity_new, Function.comp]
      rw [Nat.mod_add_mod]
      congr 1
      omega

theorem entity_new_calls_small (n : Nat) (w : TWorld α σ) (h : w.lastUsed_ + n ≤ ID_MAX) :
    (entity_new_calls n w).1 = List.range' w.lastUsed_ n := by
  rw [entity_new_calls_eq n w (by unfold ID_MAX at h; unfold ID_MOD; omega),
    List.range'_eq_map_range]
  apply List.map_congr_left
  intro i hi
  have := List.mem_range.mp hi
  apply Nat.mod_eq_of_lt
  unfold ID_MAX at h; unfold ID_MOD; omega

end TWorld

/-- Claim C18 fails on the code. On a new world the call number `2 ^ 32` of `entity_new()`
returns `ID_MAX`, the id of `Entity::invalid()`, and the next call returns `0`, which the
first call returned: the counter is a `uint32_t` that wraps. On a world whose counter is
`ID_MAX - 1` three calls return `ID_MAX - 1`, `ID_MAX` and `0`. -/
theorem entity_new_wraps :
    (TWorld.entity_new_calls 4294967297 (TWorld.empty : TWorld Nat Unit)).1[0]? = some 0 ∧
    (TWorld.entity_new_calls 4294967297 (TWorld.empty : TWorld Nat Unit)).1[4294967295]? =
      some ID_MAX ∧
    (TWorld.entity_new_calls 4294967297 (TWorld.empty : TWorld Nat Unit)).1[4294967296]? =
      some 0 ∧
    (TWorld.entity_new_calls 3 (TWorld.mk 4294967294 ⟨[]⟩ [] [] [] [] : TWorld Nat Unit)).1 =
      [4294967294, ID_MAX, 0] := by
  refine ⟨?_, ?_, ?_, by decide⟩
  · rw [TWorld.entity_new_calls_eq _ _ (by decide), List.getElem?_map,
      List.getElem?_range (by decide)]
    rfl
  · rw [TWorld.entity_new_calls_eq _ _ (by decide), List.getElem?_map,
      List.getElem?_range (by decide)]
    rfl
  · rw [TWorld.entity_new_calls_eq _ _ (by decide), List.getElem?_map,
      List.getElem?_range (by decide)]
    rfl

/-- Claim C18 as amended. On a world whose counter is `c`, the identities returned by `n`
successive calls of `entity_new()` with `c + n ≤ ID_MAX` are `c`, `c + 1`, ..., `c + n - 1`:
each is strictly greater than every identity returned before it, none is returned twice and
none is `ID_MAX`, the id of `Entity::invalid()`. -/
theorem entity_new_increasing_until_exhaustion {α σ : Type} (w : TWorld α σ) (n : Nat)
    (h : w.lastUsed_ + n ≤ ID_MAX) :
    (TWorld.entity_new_calls n w).1 = List.range' w.lastUsed_ n ∧
    (TWorld.entity_new_calls n w).1.Pairwise (fun a b => a < b) ∧
    (TWorld.entity_new_calls n w).1.Nodup ∧
    (∀ id ∈ (TWorld.entity_new_calls n w).1, id < ID_MAX) ∧
    (TWorld.entity_new_calls n w).1.length = n := by
  have heq := TWorld.entity_new_calls_small n w h
  refine ⟨heq, ?_, ?_, ?_, ?_⟩
  · rw [heq]; exact List.pairwise_lt_range' _ _
  · rw [heq]; exact List.nodup_range' _ _
  · intro id hid
    rw [heq, List.mem_range'] at hid
    obtain ⟨i, hi, rfl⟩ := hid
    omega
  · rw [heq, List.length_range']

/-- Instance of the amended claim C18: four calls on a new world. -/
theorem entity_new_increasing_until_exhaustion_witness :
    (TWorld.entity_new_calls 4 (TWorld.empty : TWorld Nat Unit)).1 = List.range' 0 4 ∧
    (TWorld.entity_new_calls 4 (TWorld.empty : TWorld Nat Unit)).1.Pairwise (fun a b => a < b) ∧
    (TWorld.entity_new_calls 4 (TWorld.empty : TWorld Nat Unit)).1.Nodup ∧
    (∀ id ∈ (TWorld.entity_new_calls 4 (TWorld.empty : TWorld Nat Unit)).1, id < ID_MAX) ∧
    (TWorld.entity_new_calls 4 (TWorld.empty : TWorld Nat Unit)).1.length = 4 :=
  entity_new_increasing_until_exhaustion (TWorld.empty : TWorld Nat Unit) 4 (by decide)


theorem filterMap_getElem?_range {β : Type} (l : List β) :
    (List.range l.length).filterMap (fun i => l[i]?) = l := by
  apply List.ext_getElem?
  intro k
  induction l using List.reverseRecOn generalizing k with
  | nil => simp
  | append_singleton l a ih =>
    rw [List.length_append, List.length_singleton, List.range_succ, List.filterMap_append]
    have h1 : List.filterMap (fun i => (l ++ [a])[i]?) (List.range l.length) = l := by
      have : List.filterMap (fun i => (l ++ [a])[i]?) (List.range l.length) =
          List.filterMap (fun i => l[i]?) (List.range l.length) := by
        apply List.filterMap_congr
        intro i hi
        rw [List.getElem?_append_left (List.mem_range.mp hi)]
      rw [this]
      exact List.ext_getElem? ih
    rw [h1]
    simp

theorem TCompArray.WF.map_index_of_revMap {α : Type} {s : TCompArray α} (h : s.WF) :
    s.revMap_.map (fun e => s.index_of e) = List.range s.revMap_.length := by
  apply List.ext_getElem?
  intro k
  rw [List.getElem?_map]
  by_cases hk : k < s.revMap_.length
  · rw [List.getElem?_range hk, List.getElem?_eq_getElem hk]
    have hf := h.fwd_rev (List.getElem?_eq_getElem hk)
    simp only [Option.map_some', Option.some.injEq]
    rw [TCompArray.index_of_eq_fwd, hf]; rfl
  · rw [List.getElem?_eq_none (by omega), List.getElem?_eq_none (by simp; omega)]
    rfl

/-- Claim C15 as amended. In the view just built by `view_get<T1..Tn>()` on a world whose stores satisfy
the sparse-set invariant, the rows follow the dense order of the store of `T1`: the anchor
index list `ind_[0]` is strictly increasing, the owner of anchor slot `ind_[0][i]` is the
entity of row `i`, and the sequence of row entities is the dense owner list `get_id(0)`,
`get_id(1)`, ..., `get_id(size() - 1)` of that store (which is `revMap_`) with exactly the
entities that own every required type kept, in the same order. -/
theorem view_rows_in_dense_order {α σ : Type} (w : TWorld α σ) (c : Nat × Bool)
    (cs : List (Nat × Bool)) (hwf : w.compReg_.WF) :
    ∃ w1 v rows, w.view_get (c :: cs) = some (w1, v) ∧ v.rows w1 = some rows ∧
      (v.ind_.getD 0 []).Pairwise (fun a b => a < b) ∧
      (v.ind_.getD 0 []).length = rows.length ∧
      (∀ (i k : Nat) (row : ComponentSet), (v.ind_.getD 0 [])[i]? = some k →
        rows[i]? = some row → (w.compReg_.store c.1).get_id k = some row.entity) ∧
      rows.map ComponentSet.entity =
        ((List.range (w.compReg_.store c.1).size).filterMap
          fun i => (w.compReg_.store c.1).get_id i).filter
          (fun e => (c :: cs).all fun cj => cj.2 || (w.compReg_.store cj.1).contains e) ∧
      rows.map ComponentSet.entity =
        (w.compReg_.store c.1).revMap_.filter
          (fun e => (c :: cs).all fun cj => cj.2 || (w.compReg_.store cj.1).contains e) ∧
      List.Sublist (rows.map ComponentSet.entity) (w.compReg_.store c.1).revMap_ := by
  obtain ⟨t, v, hv, hts, hcomps, hind, hsize, hrows⟩ := w.view_get_rows hwf c cs
  have hmap : (List.map ComponentSet.entity
      ((w.compReg_.keptEntities (c :: cs) c.1).map fun ent =>
        (⟨ent, (c :: cs).map fun cj => (w.compReg_.store cj.1).get ent⟩ : ComponentSet))) =
      w.compReg_.keptEntities (c :: cs) c.1 := by
    rw [List.map_map]
    exact List.map_id _
  have hkept : w.compReg_.keptEntities (c :: cs) c.1 =
      (w.compReg_.store c.1).revMap_.filter
        (fun e => (c :: cs).all fun cj => cj.2 || (w.compReg_.store cj.1).contains e) := rfl
  have hind0 : v.ind_.getD 0 [] = (w.compReg_.keptEntities (c :: cs) c.1).map
      fun ent => (w.compReg_.store c.1).index_of ent := by
    rw [hind]; rfl
  refine ⟨_, v, _, hv, hrows, ?_, ?_, ?_, ?_, ?_, ?_⟩
  · rw [hind0]
    have hsub : List.Sublist ((w.compReg_.keptEntities (c :: cs) c.1).map
        fun ent => (w.compReg_.store c.1).index_of ent)
        ((w.compReg_.store c.1).revMap_.map fun ent => (w.compReg_.store c.1).index_of ent) :=
      List.Sublist.map _ (List.filter_sublist _)
    rw [(hwf c.1).map_index_of_revMap] at hsub
    exact List.Pairwise.sublist hsub (List.pairwise_lt_range _)
  · rw [hind0, List.length_map, List.length_map]
  · intro i k row hk hrow
    rw [hind0, List.getElem?_map] at hk
    rw [List.getElem?_map] at hrow
    cases hent : (w.compReg_.keptEntities (c :: cs) c.1)[i]? with
    | none => rw [hent] at hk; exact absurd hk (by simp)
    | some ent =>
      rw [hent] at hk hrow
      simp only [Option.map_some', Option.some.injEq] at hk hrow
      subst hk hrow
      have hmem : ent ∈ w.compReg_.keptEntities (c :: cs) c.1 :=
        List.mem_iff_getElem?.mpr ⟨i, hent⟩
      have hk := (TCompRegistry.mem_keptEntities.mp hmem).1
      have hc := ((hwf c.1).contains_iff ent).mpr hk
      have hg := (hwf c.1).index_of_of_contains hc
      rw [(hwf c.1).get_eq] at hg
      exact (hwf c.1).rev_fwd hg
  · rw [hmap, hkept]
    congr 1
    have : (w.compReg_.store c.1).size = (w.compReg_.store c.1).revMap_.length := (hwf c.1).1
    rw [this]
    exact (filterMap_getElem?_range _).symm
  · rw [hmap, hkept]
  · rw [hmap, hkept]
    exact List.filter_sublist _

/-- Instance of the amended claim C15: the view over types 0 and 1 of a world where type 0 is held by
entities 4, 1 and 2 in that dense order and type 1 by entities 2 and 4. -/
theorem view_rows_in_dense_order_witness :
    ∃ w1 v rows,
      (TWorld.mk 5 ⟨[some ⟨[40, 10, 20], [ID_MAX, 1, 2, ID_MAX, 0], [4, 1, 2]⟩,
          some ⟨[7, 8], [ID_MAX, ID_MAX, 0, ID_MAX, 1], [2, 4]⟩]⟩ [] [] [] [] :
            TWorld Nat Unit).view_get ((0, false) :: [(1, false)]) = some (w1, v) ∧
      v.rows w1 = some rows ∧
      (v.ind_.getD 0 []).Pairwise (fun a b => a < b) ∧
      (v.ind_.getD 0 []).length = rows.length ∧
      rows.map ComponentSet.entity =
        ((TCompRegistry.mk [some ⟨[40, 10, 20], [ID_MAX, 1, 2, ID_MAX, 0], [4, 1, 2]⟩,
          some ⟨[7, 8], [ID_MAX, ID_MAX, 0, ID_MAX, 1], [2, 4]⟩] :
            TCompRegistry Nat).store 0).revMap_.filter
          (fun e => ((0, false) :: [(1, false)]).all fun cj => cj.2 ||
            ((TCompRegistry.mk [some ⟨[40, 10, 20], [ID_MAX, 1, 2, ID_MAX, 0], [4, 1, 2]⟩,
              some ⟨[7, 8], [ID_MAX, ID_MAX, 0, ID_MAX, 1], [2, 4]⟩] :
                TCompRegistry Nat).store cj.1).contains e) :=
  (view_rows_in_dense_order
    (TWorld.mk 5 ⟨[some ⟨[40, 10, 20], [ID_MAX, 1, 2, ID_MAX, 0], [4, 1, 2]⟩,
      some ⟨[7, 8], [ID_MAX, ID_MAX, 0, ID_MAX, 1], [2, 4]⟩]⟩ [] [] [] [])
    (0, false) [(1, false)] (by decide)).imp fun _ h1 => h1.imp fun _ h2 => h2.imp fun _ h =>
      ⟨h.1, h.2.1, h.2.2.1, h.2.2.2.1, h.2.2.2.2.2.2.1⟩

/-- Evaluation of the view of the instance above: the rows are entities 4 and 2, in the dense
order of the store of type 0 and not in the order of the ids. -/
theorem view_dense_order_example :
    ((TWorld.mk 5 ⟨[some ⟨[40, 10, 20], [ID_MAX, 1, 2, ID_MAX, 0], [4, 1, 2]⟩,
        some ⟨[7, 8], [ID_MAX, ID_MAX, 0, ID_MAX, 1], [2, 4]⟩]⟩ [] [] [] [] :
          TWorld Nat Unit).view_get [(0, false), (1, false)]).bind
      (fun wv => (wv.2.rows wv.1).map fun rows => (wv.2.ind_, rows)) =
      some ([[0, 2], [1, 0]], [⟨4, [some 0, some 1]⟩, ⟨2, [some 2, some 0]⟩]) := by
  decide

namespace TComponentView
variable {α σ : Type}

theorem entity_slots_spec (ent : Nat) (cl : List (Nat × Bool)) (r : TCompRegistry α)
    (w : TWorld α σ) (hw : w.compReg_.store = r.store)
    (hreq : ∀ cj ∈ cl, (cj.2 || (r.store cj.1).contains ent) = true) :
    ∃ t, entity_slots ent cl w =
        some ({ w with compReg_ := t }, cl.map fun cj => (r.store cj.1).get ent) ∧
      t.store = r.store := by
  induction cl generalizing w with
  | nil => exact ⟨w.compReg_, rfl, hw⟩
  | cons c cl ih =>
    have hst := TCompRegistry.store_get_array w.compReg_ c.1
    have hsnd := TCompRegistry.get_array_snd w.compReg_ c.1
    obtain ⟨t, ht, hts⟩ := ih ({ w with compReg_ := (w.compReg_.get_array c.1).1 } : TWorld α σ)
      (hst.trans hw) (fun cj hcj => hreq cj (List.mem_cons_of_mem _ hcj))
    refine ⟨t, ?_, hts⟩
    have hc := hreq c (List.mem_cons_self _ _)
    have hnot : ¬ (c.2 = false ∧ ((r.store c.1).get ent).isNone = true) := by
      intro hcon
      rw [hcon.1] at hc
      simp only [Bool.false_or] at hc
      unfold TCompArray.contains at hc
      rw [Option.isNone_iff_eq_none.mp hcon.2] at hc
      exact absurd hc (by simp)
    simp only [entity_slots, TWorld.comp_get, hsnd, hw, List.map_cons]
    rw [if_neg hnot, ht]
    rfl

theorem entity_slots_missing (ent : Nat) (cl : List (Nat × Bool)) (w : TWorld α σ)
    (c : Nat × Bool) (hc : c ∈ cl) (hreq : c.2 = false)
    (hmiss : (w.compReg_.store c.1).contains ent = false) : entity_slots ent cl w = none := by
  induction cl generalizing w with
  | nil => exact absurd hc (List.not_mem_nil _)
  | cons d cl ih =>
    have hsnd := TCompRegistry.get_array_snd w.compReg_ d.1
    simp only [entity_slots, TWorld.comp_get, hsnd]
    by_cases hd : d.2 = false ∧ ((w.compReg_.store d.1).get ent).isNone = true
    · rw [if_pos hd]
    · rw [if_neg hd]
      cases List.mem_cons.mp hc with
      | inl h =>
        subst h
        exfalso
        apply hd
        refine ⟨hreq, ?_⟩
        unfold TCompArray.contains at hmiss
        cases hg : (w.compReg_.store c.1).get ent with
        | none => rfl
        | some m => rw [hg] at hmiss; exact absurd hmiss (by simp)
      | inr h =>
        have := ih ({ w with compReg_ := (w.compReg_.get_array d.1).1 } : TWorld α σ) h
          (by
            show ((w.compReg_.get_array d.1).1.store c.1).contains ent = false
            rw [TCompRegistry.store_get_array]; exact hmiss)
        rw [this]; rfl

/-- What `get_by_entity` does, on every world and whatever the precomputed rows `ind_` of the
view are. It never returns an empty optional. When the entity lacks a required queried type
the call dereferences a null pointer and is undefined. Otherwise it returns a set whose
entity is `ent` and whose entries are the direct lookups `get` of the stores, null for an
absent observational type, and it changes the content of no store. -/
theorem get_by_entity_spec (v : TComponentView) (w : TWorld α σ) (ent : Nat) :
    (∀ u, v.get_by_entity w ent ≠ some (u, none)) ∧
    ((∃ c ∈ v.comps, c.2 = false ∧ (w.compReg_.store c.1).contains ent = false) →
      v.get_by_entity w ent = none) ∧
    ((∀ c ∈ v.comps, c.2 = false → (w.compReg_.store c.1).contains ent = true) →
      ∃ u, v.get_by_entity w ent =
          some (u, some ⟨ent, v.comps.map fun cj => (w.compReg_.store cj.1).get ent⟩) ∧
        u.compReg_.store = w.compReg_.store) := by
  refine ⟨?_, ?_, ?_⟩
  · intro u h
    unfold get_by_entity at h
    cases hs : entity_slots ent v.comps w with
    | none => rw [hs] at h; exact absurd h (by simp)
    | some rs =>
      rw [hs] at h
      simp only [Option.map_some', Option.some.injEq, Prod.mk.injEq] at h
      exact absurd h.2 (by simp)
  · rintro ⟨c, hc, hreq, hmiss⟩
    unfold get_by_entity
    rw [entity_slots_missing ent v.comps w c hc hreq hmiss]
    rfl
  · intro hall
    have hreq : ∀ cj ∈ v.comps, (cj.2 || (w.compReg_.store cj.1).contains ent) = true := by
      intro cj hcj
      cases hb : cj.2 with
      | true => rfl
      | false => simp [hall cj hcj hb]
    obtain ⟨t, ht, hts⟩ := entity_slots_spec ent v.comps w.compReg_ w rfl hreq
    refine ⟨{ w with compReg_ := t }, ?_, hts⟩
    unfold get_by_entity
    rw [ht]
    rfl

end TComponentView

/-- Claim C14, evaluated on the code. In the scenario world the view over the required types
`X` and `Y` asked for entity 1, which owns an `X` but no `Y`, does not return an empty
optional: the call dereferences the null pointer of the missing `Y` and is undefined. For
entity 2, which owns both, it returns the set of the two direct lookups, and with `Y`
observational it returns for entity 1 a set whose `Y` entry is null. -/
theorem get_by_entity_missing_required :
    (TComponentView.mk [(0, false), (1, false)] [[1], [0]]).get_by_entity
      (TWorld.mk 3 ⟨[some ⟨[10, 20], [ID_MAX, 0, 1], [1, 2]⟩,
        some ⟨[7], [ID_MAX, ID_MAX, 0], [2]⟩]⟩ [] [] [] [] : TWorld Nat Unit) 1 = none ∧
    (TComponentView.mk [(0, false), (1, false)] [[1], [0]]).get_by_entity
      (TWorld.mk 3 ⟨[some ⟨[10, 20], [ID_MAX, 0, 1], [1, 2]⟩,
        some ⟨[7], [ID_MAX, ID_MAX, 0], [2]⟩]⟩ [] [] [] [] : TWorld Nat Unit) 2 =
      some (TWorld.mk 3 ⟨[some ⟨[10, 20], [ID_MAX, 0, 1], [1, 2]⟩,
        some ⟨[7], [ID_MAX, ID_MAX, 0], [2]⟩]⟩ [] [] [] [], some ⟨2, [some 1, some 0]⟩) ∧
    (TComponentView.mk [(0, false), (1, true)] [[0, 1], [SIZE_MAX, 0]]).get_by_entity
      (TWorld.mk 3 ⟨[some ⟨[10, 20], [ID_MAX, 0, 1], [1, 2]⟩,
        some ⟨[7], [ID_MAX, ID_MAX, 0], [2]⟩]⟩ [] [] [] [] : TWorld Nat Unit) 1 =
      some (TWorld.mk 3 ⟨[some ⟨[10, 20], [ID_MAX, 0, 1], [1, 2]⟩,
        some ⟨[7], [ID_MAX, ID_MAX, 0], [2]⟩]⟩ [] [] [] [], some ⟨1, [some 0, none]⟩) := by
  decide

namespace TWorld
variable {α σ : Type}

theorem sys_add_all_lists (w : TWorld α σ) (regs : List (EventTypes × σ)) :
    (w.sys_add_all regs).sysTickBegin_ =
      w.sysTickBegin_ ++ (regs.filter fun r => r.1 = EventTypes.tickBegin).map Prod.snd ∧
    (w.sys_add_all regs).sysTick_ =
      w.sysTick_ ++ (regs.filter fun r => r.1 = EventTypes.tick).map Prod.snd ∧
    (w.sys_add_all regs).sysTickEnd_ =
      w.sysTickEnd_ ++ (regs.filter fun r => r.1 = EventTypes.tickEnd).map Prod.snd ∧
    (w.sys_add_all regs).compReg_ = w.compReg_ ∧
    (w.sys_add_all regs).lastUsed_ = w.lastUsed_ ∧
    (w.sys_add_all regs).removeList_ = w.removeList_ := by
  induction regs generalizing w with
  | nil => simp [sys_add_all]
  | cons reg regs ih =>
    obtain ⟨ph, sp⟩ := reg
    have := ih (w.sys_add ph sp)
    cases ph <;> simp [sys_add_all, sys_add, List.filter_cons] at this ⊢ <;> exact this

theorem run_phase_eq (run : σ → TWorld α σ → Option (TWorld α σ)) (ss : List σ)
    (w : TWorld α σ) :
    run_phase run ss w = (run_in_order run ss w).map fun w1 => (w1, ss) := by
  induction ss generalizing w with
  | nil => rfl
  | cons s ss ih =>
    rw [run_phase, run_in_order]
    cases run s w with
    | none => rfl
    | some u =>
      simp only [Option.some_bind]
      rw [ih u]
      cases run_in_order run ss u <;> rfl

theorem run_in_order_append (run : σ → TWorld α σ → Option (TWorld α σ)) (l1 l2 : List σ)
    (w : TWorld α σ) :
    run_in_order run (l1 ++ l2) w = (run_in_order run l1 w).bind (run_in_order run l2) := by
  induction l1 generalizing w with
  | nil => rfl
  | cons s l1 ih =>
    rw [List.cons_append, run_in_order, run_in_order]
    cases run s w with
    | none => rfl
    | some u => exact ih u

theorem run_in_order_lists (run : σ → TWorld α σ → Option (TWorld α σ))
    (hlists : ∀ s u u', run s u = some u' → u'.sysTick_ = u.sysTick_ ∧
      u'.sysTickBegin_ = u.sysTickBegin_ ∧ u'.sysTickEnd_ = u.sysTickEnd_)
    (ss : List σ) (w w1 : TWorld α σ) (h : run_in_order run ss w = some w1) :
    w1.sysTick_ = w.sysTick_ ∧ w1.sysTickBegin_ = w.sysTickBegin_ ∧
      w1.sysTickEnd_ = w.sysTickEnd_ := by
  induction ss generalizing w with
  | nil =>
    rw [run_in_order] at h
    cases h
    exact ⟨rfl, rfl, rfl⟩
  | cons s ss ih =>
    rw [run_in_order] at h
    cases hu : run s w with
    | none => rw [hu] at h; exact absurd h (by simp)
    | some u =>
      rw [hu] at h
      obtain ⟨h1, h2, h3⟩ := hlists s w u hu
      obtain ⟨g1, g2, g3⟩ := ih u h
      exact ⟨g1.trans h1, g2.trans h2, g3.trans h3⟩

theorem run_in_order_log {τ : Type} (run : σ → TWorld α σ → Option (TWorld α σ))
    (log : TWorld α σ → List τ) (tag : σ → τ)
    (hlog : ∀ s u u', run s u = some u' → log u' = log u ++ [tag s])
    (ss : List σ) (w w1 : TWorld α σ) (h : run_in_order run ss w = some w1) :
    log w1 = log w ++ ss.map tag := by
  induction ss generalizing w with
  | nil =>
    rw [run_in_order] at h
    cases h
    simp
  | cons s ss ih =>
    rw [run_in_order] at h
    cases hu : run s w with
    | none => rw [hu] at h; exact absurd h (by simp)
    | some u =>
      rw [hu] at h
      rw [ih u h, hlog s w u hu, List.map_cons, List.append_assoc]
      rfl

theorem tick_eq_run_in_order (run : σ → TWorld α σ → Option (TWorld α σ))
    (hlists : ∀ s u u', run s u = some u' → u'.sysTick_ = u.sysTick_ ∧
      u'.sysTickBegin_ = u.sysTickBegin_ ∧ u'.sysTickEnd_ = u.sysTickEnd_)
    (w : TWorld α σ) :
    tick run w = (run_in_order run (w.sysTickBegin_ ++ w.sysTick_ ++ w.sysTickEnd_) w).map
      fun w1 => (w1, w.sysTickBegin_ ++ w.sysTick_ ++ w.sysTickEnd_) := by
  unfold tick
  rw [run_in_order_append, run_in_order_append, run_phase_eq]
  cases h1 : run_in_order run w.sysTickBegin_ w with
  | none => rfl
  | some w1 =>
    obtain ⟨a1, _, a3⟩ := run_in_order_lists run hlists _ w w1 h1
    simp only [Option.map_some', Option.some_bind]
    rw [run_phase_eq, a1]
    cases h2 : run_in_order run w.sysTick_ w1 with
    | none => rfl
    | some w2 =>
      obtain ⟨_, _, b3⟩ := run_in_order_lists run hlists _ w1 w2 h2
      simp only [Option.map_some', Option.some_bind]
      rw [run_phase_eq, b3, a3]
      cases run_in_order run w.sysTickEnd_ w2 <;> rfl

theorem filter_phases_perm (regs : List (EventTypes × σ)) :
    List.Perm
      ((regs.filter fun r => r.1 = EventTypes.tickBegin) ++
        (regs.filter fun r => r.1 = EventTypes.tick) ++
        (regs.filter fun r => r.1 = EventTypes.tickEnd))
      (regs.filter fun r => r.1 ≠ EventTypes.none) := by
  induction regs with
  | nil => simp
  | cons reg regs ih =>
    obtain ⟨ph, sp⟩ := reg
    cases ph
    · simpa [List.filter_cons] using ih
    · simp only [List.filter_cons, decide_eq_true_eq, reduceCtorEq, if_false, if_true,
        ne_eq, not_false_eq_true]
      refine List.Perm.trans ?_ (List.Perm.cons _ ih)
      simp only [List.append_assoc]
      exact List.perm_middle
    · simpa [List.filter_cons] using ih
    · simp only [List.filter_cons, decide_eq_true_eq, reduceCtorEq, if_false, if_true,
        ne_eq, not_false_eq_true]
      refine List.Perm.trans ?_ (List.Perm.cons _ ih)
      exact List.perm_middle

end TWorld

/-- Claim C17. Systems being registered by any sequence of `sys_add` calls, and no system
registering systems during its run, one call of `tick()` is the run, one after the other and
each in the world its predecessor left, of the `tickBegin` systems, then the `tick` systems,
then the `tickEnd` systems, each group in registration order (after the systems the world
already had in that phase): it returns exactly when that sequence of runs returns, and with
the same world. When every run appends the tag of its system to a log, the log after
`tick()` is the log before followed by the tags in that order. On a world that had no
system, every system registered with a phase other than `none` is run exactly once, and with
one system per phase the order is `[tickBegin, tick, tickEnd]` whatever the order of the
three registrations. -/
theorem tick_runs_phases_in_order {α σ : Type} (run : σ → TWorld α σ → Option (TWorld α σ))
    (w0 : TWorld α σ) (regs : List (EventTypes × σ))
    (hlists : ∀ s u u', run s u = some u' → u'.sysTick_ = u.sysTick_ ∧
      u'.sysTickBegin_ = u.sysTickBegin_ ∧ u'.sysTickEnd_ = u.sysTickEnd_) :
    (TWorld.tick run (w0.sys_add_all regs)).map Prod.fst =
      TWorld.run_in_order run
        ((w0.sysTickBegin_ ++ (regs.filter fun r => r.1 = EventTypes.tickBegin).map Prod.snd) ++
          (w0.sysTick_ ++ (regs.filter fun r => r.1 = EventTypes.tick).map Prod.snd) ++
          (w0.sysTickEnd_ ++ (regs.filter fun r => r.1 = EventTypes.tickEnd).map Prod.snd))
        (w0.sys_add_all regs) ∧
    (∀ w1 trace, TWorld.tick run (w0.sys_add_all regs) = some (w1, trace) →
      trace =
        (w0.sysTickBegin_ ++ (regs.filter fun r => r.1 = EventTypes.tickBegin).map Prod.snd) ++
        (w0.sysTick_ ++ (regs.filter fun r => r.1 = EventTypes.tick).map Prod.snd) ++
        (w0.sysTickEnd_ ++ (regs.filter fun r => r.1 = EventTypes.tickEnd).map Prod.snd)) ∧
    (∀ (τ : Type) (log : TWorld α σ → List τ) (tag : σ → τ),
      (∀ s u u', run s u = some u' → log u' = log u ++ [tag s]) →
      ∀ w1 trace, TWorld.tick run (w0.sys_add_all regs) = some (w1, trace) →
        log w1 = log (w0.sys_add_all regs) ++
          ((w0.sysTickBegin_ ++
              (regs.filter fun r => r.1 = EventTypes.tickBegin).map Prod.snd) ++
            (w0.sysTick_ ++ (regs.filter fun r => r.1 = EventTypes.tick).map Prod.snd) ++
            (w0.sysTickEnd_ ++
              (regs.filter fun r => r.1 = EventTypes.tickEnd).map Prod.snd)).map tag) ∧
    (w0.sysTickBegin_ = [] → w0.sysTick_ = [] → w0.sysTickEnd_ = [] →
      List.Perm
        ((w0.sysTickBegin_ ++ (regs.filter fun r => r.1 = EventTypes.tickBegin).map Prod.snd) ++
          (w0.sysTick_ ++ (regs.filter fun r => r.1 = EventTypes.tick).map Prod.snd) ++
          (w0.sysTickEnd_ ++ (regs.filter fun r => r.1 = EventTypes.tickEnd).map Prod.snd))
        ((regs.filter fun r => r.1 ≠ EventTypes.none).map Prod.snd) ∧
      ∀ b t e, List.Perm regs
          [(EventTypes.tickBegin, b), (EventTypes.tick, t), (EventTypes.tickEnd, e)] →
        (w0.sysTickBegin_ ++ (regs.filter fun r => r.1 = EventTypes.tickBegin).map Prod.snd) ++
          (w0.sysTick_ ++ (regs.filter fun r => r.1 = EventTypes.tick).map Prod.snd) ++
          (w0.sysTickEnd_ ++ (regs.filter fun r => r.1 = EventTypes.tickEnd).map Prod.snd) =
        [b, t, e]) := by
  have htick := TWorld.tick_eq_run_in_order run hlists (w0.sys_add_all regs)
  obtain ⟨hb, ht, he, _⟩ := TWorld.sys_add_all_lists w0 regs
  rw [hb, ht, he] at htick
  have hres : ∀ w1 trace, TWorld.tick run (w0.sys_add_all regs) = some (w1, trace) →
      TWorld.run_in_order run
        ((w0.sysTickBegin_ ++ (regs.filter fun r => r.1 = EventTypes.tickBegin).map Prod.snd) ++
          (w0.sysTick_ ++ (regs.filter fun r => r.1 = EventTypes.tick).map Prod.snd) ++
          (w0.sysTickEnd_ ++ (regs.filter fun r => r.1 = EventTypes.tickEnd).map Prod.snd))
        (w0.sys_add_all regs) = some w1 ∧
      trace =
        (w0.sysTickBegin_ ++ (regs.filter fun r => r.1 = EventTypes.tickBegin).map Prod.snd) ++
        (w0.sysTick_ ++ (regs.filter fun r => r.1 = EventTypes.tick).map Prod.snd) ++
        (w0.sysTickEnd_ ++ (regs.filter fun r => r.1 = EventTypes.tickEnd).map Prod.snd) := by
    intro w1 trace h
    rw [htick] at h
    obtain ⟨u, hu, huv⟩ := Option.map_eq_some'.mp h
    cases huv
    exact ⟨hu, rfl⟩
  refine ⟨?_, fun w1 trace h => (hres w1 trace h).2, ?_, ?_⟩
  · rw [htick]
    generalize TWorld.run_in_order run _ _ = o
    cases o <;> rfl
  · intro τ log tag hlog w1 trace h
    exact TWorld.run_in_order_log run log tag hlog _ _ w1 (hres w1 trace h).1
  · intro h1 h2 h3
    rw [h1, h2, h3]
    simp only [List.nil_append]
    refine ⟨?_, ?_⟩
    · rw [← List.map_append, ← List.map_append]
      exact List.Perm.map _ (TWorld.filter_phases_perm regs)
    · intro b t e hperm
      have hfb := List.perm_singleton.mp
        (show List.Perm (regs.filter fun r => r.1 = EventTypes.tickBegin)
          [(EventTypes.tickBegin, b)] from by
            have := List.Perm.filter (fun r => decide (r.1 = EventTypes.tickBegin)) hperm
            simpa [List.filter_cons] using this)
      have hft := List.perm_singleton.mp
        (show List.Perm (regs.filter fun r => r.1 = EventTypes.tick)
          [(EventTypes.tick, t)] from by
            have := List.Perm.filter (fun r => decide (r.1 = EventTypes.tick)) hperm
            simpa [List.filter_cons] using this)
      have hfe := List.perm_singleton.mp
        (show List.Perm (regs.filter fun r => r.1 = EventTypes.tickEnd)
          [(EventTypes.tickEnd, e)] from by
            have := List.Perm.filter (fun r => decide (r.1 = EventTypes.tickEnd)) hperm
            simpa [List.filter_cons] using this)
      rw [hfb, hft, hfe]
      rfl

/-- Instance of claim C17: three logging systems registered in the order `tickEnd`, `tick`,
`tickBegin` on a new world, the run of system `s` appending `s` to the pending-removal list
(as a system calling `entity_destroy_delayed(s)` does). After `tick()` the list, empty
before, is `[1, 2, 3]`. -/
theorem tick_runs_phases_in_order_witness :
    (TWorld.tick (fun s u => some (u.entity_destroy_delayed s))
        ((TWorld.empty : TWorld Nat Nat).sys_add_all
          [(EventTypes.tickEnd, 3), (EventTypes.tick, 2), (EventTypes.tickBegin, 1)])).map
        Prod.fst =
      TWorld.run_in_order (fun s u => some (u.entity_destroy_delayed s)) [1, 2, 3]
        ((TWorld.empty : TWorld Nat Nat).sys_add_all
          [(EventTypes.tickEnd, 3), (EventTypes.tick, 2), (EventTypes.tickBegin, 1)]) ∧
    ∀ w1 trace, TWorld.tick (fun s u => some (u.entity_destroy_delayed s))
        ((TWorld.empty : TWorld Nat Nat).sys_add_all
          [(EventTypes.tickEnd, 3), (EventTypes.tick, 2), (EventTypes.tickBegin, 1)]) =
        some (w1, trace) → w1.removeList_ = [1, 2, 3] :=
  ⟨(tick_runs_phases_in_order (fun s u => some (u.entity_destroy_delayed s))
      (TWorld.empty : TWorld Nat Nat)
      [(EventTypes.tickEnd, 3), (EventTypes.tick, 2), (EventTypes.tickBegin, 1)]
      (fun _ _ _ h => by cases h; exact ⟨rfl, rfl, rfl⟩)).1,
    fun w1 trace h =>
      (tick_runs_phases_in_order (fun s u => some (u.entity_destroy_delayed s))
        (TWorld.empty : TWorld Nat Nat)
        [(EventTypes.tickEnd, 3), (EventTypes.tick, 2), (EventTypes.tickBegin, 1)]
        (fun _ _ _ h => by cases h; exact ⟨rfl, rfl, rfl⟩)).2.2.1 Nat
        (fun u => u.removeList_) (fun s => s)
        (fun _ _ _ h => by cases h; rfl) w1 trace h⟩

/-- Evaluation of `tick()` with three logging systems, for each of the six orders in which
they can be registered: the world after the tick has the log `[1, 2, 3]`. -/
theorem tick_logging_example :
    ∀ regs ∈ [[(EventTypes.tickBegin, 1), (EventTypes.tick, 2), (EventTypes.tickEnd, 3)],
        [(EventTypes.tickBegin, 1), (EventTypes.tickEnd, 3), (EventTypes.tick, 2)],
        [(EventTypes.tick, 2), (EventTypes.tickBegin, 1), (EventTypes.tickEnd, 3)],
        [(EventTypes.tick, 2), (EventTypes.tickEnd, 3), (EventTypes.tickBegin, 1)],
        [(EventTypes.tickEnd, 3), (EventTypes.tickBegin, 1), (EventTypes.tick, 2)],
        [(EventTypes.tickEnd, 3), (EventTypes.tick, 2), (EventTypes.tickBegin, 1)]],
      (TWorld.tick (fun s u => some (u.entity_destroy_delayed s))
        ((TWorld.empty : TWorld Nat Nat).sys_add_all regs)).map
        (fun r => r.1.removeList_) = some [1, 2, 3] := by
  decide

namespace TCompArray
variable {α : Type}

theorem SameShape.get_same {t s : TCompArray α} (h : t.SameShape s) (e : Nat) :
    t.get e = s.get e := by
  unfold get; rw [h.1, h.2.1]

theorem SameShape.index_of_eq {t s : TCompArray α} (h : t.SameShape s) (e : Nat) :
    t.index_of e = s.index_of e := by
  unfold index_of; rw [h.2.1]

theorem SameShape.wf_store {t s : TCompArray α} (h : t.SameShape s) (hs : s.WF) : t.WF := by
  unfold WF at hs ⊢
  rw [h.1, h.2.1, h.2.2]
  exact hs

end TCompArray

namespace TCompRegistry
variable {α : Type}

theorem SameShape.refl (r : TCompRegistry α) : r.SameShape r :=
  fun _ => ⟨rfl, rfl, rfl⟩

theorem SameShape.trans {a b c : TCompRegistry α} (h1 : a.SameShape b) (h2 : b.SameShape c) :
    a.SameShape c :=
  fun k => ⟨(h1 k).1.trans (h2 k).1, (h1 k).2.1.trans (h2 k).2.1, (h1 k).2.2.trans (h2 k).2.2⟩

theorem SameShape.of_store_eq {a b : TCompRegistry α} (h : a.store = b.store) :
    a.SameShape b := by
  intro k; rw [h]; exact ⟨rfl, rfl, rfl⟩

theorem SameShape.wf_registry {t r : TCompRegistry α} (h : t.SameShape r) (hr : r.WF) :
    t.WF :=
  fun k => (h k).wf_store (hr k)

theorem store_put_any (r : TCompRegistry α) (key : Nat) (s : TCompArray α) (k : Nat) :
    (r.put key s).store k = if k = key ∧ key < r.reg_.length then s else r.store k := by
  by_cases hlen : key < r.reg_.length
  · rw [store_put r key s hlen k]
    by_cases hk : k = key
    · rw [if_pos hk, if_pos ⟨hk, hlen⟩]
    · rw [if_neg hk, if_neg (fun h => hk h.1)]
  · rw [if_neg (fun h => hlen h.2)]
    unfold put store
    simp only
    rw [List.set_eq_of_length_le (by omega)]

theorem poke_sameShape (r : TCompRegistry α) (key p : Nat) (v : α) :
    (r.poke key p v).SameShape r := by
  intro k
  unfold poke
  rw [store_put_any]
  by_cases h : k = key ∧ key < r.reg_.length
  · rw [if_pos h, h.1]
    exact ⟨by simp, rfl, rfl⟩
  · rw [if_neg h]
    exact ⟨rfl, rfl, rfl⟩

end TCompRegistry

namespace TWorld
variable {α σ : Type}

end TWorld
namespace TWorld
variable {α σ : Type}

end TWorld
namespace TWorld
variable {α σ : Type}

end TWorld
namespace TWorld
variable {α σ : Type}

end TWorld
namespace TWorld
variable {α σ : Type}

end TWorld

/-- Evaluation of `each` on the scenario world: over `{X, Y}` the callback is invoked once,
on slot 1 of `X` and slot 0 of `Y` (entity 2), in either evaluation order of the arguments;
over `{X}` it is invoked on slots 0 and 1 in turn. -/
theorem each_scenario :
    (scenario.bind fun w => (TWorld.each (fun vs => vs.map fun x => x + 1) [0, 1] w [0, 1]).map
      Prod.snd) = some [[1, 0]] ∧
    (scenario.bind fun w => (TWorld.each (fun vs => vs.map fun x => x + 1) [1, 0] w [0, 1]).map
      Prod.snd) = some [[1, 0]] ∧
    (scenario.bind fun w => (TWorld.each (fun vs => vs.map fun x => x + 1) [0] w [0]).map
      Prod.snd) = some [[0], [1]] := by
  decide

/-- Evaluation of the values `each` leaves in the scenario world with a callback that
increments the values it is given: over `{X, Y}` the `X` of entity 2 becomes 21 and its `Y`
becomes 8, the `X` of entity 1 stays 10; over `{X}` both `X` values are incremented. -/
theorem each_scenario_values :
    (scenario.bind fun w => (TWorld.each (fun vs => vs.map fun x => x + 1) [0, 1] w [0, 1]).map
      fun res => ((res.1.compReg_.store 0).arr_, (res.1.compReg_.store 1).arr_)) =
      some ([10, 21], [8]) ∧
    (scenario.bind fun w => (TWorld.each (fun vs => vs.map fun x => x + 1) [0] w [0]).map
      fun res => ((res.1.compReg_.store 0).arr_, (res.1.compReg_.store 1).arr_)) =
      some ([11, 21], [7]) := by
  decide

/-- Claim C21, evaluated on the code. On the store of `X` of the scenario (entities 1 and 2,
`size()` 2), `get_id(2)` and `get_id(5)` read `revMap_` past its end, which is undefined;
they do not return `ID_MAX`, the id of `Entity::invalid()`; likewise `get_id(0)` on an empty
store and `comp_get_entity<X>(2)` on the scenario world. For the live indices 0 and 1 the
owners 1 and 2 are returned. -/
theorem get_id_past_end_undefined :
    (TCompArray.mk [10, 20] [ID_MAX, 0, 1] [1, 2]).get_id 2 = none ∧
    (TCompArray.mk [10, 20] [ID_MAX, 0, 1] [1, 2]).get_id 5 = none ∧
    (TCompArray.empty : TCompArray Nat).get_id 0 = none ∧
    (TWorld.mk 3 ⟨[some ⟨[10, 20], [ID_MAX, 0, 1], [1, 2]⟩,
      some ⟨[7], [ID_MAX, ID_MAX, 0], [2]⟩]⟩ [] [] [] [] : TWorld Nat Unit).comp_get_entity 0 2 =
        none ∧
    (TCompArray.mk [10, 20] [ID_MAX, 0, 1] [1, 2]).get_id 0 = some 1 ∧
    (TCompArray.mk [10, 20] [ID_MAX, 0, 1] [1, 2]).get_id 1 = some 2 := by
  decide

/-- What `get_id(index)` does on a store satisfying the invariant: for `index < size()` it
returns the owner of the slot, whose forward entry is `index`; for `index >= size()` the
read of `revMap_[index]` is past the end and undefined, and a value is never produced,
`ID_MAX` included. -/
theorem get_id_spec {α : Type} (s : TCompArray α) (index : Nat) (hwf : s.WF) :
    (index < s.size → ∃ e, s.get_id index = some e ∧ s.get e = some index ∧ e ≠ ID_MAX) ∧
    (s.size ≤ index → s.get_id index = none) := by
  constructor
  · intro h
    have hlt : index < s.revMap_.length := by rw [← hwf.1]; exact h
    refine ⟨s.revMap_[index], List.getElem?_eq_getElem hlt, ?_, ?_⟩
    · rw [hwf.get_eq]
      exact hwf.fwd_rev (List.getElem?_eq_getElem hlt)
    · have h1 := hwf.rev_lt _ (List.getElem_mem hlt)
      have h2 := hwf.2.1
      omega
  · intro h
    unfold TCompArray.get_id
    apply List.getElem?_eq_none
    rw [← hwf.1]; exact h

/-- Instance of `get_id_spec`. -/
theorem get_id_spec_witness :
    (∃ e, (TCompArray.mk [10, 20] [ID_MAX, 0, 1] [1, 2]).get_id 1 = some e ∧
      (TCompArray.mk [10, 20] [ID_MAX, 0, 1] [1, 2]).get e = some 1 ∧ e ≠ ID_MAX) ∧
    (TCompArray.mk [10, 20] [ID_MAX, 0, 1] [1, 2]).get_id 2 = none :=
  ⟨(get_id_spec (TCompArray.mk [10, 20] [ID_MAX, 0, 1] [1, 2]) 1 (by decide)).1 (by decide),
    (get_id_spec (TCompArray.mk [10, 20] [ID_MAX, 0, 1] [1, 2]) 2 (by decide)).2 (by decide)⟩

/-- Claim C22. On a store satisfying the invariant and for every live dense index
`i < size()`, the reverse lookup by reference applied to `arr_[i]`, whose address is
`data + i` when the dense array starts at `data`, recovers the offset `i` and returns what
the reverse lookup by index returns, the owner of slot `i`; `comp_get_entity` agrees in the
same way in a world holding the store. -/
theorem get_id_by_reference_agrees {α σ : Type} (s : TCompArray α) (data i : Nat)
    (hwf : s.WF) (hi : i < s.size) :
    s.get_id_ref data (data + i) = s.get_id i ∧
    (∃ e, s.get_id_ref data (data + i) = some e ∧ s.get e = some i) ∧
    ∀ (w : TWorld α σ) (key : Nat), w.compReg_.store key = s →
      (w.comp_get_entity_ref key data (data + i)).map Prod.snd =
        (w.comp_get_entity key i).map Prod.snd := by
  have h1 : s.get_id_ref data (data + i) = s.get_id i := by
    unfold TCompArray.get_id_ref TCompArray.get_id
    rw [if_neg (by omega), Nat.add_sub_cancel_left]
  refine ⟨h1, ?_, ?_⟩
  · obtain ⟨e, he, hg, _⟩ := (get_id_spec s i hwf).1 hi
    exact ⟨e, by rw [h1]; exact he, hg⟩
  · intro w key hk
    unfold TWorld.comp_get_entity_ref TWorld.comp_get_entity
    simp only [TCompRegistry.get_array_snd, hk, h1, Option.map_map]

/-- Instance of claim C22: slot 1 of the store of `X` of the scenario, the dense array
starting at address 1000. -/
theorem get_id_by_reference_agrees_witness :
    (TCompArray.mk [10, 20] [ID_MAX, 0, 1] [1, 2]).get_id_ref 1000 (1000 + 1) =
      (TCompArray.mk [10, 20] [ID_MAX, 0, 1] [1, 2]).get_id 1 ∧
    (∃ e, (TCompArray.mk [10, 20] [ID_MAX, 0, 1] [1, 2]).get_id_ref 1000 (1000 + 1) = some e ∧
      (TCompArray.mk [10, 20] [ID_MAX, 0, 1] [1, 2]).get e = some 1) ∧
    ((TWorld.mk 3 ⟨[some ⟨[10, 20], [ID_MAX, 0, 1], [1, 2]⟩,
        some ⟨[7], [ID_MAX, ID_MAX, 0], [2]⟩]⟩ [] [] [] [] :
          TWorld Nat Unit).comp_get_entity_ref 0 1000 (1000 + 1)).map Prod.snd =
      ((TWorld.mk 3 ⟨[some ⟨[10, 20], [ID_MAX, 0, 1], [1, 2]⟩,
        some ⟨[7], [ID_MAX, ID_MAX, 0], [2]⟩]⟩ [] [] [] [] :
          TWorld Nat Unit).comp_get_entity 0 1).map Prod.snd :=
  ⟨(@get_id_by_reference_agrees Nat Unit (TCompArray.mk [10, 20] [ID_MAX, 0, 1] [1, 2])
      1000 1 (by decide) (by decide)).1,
    (@get_id_by_reference_agrees Nat Unit (TCompArray.mk [10, 20] [ID_MAX, 0, 1] [1, 2])
      1000 1 (by decide) (by decide)).2.1,
    (get_id_by_reference_agrees (TCompArray.mk [10, 20] [ID_MAX, 0, 1] [1, 2])
      1000 1 (by decide) (by decide)).2.2 _ 0 (by decide)⟩


/-- Claim C24. On a store satisfying the invariant with `size()` `n`, removing a contained
entity `e` whose dense index is `i = index_of(e)` returns a store of size `n - 1` in which:
when `i < n - 1`, slot `i` holds the value and the owner that were at slot `n - 1`, and
`index_of` of that relocated owner is `i`; every slot `k < n - 1` other than `i` holds the
value and the owner it held and the `index_of` of its owner is unchanged; and when
`i = n - 1` every remaining slot is as before, so nothing is relocated. -/
theorem remove_swap_and_pop_layout {α : Type} (s : TCompArray α) (e : Nat)
    (hwf : s.WF) (hc : s.contains e = true) :
    ∃ t, s.remove e = some t ∧ t.size = s.size - 1 ∧ s.index_of e < s.size ∧
      (s.index_of e < s.size - 1 →
        t.arr_[s.index_of e]? = s.arr_[s.size - 1]? ∧
        t.get_id (s.index_of e) = s.get_id (s.size - 1) ∧
        ∃ r, s.get_id (s.size - 1) = some r ∧ t.index_of r = s.index_of e) ∧
      (∀ k, k < s.size - 1 → k ≠ s.index_of e →
        t.arr_[k]? = s.arr_[k]? ∧ t.get_id k = s.get_id k ∧
        ∃ r, s.get_id k = some r ∧ t.index_of r = k ∧ s.index_of r = k) ∧
      (s.index_of e = s.size - 1 →
        ∀ k, k < s.size - 1 → t.arr_[k]? = s.arr_[k]? ∧ t.get_id k = s.get_id k) := by
  have hg := hwf.index_of_of_contains hc
  have hf : s.fwd e = some (s.index_of e) := by rw [← hwf.get_eq]; exact hg
  have hlt := hwf.fwd_lt hf
  obtain ⟨t, ht, hml, hal, hrl, harr, hrev, hfwd⟩ := TCompArray.remove_spec hwf hf
  have hlen := hwf.1
  refine ⟨t, ht, hal, hlt, ?_, ?_, ?_⟩
  · intro hi
    have hi' : s.index_of e < s.arr_.length - 1 := hi
    have hr1 : s.arr_.length - 1 < s.revMap_.length := by omega
    refine ⟨?_, ?_, s.revMap_[s.arr_.length - 1], List.getElem?_eq_getElem hr1, ?_⟩
    · rw [harr, if_pos hi', if_pos rfl]; rfl
    · unfold TCompArray.get_id
      rw [hrev, if_pos hi', if_pos rfl]; rfl
    · have hfl := hwf.fwd_rev (List.getElem?_eq_getElem hr1)
      have hne : s.revMap_[s.arr_.length - 1] ≠ e := by
        intro heq
        rw [heq, hf] at hfl
        simp at hfl; omega
      rw [TCompArray.index_of_eq_fwd, hfwd, if_neg hne, if_pos hfl]; rfl
  · intro k hk hne
    have hk' : k < s.arr_.length - 1 := hk
    have hkr : k < s.revMap_.length := by omega
    refine ⟨?_, ?_, s.revMap_[k], List.getElem?_eq_getElem hkr, ?_, ?_⟩
    · rw [harr, if_pos hk', if_neg hne]
    · unfold TCompArray.get_id
      rw [hrev, if_pos hk', if_neg hne]
    · have hfk := hwf.fwd_rev (List.getElem?_eq_getElem hkr)
      have hne1 : s.revMap_[k] ≠ e := by
        intro heq
        rw [heq, hf] at hfk
        simp at hfk; exact hne hfk.symm
      have hne2 : ¬ s.fwd s.revMap_[k] = some (s.arr_.length - 1) := by
        rw [hfk]; simp; omega
      rw [TCompArray.index_of_eq_fwd, hfwd, if_neg hne1, if_neg hne2, hfk]; rfl
    · have hfk := hwf.fwd_rev (List.getElem?_eq_getElem hkr)
      rw [TCompArray.index_of_eq_fwd, hfk]; rfl
  · intro hi k hk
    have hk' : k < s.arr_.length - 1 := hk
    have hne : k ≠ s.index_of e := by
      have : s.index_of e = s.arr_.length - 1 := hi
      omega
    constructor
    · rw [harr, if_pos hk', if_neg hne]
    · unfold TCompArray.get_id
      rw [hrev, if_pos hk', if_neg hne]

/-- Instance of claim C24: entity 4, at slot 0 of three, is removed and entity 2 moves from
slot 2 to slot 0. -/
theorem remove_swap_and_pop_layout_witness :
    ∃ t, (TCompArray.mk [40, 10, 20] [ID_MAX, 1, 2, ID_MAX, 0] [4, 1, 2]).remove 4 = some t ∧
      t.size = 2 ∧ t.arr_[0]? = some 20 ∧ t.get_id 0 = some 2 ∧ t.index_of 2 = 0 ∧
      t.arr_[1]? = some 10 ∧ t.get_id 1 = some 1 :=
  (remove_swap_and_pop_layout (TCompArray.mk [40, 10, 20] [ID_MAX, 1, 2, ID_MAX, 0] [4, 1, 2]) 4
    (by decide) (by decide)).imp fun t h =>
      ⟨h.1, h.2.1, (h.2.2.2.1 (by decide)).1, (h.2.2.2.1 (by decide)).2.1,
        by
          obtain ⟨r, hr, hi⟩ := (h.2.2.2.1 (by decide)).2.2
          have : r = 2 := by
            have h2 : (TCompArray.mk [40, 10, 20] [ID_MAX, 1, 2, ID_MAX, 0] [4, 1, 2]).get_id
              ((TCompArray.mk [40, 10, 20] [ID_MAX, 1, 2, ID_MAX, 0] [4, 1, 2]).size - 1) =
                some 2 := by decide
            rw [h2] at hr
            exact (Option.some.inj hr).symm
          rw [this] at hi
          exact hi,
        (h.2.2.2.2.1 1 (by decide) (by decide)).1, (h.2.2.2.2.1 1 (by decide) (by decide)).2.1⟩


/-- Claim C27. An existing view is not protected against a later swap-and-pop: there are a
world, a view `view_get<A, B>()` built on it and a later `comp_remove<B>(e)` after which a
row of the view reports one entity and resolves its `B` entry to the component of another.
In the world where entities 0, 1 and 2 own `A` and `B`, the view has the index lists
`[0, 1, 2]` and `[0, 1, 2]`; after `comp_remove<B>(0)` the store of `B` holds entities 2 and
1, and row 0 of the old view still reports entity 0, the owner of `A`-slot 0, while its `B`
entry is slot 0 of `B`, now owned by entity 2 and holding the value 22. -/
theorem stale_view_pairs_two_entities :
    ∃ w wv v w1 w2 row,
      threeEntities = some w ∧
      w.view_get [(0, false), (1, false)] = some (wv, v) ∧
      v.ind_ = [[0, 1, 2], [0, 1, 2]] ∧
      wv.comp_remove 1 0 = some w1 ∧
      0 < v.size ∧
      v.get w1 0 = some (w2, row) ∧
      row.entity = 0 ∧ row.slots = [some 0, some 0] ∧
      (w1.compReg_.store 0).get_id 0 = some 0 ∧
      (w1.compReg_.store 1).get_id 0 = some 2 ∧
      (w1.compReg_.store 1).deref (row.slots.getD 1 none) = some 22 ∧
      (w1.compReg_.store 1).get row.entity = none :=
  ⟨TWorld.mk 0 ⟨[some ⟨[10, 11, 12], [0, 1, 2], [0, 1, 2]⟩,
      some ⟨[20, 21, 22], [0, 1, 2], [0, 1, 2]⟩]⟩ [] [] [] [],
    TWorld.mk 0 ⟨[some ⟨[10, 11, 12], [0, 1, 2], [0, 1, 2]⟩,
      some ⟨[20, 21, 22], [0, 1, 2], [0, 1, 2]⟩]⟩ [] [] [] [],
    ⟨[(0, false), (1, false)], [[0, 1, 2], [0, 1, 2]]⟩,
    TWorld.mk 0 ⟨[some ⟨[10, 11, 12], [0, 1, 2], [0, 1, 2]⟩,
      some ⟨[22, 21], [ID_MAX, 1, 0], [2, 1]⟩]⟩ [] [] [] [],
    TWorld.mk 0 ⟨[some ⟨[10, 11, 12], [0, 1, 2], [0, 1, 2]⟩,
      some ⟨[22, 21], [ID_MAX, 1, 0], [2, 1]⟩]⟩ [] [] [] [],
    ⟨0, [some 0, some 0]⟩,
    by decide, by decide, rfl, by decide, by decide, by decide, rfl, rfl, by decide, by decide,
    by decide, by decide⟩


theorem resize_length {β : Type} (l : List β) (n : Nat) (v : β) : (resize l n v).length = n := by
  unfold resize
  simp only [List.length_append, List.length_take, List.length_replicate]
  omega

theorem write_length {β : Type} {l t : List β} {i : Nat} {x : β} (h : write l i x = some t) :
    t.length = l.length := by
  unfold write at h
  by_cases hi : i < l.length
  · rw [if_pos hi] at h
    rw [← Option.some.inj h, List.length_set]
  · rw [if_neg hi] at h
    exact absurd h (by simp)

namespace TCompArray
variable {α : Type}

theorem insert_eq_grown (s : TCompArray α) (id : Nat) (args : Option α) :
    s.insert id args =
      if s.map_.length > id ∧ s.map_.getD id ID_MAX ≠ ID_MAX then some (false, s)
      else
        (write (s.grown_map id) id
          ((((match args with
            | some v => s.arr_ ++ [v]
            | none => s.arr_).length + SIZE_MOD - 1) % SIZE_MOD) % ID_MOD)).bind fun map2 =>
        some (true, ⟨match args with
          | some v => s.arr_ ++ [v]
          | none => s.arr_, map2, s.revMap_ ++ [id]⟩) :=
  rfl

theorem grown_map_length_le (s : TCompArray α) (id : Nat) (h : s.map_.length ≤ ID_MAX) :
    (s.grown_map id).length ≤ ID_MAX := by
  unfold grown_map
  by_cases hle : s.map_.length ≤ id
  · rw [if_pos hle, resize_length]
    have := Nat.mod_lt (id + 1) (by decide : 0 < ID_MOD)
    generalize (id + 1) % ID_MOD = x at this
    unfold ID_MOD at this; unfold ID_MAX; omega
  · rw [if_neg hle]; exact h

theorem insert_map_length_le {s t : TCompArray α} {id : Nat} {args : Option α} {b : Bool}
    (h : s.map_.length ≤ ID_MAX) (hi : s.insert id args = some (b, t)) :
    t.map_.length ≤ ID_MAX := by
  rw [insert_eq_grown] at hi
  by_cases hg : s.map_.length > id ∧ s.map_.getD id ID_MAX ≠ ID_MAX
  · rw [if_pos hg] at hi
    simp only [Option.some.injEq, Prod.mk.injEq] at hi
    rw [← hi.2]; exact h
  · rw [if_neg hg] at hi
    simp only [Option.bind_eq_some] at hi
    obtain ⟨m, hw, hi⟩ := hi
    simp only [Option.some.injEq, Prod.mk.injEq] at hi
    rw [← hi.2]
    show m.length ≤ ID_MAX
    rw [write_length hw]
    exact grown_map_length_le s id h

theorem remove_map_length {s t : TCompArray α} {id : Nat} (h : s.remove id = some t) :
    t.map_.length = s.map_.length := by
  unfold remove at h
  by_cases hg : s.map_.length ≤ id ∨ s.map_.getD id ID_MAX = ID_MAX
  · rw [if_pos hg] at h
    rw [← Option.some.inj h]
  · rw [if_neg hg] at h
    simp only [Option.bind_eq_some] at h
    obtain ⟨last, _, arr1, _, rlast, _, rev1, _, arr2, _, rev2, _, map1, hm1, h⟩ := h
    have hl1 := write_length hm1
    by_cases h1 : s.map_.getD id ID_MAX ≥ rev2.length
    · rw [if_pos h1] at h
      rw [← Option.some.inj h]; exact hl1
    · rw [if_neg h1] at h
      by_cases h2 : rev2.length > 0 ∧ rev2.getD (s.map_.getD id ID_MAX) ID_MAX ≠ ID_MAX
      · rw [if_pos h2] at h
        simp only [Option.bind_eq_some] at h
        obtain ⟨map2, hm2, h⟩ := h
        rw [← Option.some.inj h]
        show map2.length = _
        rw [write_length hm2, hl1]
      · rw [if_neg h2] at h
        rw [← Option.some.inj h]; exact hl1

end TCompArray

theorem runCalls_map_length_le {α : Type} (calls : List (StoreCall α)) (s t : TCompArray α)
    (h : s.map_.length ≤ ID_MAX) (hr : runCalls s calls = some t) : t.map_.length ≤ ID_MAX := by
  induction calls generalizing s with
  | nil =>
    simp only [runCalls, Option.some.injEq] at hr
    rw [← hr]; exact h
  | cons c cs ih =>
    cases c with
    | insert id args =>
      simp only [runCalls, Option.bind_eq_some] at hr
      obtain ⟨res, hres, hrest⟩ := hr
      exact ih res.2 (TCompArray.insert_map_length_le (b := res.1) h hres) hrest
    | remove id =>
      simp only [runCalls, Option.bind_eq_some] at hr
      obtain ⟨u, hu, hrest⟩ := hr
      exact ih u (by rw [TCompArray.remove_map_length hu]; exact h) hrest


/-- Claim C28. For every store reached from the empty store by `insert` and `remove` calls
(whatever their ids and whether or not constructors throw) and every value `id` of `ID_T`:
the index `id` is within the bounds of the forward map left by the growth step of
`insert(id, ...)` exactly when `id` is not `ID_MAX`. For `id = ID_MAX` the sum `id + 1` wraps
to 0, the growth step resizes the forward map to length 0, which discards every forward
entry, and the write `map_[id]` that follows is out of bounds, so the call is undefined; for
any other `id` the call returns. The store does not contain `ID_MAX`, so the duplicate check
of `insert` never prevents this. -/
theorem insert_write_in_bounds_iff {α : Type} (calls : List (StoreCall α)) (s : TCompArray α)
    (id : Nat) (hreach : runCalls TCompArray.empty calls = some s) (hid : id ≤ ID_MAX) :
    (id < (s.grown_map id).length ↔ id ≠ ID_MAX) ∧
    (id = ID_MAX →
      s.contains id = false ∧ s.grown_map id = [] ∧ ∀ args, s.insert id args = none) ∧
    (id ≠ ID_MAX → ∀ args, ∃ res, s.insert id args = some res) := by
  have hlen : s.map_.length ≤ ID_MAX :=
    runCalls_map_length_le calls TCompArray.empty s (Nat.zero_le _) hreach
  have hmax : s.grown_map ID_MAX = [] := by
    unfold TCompArray.grown_map
    rw [if_pos hlen]
    have : (ID_MAX + 1) % ID_MOD = 0 := by decide
    rw [this]
    unfold resize
    simp
  have hsmall : id ≠ ID_MAX → id < (s.grown_map id).length := by
    intro hne
    have hlt : id < ID_MAX := by omega
    unfold TCompArray.grown_map
    by_cases hle : s.map_.length ≤ id
    · rw [if_pos hle, resize_length]
      have : (id + 1) % ID_MOD = id + 1 := by
        apply Nat.mod_eq_of_lt
        unfold ID_MAX at hlt; unfold ID_MOD; omega
      omega
    · rw [if_neg hle]; omega
  refine ⟨⟨?_, hsmall⟩, ?_, ?_⟩
  · intro hlt heq
    rw [heq, hmax] at hlt
    exact absurd hlt (by simp)
  · intro heq
    subst heq
    refine ⟨?_, hmax, ?_⟩
    · unfold TCompArray.contains TCompArray.get
      rw [if_pos (Or.inl hlen)]; rfl
    · intro args
      rw [TCompArray.insert_eq_grown, if_neg (by omega), hmax]
      rfl
  · intro hne args
    rw [TCompArray.insert_eq_grown]
    by_cases hg : s.map_.length > id ∧ s.map_.getD id ID_MAX ≠ ID_MAX
    · rw [if_pos hg]; exact ⟨_, rfl⟩
    · rw [if_neg hg]
      unfold write
      rw [if_pos (hsmall hne)]
      exact ⟨_, rfl⟩

/-- Instance of claim C28: after two inserts, `insert` with the sentinel id. -/
theorem insert_write_in_bounds_iff_witness :
    (ID_MAX < ((TCompArray.mk [10, 11] [0, 1] [0, 1]).grown_map ID_MAX).length ↔
      ID_MAX ≠ ID_MAX) ∧
    (TCompArray.mk [10, 11] [0, 1] [0, 1]).contains ID_MAX = false ∧
    (TCompArray.mk [10, 11] [0, 1] [0, 1]).grown_map ID_MAX = [] ∧
    (∀ args, (TCompArray.mk [10, 11] [0, 1] [0, 1]).insert ID_MAX args = none) ∧
    (7 < ((TCompArray.mk [10, 11] [0, 1] [0, 1]).grown_map 7).length ↔ 7 ≠ ID_MAX) :=
  ⟨(insert_write_in_bounds_iff [StoreCall.insert 0 (some 10), StoreCall.insert 1 (some 11)]
      (TCompArray.mk [10, 11] [0, 1] [0, 1]) ID_MAX (by decide) (by decide)).1,
    ((insert_write_in_bounds_iff [StoreCall.insert 0 (some 10), StoreCall.insert 1 (some 11)]
      (TCompArray.mk [10, 11] [0, 1] [0, 1]) ID_MAX (by decide) (by decide)).2.1 rfl).1,
    ((insert_write_in_bounds_iff [StoreCall.insert 0 (some 10), StoreCall.insert 1 (some 11)]
      (TCompArray.mk [10, 11] [0, 1] [0, 1]) ID_MAX (by decide) (by decide)).2.1 rfl).2.1,
    ((insert_write_in_bounds_iff [StoreCall.insert 0 (some 10), StoreCall.insert 1 (some 11)]
      (TCompArray.mk [10, 11] [0, 1] [0, 1]) ID_MAX (by decide) (by decide)).2.1 rfl).2.2,
    (insert_write_in_bounds_iff [StoreCall.insert 0 (some 10), StoreCall.insert 1 (some 11)]
      (TCompArray.mk [10, 11] [0, 1] [0, 1]) 7 (by decide) (by decide)).1⟩


theorem TCompRegistry.keptEntities_anchor_observational {α : Type} {r : TCompRegistry α}
    (h : r.WF) (A : Nat) (cs : List (Nat × Bool)) :
    r.keptEntities ((A, true) :: cs) A = r.keptEntities ((A, false) :: cs) A := by
  unfold TCompRegistry.keptEntities
  apply List.filter_congr
  intro e he
  have hc := ((h A).contains_iff e).mpr he
  simp [TCompRegistry.hasRequired, hc]

/-- Claim C26 as amended. On a world whose stores satisfy the sparse-set invariant, marking the anchor
type observational changes nothing in the rows: `view_get<A*, B>()` and `view_get<A, B>()`
have the same index lists, the same size and iterate to the same rows, entities and entries,
in the same order. Every row entity owns an `A` and a `B`, its anchor entry is never null,
and an entity that owns a `B` but no `A` is the entity of no row. -/
theorem anchor_observational_same_rows {α σ : Type} (w : TWorld α σ) (A B : Nat)
    (hwf : w.compReg_.WF) :
    ∃ w1 v1 rows1 w2 v2 rows2,
      w.view_get [(A, true), (B, false)] = some (w1, v1) ∧ v1.rows w1 = some rows1 ∧
      w.view_get [(A, false), (B, false)] = some (w2, v2) ∧ v2.rows w2 = some rows2 ∧
      v1.ind_ = v2.ind_ ∧ v1.size = v2.size ∧ rows1 = rows2 ∧
      rows1.map ComponentSet.entity = rows2.map ComponentSet.entity ∧
      (∀ row ∈ rows1, (w.compReg_.store A).contains row.entity = true ∧
        (w.compReg_.store B).contains row.entity = true ∧
        ∃ pa pb, row.slots = [some pa, some pb]) ∧
      (∀ e, (w.compReg_.store B).contains e = true → (w.compReg_.store A).contains e = false →
        e ∉ rows1.map ComponentSet.entity) := by
  obtain ⟨t1, v1, hv1, _, _, hind1, hsize1, hrows1⟩ := w.view_get_rows hwf (A, true) [(B, false)]
  obtain ⟨t2, v2, hv2, _, _, hind2, hsize2, hrows2⟩ :=
    w.view_get_rows hwf (A, false) [(B, false)]
  have hk := TCompRegistry.keptEntities_anchor_observational hwf A [(B, false)]
  simp only at hind1 hind2 hsize1 hsize2 hrows1 hrows2
  rw [hk] at hind1 hsize1 hrows1
  have hmem : ∀ e, e ∈ w.compReg_.keptEntities [(A, false), (B, false)] A ↔
      ((w.compReg_.store A).contains e = true ∧ (w.compReg_.store B).contains e = true) := by
    intro e
    rw [TCompRegistry.mem_keptEntities, ← (hwf A).contains_iff]
    simp [TCompRegistry.hasRequired]
  refine ⟨_, v1, _, _, v2, _, hv1, hrows1, hv2, hrows2, ?_, ?_, rfl, rfl, ?_, ?_⟩
  · rw [hind1, hind2]; rfl
  · rw [hsize1, hsize2]
  · intro row hrow
    obtain ⟨ent, hent, rfl⟩ := List.mem_map.mp hrow
    have hc := (hmem ent).mp hent
    have ha := (hwf A).index_of_of_contains hc.1
    have hb := (hwf B).index_of_of_contains hc.2
    exact ⟨hc.1, hc.2, (w.compReg_.store A).index_of ent, (w.compReg_.store B).index_of ent,
      by simp only [List.map_cons, List.map_nil, ha, hb]⟩
  · intro e hb ha hmem'
    rw [List.map_map] at hmem'
    have : e ∈ w.compReg_.keptEntities [(A, false), (B, false)] A := by
      simpa [Function.comp] using hmem'
    have hc := (hmem e).mp this
    rw [ha] at hc
    exact absurd hc.1 (by simp)

/-- Instance of the amended claim C26: the scenario world, where entity 2 owns both types. -/
theorem anchor_observational_same_rows_witness :
    ∃ w1 v1 rows1 w2 v2 rows2,
      (TWorld.mk 3 ⟨[some ⟨[10, 20], [ID_MAX, 0, 1], [1, 2]⟩,
        some ⟨[7], [ID_MAX, ID_MAX, 0], [2]⟩]⟩ [] [] [] [] : TWorld Nat Unit).view_get
          [(0, true), (1, false)] = some (w1, v1) ∧
      v1.rows w1 = some rows1 ∧
      (TWorld.mk 3 ⟨[some ⟨[10, 20], [ID_MAX, 0, 1], [1, 2]⟩,
        some ⟨[7], [ID_MAX, ID_MAX, 0], [2]⟩]⟩ [] [] [] [] : TWorld Nat Unit).view_get
          [(0, false), (1, false)] = some (w2, v2) ∧
      v2.rows w2 = some rows2 ∧
      v1.ind_ = v2.ind_ ∧ v1.size = v2.size ∧ rows1 = rows2 :=
  (anchor_observational_same_rows
    (TWorld.mk 3 ⟨[some ⟨[10, 20], [ID_MAX, 0, 1], [1, 2]⟩,
      some ⟨[7], [ID_MAX, ID_MAX, 0], [2]⟩]⟩ [] [] [] []) 0 1 (by decide)).imp
    fun _ h1 => h1.imp fun _ h2 => h2.imp fun _ h3 => h3.imp fun _ h4 => h4.imp fun _ h5 =>
      h5.imp fun _ h => ⟨h.1, h.2.1, h.2.2.1, h.2.2.2.1, h.2.2.2.2.1, h.2.2.2.2.2.1,
        h.2.2.2.2.2.2.1⟩

/-- Evaluation of both views on a world where entity 3 owns a `B` but no `A`: each has the
single row of entity 2. -/
theorem anchor_observational_example :
    ((TWorld.mk 4 ⟨[some ⟨[10, 20], [ID_MAX, 0, 1], [1, 2]⟩,
        some ⟨[7, 8], [ID_MAX, ID_MAX, 0, 1], [2, 3]⟩]⟩ [] [] [] [] : TWorld Nat Unit).view_get
          [(0, true), (1, false)]).bind
      (fun wv => (wv.2.rows wv.1).map fun rows => (wv.2.ind_, rows)) =
      some ([[1], [0]], [⟨2, [some 1, some 0]⟩]) ∧
    ((TWorld.mk 4 ⟨[some ⟨[10, 20], [ID_MAX, 0, 1], [1, 2]⟩,
        some ⟨[7, 8], [ID_MAX, ID_MAX, 0, 1], [2, 3]⟩]⟩ [] [] [] [] : TWorld Nat Unit).view_get
          [(0, false), (1, false)]).bind
      (fun wv => (wv.2.rows wv.1).map fun rows => (wv.2.ind_, rows)) =
      some ([[1], [0]], [⟨2, [some 1, some 0]⟩]) := by
  decide

namespace TComponentView
variable {α σ : Type}

theorem each_write_sameShape (r : TCompRegistry α) (cs : List (Nat × Bool))
    (ps : List (Option Nat)) (vs : List (Option α)) : (each_write r cs ps vs).SameShape r := by
  induction cs generalizing r ps vs with
  | nil => exact TCompRegistry.SameShape.refl r
  | cons c cs ih =>
    cases ps with
    | nil => exact TCompRegistry.SameShape.refl r
    | cons p ps =>
      cases vs with
      | nil => exact TCompRegistry.SameShape.refl r
      | cons v vs =>
        cases p with
        | none => exact ih r ps vs
        | some k =>
          cases v with
          | none => exact ih r ps vs
          | some x =>
            exact (ih (r.poke c.1 k x) ps vs).trans (TCompRegistry.poke_sameShape r c.1 k x)

theorem slots_shape {r0 : TCompRegistry α} (h : r0.WF) (kept : List Nat) (i ent : Nat)
    (hi : kept[i]? = some ent) (cl : List (Nat × Bool))
    (hreq : ∀ cj ∈ cl, (cj.2 || (r0.store cj.1).contains ent) = true)
    (r2 : TCompRegistry α) (h2 : r2.SameShape r0) :
    ∃ t, slots i cl (cl.map fun cj => kept.map fun e => (r0.store cj.1).index_of e) r2 =
        some (t, cl.map fun cj => (r0.store cj.1).get ent) ∧ t.SameShape r0 := by
  have hreq2 : ∀ cj ∈ cl, (cj.2 || (r2.store cj.1).contains ent) = true := by
    intro cj hcj
    have := hreq cj hcj
    unfold TCompArray.contains at this ⊢
    rw [(h2 cj.1).get_same]
    exact this
  obtain ⟨t, ht, hts⟩ := slots_spec (h2.wf_registry h) kept i ent hi cl hreq2 r2 rfl
  have e1 : (fun cj : Nat × Bool => kept.map fun e => (r2.store cj.1).index_of e) =
      (fun cj : Nat × Bool => kept.map fun e => (r0.store cj.1).index_of e) := by
    funext cj
    exact List.map_congr_left fun e _ => (h2 cj.1).index_of_eq e
  have e2 : (fun cj : Nat × Bool => (r2.store cj.1).get ent) =
      (fun cj : Nat × Bool => (r0.store cj.1).get ent) := by
    funext cj
    exact (h2 cj.1).get_same ent
  rw [e1, e2] at ht
  exact ⟨t, ht, (TCompRegistry.SameShape.of_store_eq hts).trans h2⟩

theorem each_rows_fresh (f : List (Option α) → List (Option α)) {r0 : TCompRegistry α}
    (h : r0.WF) (c : Nat × Bool) (cs : List (Nat × Bool)) (is : List Nat)
    (his : ∀ i ∈ is, i < (r0.keptEntities (c :: cs) c.1).length)
    (r2 : TCompRegistry α) (h2 : r2.SameShape r0) :
    ∃ t, (TComponentView.mk (c :: cs) ((c :: cs).map fun cj =>
        (r0.keptEntities (c :: cs) c.1).map fun e => (r0.store cj.1).index_of e)).each_rows f is r2 =
      some (t, is.map fun i => (c :: cs).map fun cj =>
        (r0.store cj.1).get ((r0.keptEntities (c :: cs) c.1).getD i 0)) ∧ t.SameShape r0 := by
  induction is generalizing r2 with
  | nil => exact ⟨r2, rfl, h2⟩
  | cons i is ih =>
    have hi := his i (List.mem_cons_self _ _)
    have hgi : (r0.keptEntities (c :: cs) c.1)[i]? =
        some ((r0.keptEntities (c :: cs) c.1).getD i 0) := by
      rw [List.getD_eq_getElem?_getD, List.getElem?_eq_getElem hi]; rfl
    have hmem : (r0.keptEntities (c :: cs) c.1).getD i 0 ∈ r0.keptEntities (c :: cs) c.1 :=
      List.mem_iff_getElem?.mpr ⟨i, hgi⟩
    have hreq := TCompRegistry.hasRequired_iff.mp (TCompRegistry.mem_keptEntities.mp hmem).2
    obtain ⟨t, ht, hts⟩ := slots_shape h _ i _ hgi (c :: cs) hreq r2 h2
    obtain ⟨t2, ht2, hts2⟩ := ih (fun j hj => his j (List.mem_cons_of_mem _ hj))
      (each_write t (c :: cs) ((c :: cs).map fun cj =>
        (r0.store cj.1).get ((r0.keptEntities (c :: cs) c.1).getD i 0))
        (f (each_args t (c :: cs) ((c :: cs).map fun cj =>
          (r0.store cj.1).get ((r0.keptEntities (c :: cs) c.1).getD i 0)))))
      ((each_write_sameShape _ _ _ _).trans hts)
    refine ⟨t2, ?_, hts2⟩
    rw [each_rows]
    simp only
    rw [ht]
    simp only [Option.some_bind]
    rw [ht2]
    rfl

end TComponentView

/-- Claim C25. A view just built by `view_get<T1..Tn>()` on a world whose stores satisfy the
invariant is safe to read: for every row `i < size()` the anchor index `ind_[0][i]` is
within the owner list of the store of `T1`, for every required type `Tj` the pointer
`get_by_index(ind_[j][i])` is not null, and `operator[](i)` returns; forward iteration
returns `size()` sets; and `each(func)` returns for every value-writing callback after
`size()` calls, each of them with a non-null pointer for every required type. -/
theorem fresh_view_access_safe {α σ : Type} (w : TWorld α σ) (c : Nat × Bool)
    (cs : List (Nat × Bool)) (hwf : w.compReg_.WF) :
    ∃ w1 v, w.view_get (c :: cs) = some (w1, v) ∧
      (∀ i, i < v.size →
        (∃ k, (v.ind_.getD 0 [])[i]? = some k ∧ k < (w1.compReg_.store c.1).revMap_.length) ∧
        (∀ (j : Nat) (cj : Nat × Bool), (c :: cs)[j]? = some cj → cj.2 = false →
          ∃ k p, (v.ind_.getD j [])[i]? = some k ∧
            (w1.compReg_.store cj.1).get_by_index k = some p) ∧
        ∃ wr, v.get w1 i = some wr) ∧
      (∃ rows, v.rows w1 = some rows ∧ rows.length = v.size) ∧
      (∀ f : List (Option α) → List (Option α), ∃ res, v.each f w1 = some res ∧
        res.2.length = v.size ∧
        ∀ ptrs ∈ res.2, ∀ (j : Nat) (cj : Nat × Bool), (c :: cs)[j]? = some cj →
          cj.2 = false → ∃ p, ptrs[j]? = some (some p)) := by
  obtain ⟨t, v, hv, hts, hcomps, hind, hsize, hrows⟩ := w.view_get_rows hwf c cs
  obtain ⟨vc, vi⟩ := v
  simp only at hcomps hind
  subst hcomps hind
  have hkept : ∀ ent ∈ w.compReg_.keptEntities (c :: cs) c.1,
      (w.compReg_.store c.1).index_of ent < (w.compReg_.store c.1).revMap_.length ∧
      ∀ cj ∈ c :: cs, cj.2 = false →
        (w.compReg_.store cj.1).get ent = some ((w.compReg_.store cj.1).index_of ent) := by
    intro ent hmem
    have hk := TCompRegistry.mem_keptEntities.mp hmem
    have hreq := TCompRegistry.hasRequired_iff.mp hk.2
    have hcont := ((hwf c.1).contains_iff ent).mpr hk.1
    have hget := (hwf c.1).index_of_of_contains hcont
    have hfwd : (w.compReg_.store c.1).fwd ent = some ((w.compReg_.store c.1).index_of ent) := by
      rw [← (hwf c.1).get_eq]; exact hget
    refine ⟨(hwf c.1).1 ▸ (hwf c.1).fwd_lt hfwd, ?_⟩
    intro cj hcj hreqj
    have := hreq cj hcj
    rw [hreqj, Bool.false_or] at this
    exact (hwf cj.1).index_of_of_contains this
  refine ⟨_, _, hv, ?_, ⟨_, hrows, ?_⟩, ?_⟩
  · intro i hi
    rw [hsize] at hi
    have hgi : (w.compReg_.keptEntities (c :: cs) c.1)[i]? =
        some ((w.compReg_.keptEntities (c :: cs) c.1).getD i 0) := by
      rw [List.getD_eq_getElem?_getD, List.getElem?_eq_getElem hi]; rfl
    have hmem := List.mem_iff_getElem?.mpr ⟨i, hgi⟩
    have hcol : ∀ (j : Nat) (cj : Nat × Bool), (c :: cs)[j]? = some cj →
        ((((c :: cs).map fun cj => (w.compReg_.keptEntities (c :: cs) c.1).map fun ent =>
          (w.compReg_.store cj.1).index_of ent)).getD j [])[i]? =
        some ((w.compReg_.store cj.1).index_of
          ((w.compReg_.keptEntities (c :: cs) c.1).getD i 0)) := by
      intro j cj hj
      rw [List.getD_eq_getElem?_getD, List.getElem?_map, hj]
      simp only [Option.map_some', Option.getD_some, List.getElem?_map, hgi]
    refine ⟨⟨_, hcol 0 c (by simp), ?_⟩, ?_, ?_⟩
    · show _ < (t.store c.1).revMap_.length
      rw [hts]
      exact (hkept _ hmem).1
    · intro j cj hj hreqj
      refine ⟨_, (w.compReg_.store cj.1).index_of
        ((w.compReg_.keptEntities (c :: cs) c.1).getD i 0), hcol j cj hj, ?_⟩
      show (t.store cj.1).get_by_index _ = _
      rw [hts, (hwf cj.1).get_by_index_index_of]
      exact (hkept _ hmem).2 cj (List.mem_iff_getElem?.mpr ⟨j, hj⟩) hreqj
    · obtain ⟨t2, ht2, _⟩ := TComponentView.get_fresh hwf c cs i _ hgi
        ({ w with compReg_ := t } : TWorld α σ) hts
      exact ⟨_, ht2⟩
  · rw [List.length_map, hsize]
  · intro f
    obtain ⟨t2, ht2, _⟩ := TComponentView.each_rows_fresh f hwf c cs
      (List.range (w.compReg_.keptEntities (c :: cs) c.1).length)
      (fun i hi => List.mem_range.mp hi) t (TCompRegistry.SameShape.of_store_eq hts)
    refine ⟨_, by unfold TComponentView.each; rw [hsize]; simp only; rw [ht2]; rfl, ?_, ?_⟩
    · simp only [List.length_map, List.length_range, hsize]
    · intro ptrs hptrs j cj hj hreqj
      simp only at hptrs
      obtain ⟨i, hi, rfl⟩ := List.mem_map.mp hptrs
      have hi := List.mem_range.mp hi
      have hgi : (w.compReg_.keptEntities (c :: cs) c.1)[i]? =
          some ((w.compReg_.keptEntities (c :: cs) c.1).getD i 0) := by
        rw [List.getD_eq_getElem?_getD, List.getElem?_eq_getElem hi]; rfl
      have hmem := List.mem_iff_getElem?.mpr ⟨i, hgi⟩
      refine ⟨(w.compReg_.store cj.1).index_of
        ((w.compReg_.keptEntities (c :: cs) c.1).getD i 0), ?_⟩
      rw [List.getElem?_map, hj]
      simp only [Option.map_some']
      rw [(hkept _ hmem).2 cj (List.mem_iff_getElem?.mpr ⟨j, hj⟩) hreqj]


/-- Instance of claim C25: the view over `{X, Y*}` of the scenario world; every row can be
read, iteration yields `size()` sets and `each` returns for the callback that writes
nothing. -/
theorem fresh_view_access_safe_witness :
    ∃ w1 v,
      (TWorld.mk 0 ⟨[some ⟨[10, 20], [ID_MAX, 0, 1], [1, 2]⟩,
        some ⟨[7], [ID_MAX, ID_MAX, 0], [2]⟩]⟩ [] [] [] [] : TWorld Nat Unit).view_get
          [(0, false), (1, true)] = some (w1, v) ∧
      (∀ i, i < v.size → ∃ wr, v.get w1 i = some wr) ∧
      (∃ rows, v.rows w1 = some rows ∧ rows.length = v.size) ∧
      (∃ res, v.each (fun args => args.map fun _ => none) w1 = some res ∧
        res.2.length = v.size) :=
  (fresh_view_access_safe
    (TWorld.mk 0 ⟨[some ⟨[10, 20], [ID_MAX, 0, 1], [1, 2]⟩,
      some ⟨[7], [ID_MAX, ID_MAX, 0], [2]⟩]⟩ [] [] [] []) (0, false) [(1, true)]
    (by decide)).imp
    fun _ h1 => h1.imp fun _ h =>
      ⟨h.1, fun i hi => (h.2.1 i hi).2.2, h.2.2.1,
        (h.2.2.2 (fun args => args.map fun _ => none)).imp fun _ hr => ⟨hr.1, hr.2.1⟩⟩

/-- Evaluation of `each` on the view over `{X, Y*}` of the scenario world with a callback
that doubles the required component: two calls, the second with both pointers, the first
with a null `Y*`; the `X` values become 20 and 40. -/
theorem view_each_example :
    (((TWorld.mk 0 ⟨[some ⟨[10, 20], [ID_MAX, 0, 1], [1, 2]⟩,
        some ⟨[7], [ID_MAX, ID_MAX, 0], [2]⟩]⟩ [] [] [] [] : TWorld Nat Unit).view_get
          [(0, false), (1, true)]).bind fun wv =>
      (wv.2.each (fun args => [(args.headD none).map fun x => 2 * x, none]) wv.1).map fun res =>
        (res.1.compReg_.store 0, res.2)) =
      some (⟨[20, 40], [ID_MAX, 0, 1], [1, 2]⟩, [[some 0, none], [some 1, some 0]]) := by
  decide


theorem lookup_isSome_iff_mem {τ : Type} [DecidableEq τ] (l : List (τ × Nat)) (D : τ) :
    (l.lookup D).isSome = true ↔ D ∈ l.map Prod.fst := by
  induction l with
  | nil => simp
  | cons a l ih =>
    obtain ⟨a1, a2⟩ := a
    rw [List.lookup_cons]
    by_cases h : D = a1
    · subst h; simp
    · have hne : (D == a1) = false := by simpa using h
      rw [hne]
      simp only [List.map_cons, List.mem_cons, h, false_or]
      exact ih

theorem lookup_eq_some_iff_mem {τ : Type} [DecidableEq τ] {l : List (τ × Nat)}
    (h : (l.map Prod.fst).Nodup) (D : τ) (n : Nat) :
    l.lookup D = some n ↔ (D, n) ∈ l := by
  induction l with
  | nil => simp
  | cons a l ih =>
    obtain ⟨a1, a2⟩ := a
    rw [List.map_cons, List.nodup_cons] at h
    rw [List.lookup_cons]
    by_cases hD : D = a1
    · subst hD
      simp only [beq_self_eq_true, List.mem_cons, Prod.mk.injEq, true_and, Option.some.injEq]
      constructor
      · intro hn; exact Or.inl hn.symm
      · rintro (hn | hn)
        · exact hn.symm
        · exact absurd (List.mem_map.mpr ⟨(D, n), hn, rfl⟩) h.1
    · have hne : (D == a1) = false := by simpa using hD
      rw [hne]
      simp only [List.mem_cons, Prod.mk.injEq, hD, false_and, false_or]
      exact ih h.2

theorem nodup_length_le_dedup {τ : Type} [DecidableEq τ] {l total : List τ} (h : l.Nodup)
    (hsub : ∀ x ∈ l, x ∈ total) : l.length ≤ total.dedup.length :=
  (h.subperm fun x hx => List.mem_dedup.mpr (hsub x hx)).length_le

theorem TTypeId.init_inner_inv {τ : Type} [DecidableEq τ] (total : List τ)
    (hcount : total.dedup.length ≤ ID_MOD) (st : TTypeId τ) (D : τ) (hD : D ∈ total)
    (hsub : ∀ x ∈ st.inner.map Prod.fst, x ∈ total)
    (h1 : (st.inner.map Prod.fst).Nodup)
    (h2 : st.inner.map Prod.snd = List.range st.inner.length)
    (h3 : st.lastUnused_ = st.inner.length % ID_MOD) :
    ((st.init_inner D).inner.map Prod.fst).Nodup ∧
    (st.init_inner D).inner.map Prod.snd = List.range (st.init_inner D).inner.length ∧
    (st.init_inner D).lastUnused_ = (st.init_inner D).inner.length % ID_MOD ∧
    (∀ x, x ∈ (st.init_inner D).inner.map Prod.fst ↔ x ∈ st.inner.map Prod.fst ∨ x = D) := by
  unfold TTypeId.init_inner
  by_cases hl : (st.inner.lookup D).isSome = true
  · rw [if_pos hl]
    refine ⟨h1, h2, h3, fun x => ⟨Or.inl, ?_⟩⟩
    rintro (hx | hx)
    · exact hx
    · rw [hx]; exact (lookup_isSome_iff_mem _ _).mp hl
  · rw [if_neg hl]
    have hnot : D ∉ st.inner.map Prod.fst := fun hmem => hl ((lookup_isSome_iff_mem _ _).mpr hmem)
    have hnd : (st.inner.map Prod.fst ++ [D]).Nodup := by
      rw [List.nodup_append]
      refine ⟨h1, List.nodup_singleton D, ?_⟩
      intro x hx hx2
      rw [List.mem_singleton] at hx2
      exact hnot (hx2 ▸ hx)
    have hlen := @nodup_length_le_dedup τ _ _ total hnd (by
      intro x hx
      rcases List.mem_append.mp hx with hx | hx
      · exact hsub x hx
      · rw [List.mem_singleton] at hx; rw [hx]; exact hD)
    simp only [List.length_append, List.length_map, List.length_singleton] at hlen
    have hlt : st.inner.length < ID_MOD := by omega
    have hcnt : st.lastUnused_ = st.inner.length := by rw [h3, Nat.mod_eq_of_lt hlt]
    simp only [List.map_append, List.map_cons, List.map_nil, List.length_append,
      List.length_singleton]
    refine ⟨hnd, ?_, ?_, ?_⟩
    · rw [h2, hcnt, List.range_succ]
    · rw [hcnt]
    · intro x
      rw [List.mem_append, List.mem_singleton]

theorem TTypeId.foldl_init_inv {τ : Type} [DecidableEq τ] (decay : τ → τ) (total : List τ)
    (hcount : total.dedup.length ≤ ID_MOD) (l : List τ) (st : TTypeId τ)
    (hl : ∀ T ∈ l, decay T ∈ total)
    (hsub : ∀ x ∈ st.inner.map Prod.fst, x ∈ total)
    (h1 : (st.inner.map Prod.fst).Nodup)
    (h2 : st.inner.map Prod.snd = List.range st.inner.length)
    (h3 : st.lastUnused_ = st.inner.length % ID_MOD) :
    (((l.foldl (fun st T => st.init_inner (decay T)) st).inner).map Prod.fst).Nodup ∧
    ((l.foldl (fun st T => st.init_inner (decay T)) st).inner).map Prod.snd =
      List.range (l.foldl (fun st T => st.init_inner (decay T)) st).inner.length ∧
    (∀ x, x ∈ ((l.foldl (fun st T => st.init_inner (decay T)) st).inner).map Prod.fst ↔
      x ∈ st.inner.map Prod.fst ∨ x ∈ l.map decay) := by
  induction l generalizing st with
  | nil => exact ⟨h1, h2, fun x => by simp⟩
  | cons T l ih =>
    obtain ⟨g1, g2, g3, g4⟩ := TTypeId.init_inner_inv total hcount st (decay T)
      (hl T (List.mem_cons_self _ _)) hsub h1 h2 h3
    have hsub2 : ∀ x ∈ (st.init_inner (decay T)).inner.map Prod.fst, x ∈ total := by
      intro x hx
      rcases (g4 x).mp hx with hx | hx
      · exact hsub x hx
      · rw [hx]; exact hl T (List.mem_cons_self _ _)
    obtain ⟨k1, k2, k3⟩ := ih (st.init_inner (decay T))
      (fun U hU => hl U (List.mem_cons_of_mem _ hU)) hsub2 g1 g2 g3
    refine ⟨k1, k2, fun x => ?_⟩
    rw [List.foldl_cons, k3 x, g4 x, List.map_cons, List.mem_cons]
    tauto


/-- Claim C23. Within one family, after static initialisation of the specialisations a
program uses (in any order), `get_type_id<T, FAM>()` returns a value for every used type
`T`, two used types get the same value exactly when their decayed types are the same, and
the values handed out for the `k` distinct decayed types are exactly `0, 1, ..., k - 1`:
each is below `k`, each number below `k` is the id of some used type, and the values in
initialisation order are `0, 1, ..., k - 1`. The number of distinct decayed types is assumed
to fit the 32-bit counter. -/
theorem get_type_id_stable_distinct_dense {τ : Type} [DecidableEq τ] (decay : τ → τ)
    (used : List τ) (hcount : ((used.map decay).dedup).length ≤ ID_MOD) :
    (∀ T ∈ used, ∃ n, get_type_id (TTypeId.static_init decay used) decay T = some n ∧
      n < ((used.map decay).dedup).length) ∧
    (∀ T ∈ used, ∀ U ∈ used,
      (get_type_id (TTypeId.static_init decay used) decay T =
        get_type_id (TTypeId.static_init decay used) decay U ↔ decay T = decay U)) ∧
    (∀ n, n < ((used.map decay).dedup).length →
      ∃ T ∈ used, get_type_id (TTypeId.static_init decay used) decay T = some n) ∧
    (TTypeId.static_init decay used).inner.map Prod.snd =
      List.range ((used.map decay).dedup).length := by
  obtain ⟨k1, k2, k3⟩ := TTypeId.foldl_init_inv decay (used.map decay) hcount used
    TTypeId.start (fun T hT => List.mem_map_of_mem decay hT)
    (fun x hx => absurd hx (List.not_mem_nil x)) List.nodup_nil rfl rfl
  have k4 : ∀ x, x ∈ (TTypeId.static_init decay used).inner.map Prod.fst ↔
      x ∈ used.map decay := by
    intro x
    have := k3 x
    simp only [TTypeId.start, List.map_nil, List.not_mem_nil, false_or] at this
    exact this
  change ((TTypeId.static_init decay used).inner.map Prod.fst).Nodup at k1
  change (TTypeId.static_init decay used).inner.map Prod.snd =
    List.range (TTypeId.static_init decay used).inner.length at k2
  have hperm : ((TTypeId.static_init decay used).inner.map Prod.fst).Perm
      (used.map decay).dedup :=
    (List.perm_ext_iff_of_nodup k1 (List.nodup_dedup _)).mpr fun x => by
      rw [k4, List.mem_dedup]
  have hlen : (TTypeId.static_init decay used).inner.length =
      ((used.map decay).dedup).length := by
    rw [← hperm.length_eq, List.length_map]
  have hval : ∀ p ∈ (TTypeId.static_init decay used).inner,
      p.2 < (TTypeId.static_init decay used).inner.length := by
    intro p hp
    have : p.2 ∈ (TTypeId.static_init decay used).inner.map Prod.snd :=
      List.mem_map_of_mem Prod.snd hp
    rw [k2] at this
    exact List.mem_range.mp this
  have hget : ∀ T ∈ used, ∃ n, get_type_id (TTypeId.static_init decay used) decay T = some n ∧
      (decay T, n) ∈ (TTypeId.static_init decay used).inner := by
    intro T hT
    have hmem := (k4 (decay T)).mpr (List.mem_map_of_mem decay hT)
    obtain ⟨p, hp, hpT⟩ := List.mem_map.mp hmem
    obtain ⟨p1, p2⟩ := p
    simp only at hpT
    subst hpT
    exact ⟨p2, (lookup_eq_some_iff_mem k1 _ _).mpr hp, hp⟩
  have hvnd : ((TTypeId.static_init decay used).inner.map Prod.snd).Nodup := by
    rw [k2]; exact List.nodup_range _
  refine ⟨?_, ?_, ?_, ?_⟩
  · intro T hT
    obtain ⟨n, hn, hp⟩ := hget T hT
    exact ⟨n, hn, hlen ▸ hval _ hp⟩
  · intro T hT U hU
    constructor
    · intro h
      obtain ⟨n, hn, hp⟩ := hget T hT
      obtain ⟨m, hm, hq⟩ := hget U hU
      rw [hn, hm] at h
      have hnm : n = m := Option.some.inj h
      subst hnm
      have := List.inj_on_of_nodup_map hvnd hp hq rfl
      exact (Prod.mk.inj this).1
    · intro h
      unfold get_type_id TTypeId.id
      rw [h]
  · intro n hn
    rw [← hlen] at hn
    have hp := List.getElem_mem hn
    have hsnd : ((TTypeId.static_init decay used).inner[n]).2 = n := by
      have h1 : ((TTypeId.static_init decay used).inner.map Prod.snd)[n]? =
          (List.range (TTypeId.static_init decay used).inner.length)[n]? := by rw [k2]
      rw [List.getElem?_map, List.getElem?_eq_getElem hn, List.getElem?_range hn] at h1
      exact Option.some.inj h1
    have hfst : ((TTypeId.static_init decay used).inner[n]).1 ∈ used.map decay :=
      (k4 _).mp (List.mem_map_of_mem Prod.fst hp)
    obtain ⟨T, hT, hTd⟩ := List.mem_map.mp hfst
    refine ⟨T, hT, ?_⟩
    unfold get_type_id TTypeId.id
    rw [lookup_eq_some_iff_mem k1, hTd]
    have : ((TTypeId.static_init decay used).inner[n]) =
        (((TTypeId.static_init decay used).inner[n]).1, n) :=
      Prod.ext rfl hsnd
    rw [← this]
    exact hp
  · rw [k2, hlen]

/-- Instance of claim C23: types 4 and 5 decay to the same type, types 0 and 2 to two others
(the decayed type of `t` is `t / 2`); the three decayed types get the ids 0, 1 and 2. -/
theorem get_type_id_stable_distinct_dense_witness :
    (([4, 0, 5, 2].map fun t => t / 2).dedup).length ≤ ID_MOD ∧
    (∀ T ∈ [4, 0, 5, 2], ∀ U ∈ [4, 0, 5, 2],
      (get_type_id (TTypeId.static_init (fun t => t / 2) [4, 0, 5, 2]) (fun t => t / 2) T =
        get_type_id (TTypeId.static_init (fun t => t / 2) [4, 0, 5, 2]) (fun t => t / 2) U ↔
        T / 2 = U / 2)) ∧
    (TTypeId.static_init (fun t => t / 2) [4, 0, 5, 2]).inner.map Prod.snd =
      List.range (([4, 0, 5, 2].map fun t => t / 2).dedup).length :=
  ⟨by decide,
    (get_type_id_stable_distinct_dense (fun t => t / 2) [4, 0, 5, 2] (by decide)).2.1,
    (get_type_id_stable_distinct_dense (fun t => t / 2) [4, 0, 5, 2] (by decide)).2.2.2⟩

/-- Evaluation of the ids of the instance above: `inner` is initialised for the decayed
types 2, 0 and 1 in that order, and the four used types get the ids 0, 1, 0 and 2. -/
theorem get_type_id_example :
    TTypeId.static_init (fun t => t / 2) [4, 0, 5, 2] = ⟨3, [(2, 0), (0, 1), (1, 2)]⟩ ∧
    [4, 0, 5, 2].map (get_type_id (TTypeId.static_init (fun t => t / 2) [4, 0, 5, 2])
      (fun t => t / 2)) = [some 0, some 1, some 0, some 2] := by
  decide


/-- Claim C4 fails on the code. After `comp_add<A>(0, ...)` whose constructor throws and
`comp_add<A>(1, 10)` on a new world, the store of `A` is `arr_ = [10]`, `map_ = [ID_MAX, 0]`,
`revMap_ = [0, 1]`: entity 1 owns an `A` (`contains(1)` is true and `comp_get<A>(1)` is slot
0), yet the view built by `view_get<A, B*>()` has no row at all. -/
theorem view_observational_skips_owner :
    ((TWorld.empty : TWorld Nat Unit).comp_add 0 0 none).bind
        (fun u => u.comp_add 0 1 (some 10)) =
      some (TWorld.mk 0 ⟨[some ⟨[10], [ID_MAX, 0], [0, 1]⟩]⟩ [] [] [] []) ∧
    ((TCompRegistry.mk [some ⟨[10], [ID_MAX, 0], [0, 1]⟩] : TCompRegistry Nat).store
      0).contains 1 = true ∧
    ((TWorld.mk 0 ⟨[some ⟨[10], [ID_MAX, 0], [0, 1]⟩]⟩ [] [] [] [] :
      TWorld Nat Unit).comp_get 0 1).2 = some 0 ∧
    ((TWorld.mk 0 ⟨[some ⟨[10], [ID_MAX, 0], [0, 1]⟩]⟩ [] [] [] [] :
      TWorld Nat Unit).view_get [(0, false), (1, true)]).bind
        (fun wv => (wv.2.rows wv.1).map fun rows => (wv.2.size, rows)) = some (0, []) := by
  decide

/-- Claim C8 fails on the code. After `insert(0, 10)`, `insert(1, ...)` whose constructor
throws and `remove(0)` on an empty store, the store is `arr_ = []`, `map_ = [ID_MAX, 0]`,
`revMap_ = [1]`: `contains(1)` is false, yet `remove(1)` passes its guard and assigns
`arr_[0] = arr_.back()` on an empty vector, which is undefined; the store is not returned
unchanged. -/
theorem remove_uncontained_not_noop :
    runCalls (TCompArray.empty : TCompArray Nat)
        [StoreCall.insert 0 (some 10), StoreCall.insert 1 none, StoreCall.remove 0] =
      some ⟨[], [ID_MAX, 0], [1]⟩ ∧
    (TCompArray.mk ([] : List Nat) [ID_MAX, 0] [1]).contains 1 = false ∧
    (TCompArray.mk ([] : List Nat) [ID_MAX, 0] [1]).remove 1 = none := by
  decide

/-- Claim C9 fails on the code. After `comp_add<X>(0, ...)` whose constructor throws,
`comp_add<X>(1, 101)` and `comp_add<X>(2, 102)` on a new world, the store of `X` is
`arr_ = [101, 102]`, `map_ = [ID_MAX, 0, 1]`, `revMap_ = [0, 1, 2]`. `entity_destroy(0)`
leaves it as it is, and the view over `{X}` built afterwards has one row, whose entity as
reported by `operator[]` is 0. -/
theorem entity_destroy_leaves_row :
    (((TWorld.empty : TWorld Nat Unit).comp_add 0 0 none).bind fun u1 =>
      (u1.comp_add 0 1 (some 101)).bind fun u2 =>
      (u2.comp_add 0 2 (some 102)).bind fun w =>
      (w.entity_destroy 0).bind fun w1 =>
      (w1.view_get [(0, false)]).bind fun wv =>
      (wv.2.rows wv.1).map fun rows =>
        (w.compReg_.store 0, w1.compReg_.store 0, rows.map ComponentSet.entity)) =
      some (⟨[101, 102], [ID_MAX, 0, 1], [0, 1, 2]⟩, ⟨[101, 102], [ID_MAX, 0, 1], [0, 1, 2]⟩,
        [0]) := by
  decide

/-- Claim C10 fails on the code. After `comp_add<X>(0, 10)` and `comp_add<X>(1, ...)` whose
constructor throws on a new world, the store of `X` is `arr_ = [10]`, `map_ = [0, 0]`,
`revMap_ = [0, 1]` and `comp_get<X>(0)` is the component 10. `entity_destroy(1)` returns with
`arr_ = []`: the component of entity 0 is gone and `comp_get<X>(0)` is null. -/
theorem entity_destroy_removes_other :
    (((TWorld.empty : TWorld Nat Unit).comp_add 0 0 (some 10)).bind fun u =>
      (u.comp_add 0 1 none).bind fun w =>
      (w.entity_destroy 1).map fun w1 =>
        (w.compReg_.store 0, (w.compReg_.store 0).deref (w.comp_get 0 0).2,
          w1.compReg_.store 0, (w1.comp_get 0 0).2)) =
      some (⟨[10], [0, 0], [0, 1]⟩, some 10, ⟨[], [0, 0], [1]⟩, none) := by
  decide

/-- Claim C15 fails on the code. After `comp_add<X>(0, 10)`, `comp_add<X>(1, ...)` whose
constructor throws and `comp_add<X>(2, 20)` on a new world, the store of `X` is
`arr_ = [10, 20]`, `map_ = [0, 0, 1]`, `revMap_ = [0, 1, 2]`. The view built by
`view_get<X>()` has the anchor index list `[0, 0]`, which is not strictly increasing, and
its row entities are `[0, 0]`: entity 2, which owns an `X`, has no row and entity 0 has
two. -/
theorem view_rows_not_dense_order :
    (((TWorld.empty : TWorld Nat Unit).comp_add 0 0 (some 10)).bind fun u1 =>
      (u1.comp_add 0 1 none).bind fun u2 =>
      (u2.comp_add 0 2 (some 20)).bind fun w =>
      (w.view_get [(0, false)]).bind fun wv =>
      (wv.2.rows wv.1).map fun rows =>
        (w.compReg_.store 0, (w.compReg_.store 0).contains 2, wv.2.ind_,
          rows.map ComponentSet.entity)) =
      some (⟨[10, 20], [0, 0, 1], [0, 1, 2]⟩, true, [[0, 0]], [0, 0]) := by
  decide

/-- Claim C26 fails on the code. After `comp_add<A>(0, ...)` whose constructor throws,
`comp_add<A>(1, 10)`, `comp_add<B>(0, 7)` and `comp_add<B>(1, 8)` on a new world, the store
of `A` is `arr_ = [10]`, `map_ = [ID_MAX, 0]`, `revMap_ = [0, 1]`. The view built by
`view_get<A*, B>()` has size 1 and the index lists `[[SIZE_MAX], [0]]`: its anchor entry
`get_by_index(SIZE_MAX)` is null and `operator[](0)` reads `revMap_` past its end. The view
built by `view_get<A, B>()` has size 0 and empty index lists. -/
theorem anchor_observational_differs :
    (((TWorld.empty : TWorld Nat Unit).comp_add 0 0 none).bind fun u1 =>
      (u1.comp_add 0 1 (some 10)).bind fun u2 =>
      (u2.comp_add 1 0 (some 7)).bind fun u3 => u3.comp_add 1 1 (some 8)) =
      some (TWorld.mk 0 ⟨[some ⟨[10], [ID_MAX, 0], [0, 1]⟩,
        some ⟨[7, 8], [0, 1], [0, 1]⟩]⟩ [] [] [] []) ∧
    ((TWorld.mk 0 ⟨[some ⟨[10], [ID_MAX, 0], [0, 1]⟩,
        some ⟨[7, 8], [0, 1], [0, 1]⟩]⟩ [] [] [] [] : TWorld Nat Unit).view_get
          [(0, true), (1, false)]).map
      (fun wv => (wv.2.ind_, wv.2.size, (wv.2.get wv.1 0).isSome)) =
      some ([[SIZE_MAX], [0]], 1, false) ∧
    (TCompArray.mk [10] [ID_MAX, 0] [0, 1]).get_by_index SIZE_MAX = none ∧
    ((TWorld.mk 0 ⟨[some ⟨[10], [ID_MAX, 0], [0, 1]⟩,
        some ⟨[7, 8], [0, 1], [0, 1]⟩]⟩ [] [] [] [] : TWorld Nat Unit).view_get
          [(0, false), (1, false)]).bind
      (fun wv => (wv.2.rows wv.1).map fun rows => (wv.2.ind_, wv.2.size, rows)) =
      some ([[], []], 0, []) := by
  decide

end ECS
